import Mathlib

/-!
Verification of the code-clone detection engine of the homecheck-extrule
repository (TypeScript), as a shallow embedding in Lean 4.

Conventions of the embedding:
* JavaScript numbers holding 32-bit integer intermediate values are modelled
  as `Int` with an explicit wrap `toInt32` at each point where the source
  applies a 32-bit operator (`<<`, `&`).
* JavaScript strings are modelled as Lean `String`; `charCodeAt` is modelled
  by the code point of each `Char` (identical to the UTF-16 code unit for
  all characters below U+10000, which covers every input appearing here).
* JavaScript `Array`/`Map` are modelled as `List` and insertion-ordered
  association lists, matching the iteration-order guarantees of `Map`.
* Code that can throw (an access on `undefined`) is modelled with `Option`:
  `none` is a thrown `TypeError`.
* `String.prototype.localeCompare` is modelled as code-point lexicographic
  comparison; every comparison exercised below is between ASCII file names,
  where the two orders agree on equality and grouping.
-/

namespace HomecheckExtrule

/-! ## 32-bit integer arithmetic (JavaScript `ToInt32`) -/

/-- JavaScript `ToInt32`: wrap an integer into the signed 32-bit range
`[-2^31, 2^31)`.  This is what the `<<` and `&` operators apply to their
operands and produce. -/
def toInt32 (x : Int) : Int := (x + 2 ^ 31) % 2 ^ 32 - 2 ^ 31

theorem toInt32_lower (x : Int) : -2 ^ 31 ≤ toInt32 x := by
  unfold toInt32; omega

theorem toInt32_upper (x : Int) : toInt32 x < 2 ^ 31 := by
  unfold toInt32; omega

theorem toInt32_congr {x y : Int} (h : x % 2 ^ 32 = y % 2 ^ 32) :
    toInt32 x = toInt32 y := by
  unfold toInt32; omega

theorem toInt32_emod (x : Int) : toInt32 x % 2 ^ 32 = x % 2 ^ 32 := by
  unfold toInt32; omega

theorem toInt32_eq_self {x : Int} (h1 : -2 ^ 31 ≤ x) (h2 : x < 2 ^ 31) :
    toInt32 x = x := by
  unfold toInt32; omega

/-! ## Hexadecimal rendering (JavaScript `Number.prototype.toString(16)`) -/

/-- One hexadecimal digit, lowercase, as JavaScript renders it. -/
def hexDigit (n : Nat) : Char :=
  if n = 0 then '0' else if n = 1 then '1' else if n = 2 then '2'
  else if n = 3 then '3' else if n = 4 then '4' else if n = 5 then '5'
  else if n = 6 then '6' else if n = 7 then '7' else if n = 8 then '8'
  else if n = 9 then '9' else if n = 10 then 'a' else if n = 11 then 'b'
  else if n = 12 then 'c' else if n = 13 then 'd' else if n = 14 then 'e'
  else 'f'

/-- Numeric value of a hexadecimal digit character (inverse of `hexDigit`). -/
def hexDigitVal (c : Char) : Nat :=
  if c = '0' then 0 else if c = '1' then 1 else if c = '2' then 2
  else if c = '3' then 3 else if c = '4' then 4 else if c = '5' then 5
  else if c = '6' then 6 else if c = '7' then 7 else if c = '8' then 8
  else if c = '9' then 9 else if c = 'a' then 10 else if c = 'b' then 11
  else if c = 'c' then 12 else if c = 'd' then 13 else if c = 'e' then 14
  else 15

/-- Hexadecimal digit list of `n`, most significant first.  Fuel-driven so
that it reduces definitionally; `natToHex` supplies enough fuel. -/
def natToHexAux (fuel : Nat) (n : Nat) : List Char :=
  match fuel with
  | 0 => []
  | fuel + 1 =>
    if n < 16 then [hexDigit n]
    else natToHexAux fuel (n / 16) ++ [hexDigit (n % 16)]

/-- Hexadecimal rendering of a natural number, lowercase, no leading zeros,
`"0"` for zero — the behaviour of `toString(16)` on a nonnegative integer. -/
def natToHex (n : Nat) : String := String.mk (natToHexAux (n + 1) n)

/-- Numeric value of a hexadecimal digit string (big-endian). -/
def hexVal (cs : List Char) : Nat := cs.foldl (fun a c => a * 16 + hexDigitVal c) 0

theorem hexDigitVal_hexDigit {n : Nat} (h : n < 16) : hexDigitVal (hexDigit n) = n := by
  interval_cases n <;> decide

theorem hexVal_append (xs ys : List Char) :
    hexVal (xs ++ ys) = ys.foldl (fun a c => a * 16 + hexDigitVal c) (hexVal xs) := by
  unfold hexVal
  exact List.foldl_append _ _ _ _

theorem natToHexAux_spec :
    ∀ (fuel n : Nat), n < 16 ^ (fuel + 1) →
      hexVal (natToHexAux (fuel + 1) n) = n ∧ natToHexAux (fuel + 1) n ≠ [] ∧
      ∀ c ∈ natToHexAux (fuel + 1) n, ∃ d, d < 16 ∧ c = hexDigit d := by
  intro fuel
  induction fuel with
  | zero =>
    intro n h
    have hlt : n < 16 := by simpa using h
    refine ⟨?_, ?_, ?_⟩
    · simp [natToHexAux, hlt, hexVal, hexDigitVal_hexDigit hlt]
    · simp [natToHexAux, hlt]
    · intro c hc
      simp [natToHexAux, hlt] at hc
      exact ⟨n, hlt, hc⟩
  | succ fuel ih =>
    intro n h
    by_cases hlt : n < 16
    · refine ⟨?_, ?_, ?_⟩
      · simp [natToHexAux, hlt, hexVal, hexDigitVal_hexDigit hlt]
      · simp [natToHexAux, hlt]
      · intro c hc
        simp [natToHexAux, hlt] at hc
        exact ⟨n, hlt, hc⟩
    · have hdiv : n / 16 < 16 ^ (fuel + 1) := by
        apply Nat.div_lt_of_lt_mul
        have hpow : (16 : Nat) ^ (fuel + 1 + 1) = 16 * 16 ^ (fuel + 1) := by ring
        omega
      obtain ⟨hval, hne, hdigits⟩ := ih (n / 16) hdiv
      refine ⟨?_, ?_, ?_⟩
      · show hexVal (if n < 16 then [hexDigit n]
          else natToHexAux (fuel + 1) (n / 16) ++ [hexDigit (n % 16)]) = n
        simp only [hlt, if_false]
        rw [hexVal_append, hval]
        simp [hexDigitVal_hexDigit (Nat.mod_lt n (by omega))]
        omega
      · show (if n < 16 then [hexDigit n]
          else natToHexAux (fuel + 1) (n / 16) ++ [hexDigit (n % 16)]) ≠ []
        simp [hlt]
      · intro c hc
        have hc : c ∈ (if n < 16 then [hexDigit n]
            else natToHexAux (fuel + 1) (n / 16) ++ [hexDigit (n % 16)]) := hc
        simp only [hlt, if_false, List.mem_append, List.mem_singleton] at hc
        rcases hc with hc | hc
        · exact hdigits c hc
        · exact ⟨n % 16, Nat.mod_lt n (by omega), hc⟩

theorem lt_sixteen_pow (n : Nat) : n < 16 ^ (n + 1) := by
  induction n with
  | zero => decide
  | succ n ih =>
    have hpow : (16 : Nat) ^ (n + 1 + 1) = 16 ^ (n + 1) * 16 := by ring
    have hpos : 0 < (16 : Nat) ^ (n + 1) := Nat.pos_pow_of_pos _ (by omega)
    omega

theorem natToHexAux_spec' (n : Nat) :
    hexVal (natToHexAux (n + 1) n) = n ∧ natToHexAux (n + 1) n ≠ [] ∧
      ∀ c ∈ natToHexAux (n + 1) n, ∃ d, d < 16 ∧ c = hexDigit d := by
  cases n with
  | zero => exact natToHexAux_spec 0 0 (by decide)
  | succ n => exact natToHexAux_spec (n + 1) (n + 1) (lt_sixteen_pow (n + 1))

theorem natToHex_data_inj {m n : Nat}
    (h : (natToHex m).data = (natToHex n).data) : m = n := by
  have hm := natToHexAux_spec' m
  have hn := natToHexAux_spec' n
  have hlists : natToHexAux (m + 1) m = natToHexAux (n + 1) n := h
  calc m = hexVal (natToHexAux (m + 1) m) := (hm.1).symm
    _ = hexVal (natToHexAux (n + 1) n) := by rw [hlists]
    _ = n := hn.1

theorem natToHex_head_ne_dash (n : Nat) :
    ∀ c ∈ (natToHex n).data, c ≠ '-' := by
  intro c hc
  obtain ⟨_, _, hdigits⟩ := natToHexAux_spec' n
  obtain ⟨d, hd, rfl⟩ := hdigits c hc
  interval_cases d <;> decide

/-- Rendering of a signed integer value the way
`Number.prototype.toString(16)` renders an integral number: a leading `-`
for negatives, lowercase hex digits of the absolute value. -/
def intToHexString (h : Int) : String :=
  if h < 0 then "-" ++ natToHex h.natAbs else natToHex h.toNat

theorem intToHexString_inj {x y : Int} (hx : -2 ^ 31 ≤ x) (hy : -2 ^ 31 ≤ y)
    (h : intToHexString x = intToHexString y) : x = y := by
  unfold intToHexString at h
  have hdata := congrArg String.data h
  by_cases hxneg : x < 0 <;> by_cases hyneg : y < 0
  · simp only [hxneg, hyneg, if_true] at hdata
    have h2 : ('-' :: (natToHex x.natAbs).data) = ('-' :: (natToHex y.natAbs).data) := by
      simpa [String.data_append] using hdata
    have h3 : (natToHex x.natAbs).data = (natToHex y.natAbs).data := by
      injection h2
    have := natToHex_data_inj h3
    omega
  · exfalso
    simp only [hxneg, hyneg, if_true, if_false] at hdata
    have h2 : ('-' :: (natToHex x.natAbs).data) = (natToHex y.toNat).data := by
      simpa [String.data_append] using hdata
    have : '-' ∈ (natToHex y.toNat).data := by
      rw [← h2]; exact List.mem_cons_self _ _
    exact natToHex_head_ne_dash y.toNat '-' this rfl
  · exfalso
    simp only [hxneg, hyneg, if_true, if_false] at hdata
    have h2 : (natToHex x.toNat).data = ('-' :: (natToHex y.natAbs).data) := by
      simpa [String.data_append] using hdata
    have : '-' ∈ (natToHex x.toNat).data := by
      rw [h2]; exact List.mem_cons_self _ _
    exact natToHex_head_ne_dash x.toNat '-' this rfl
  · simp only [hxneg, hyneg, if_false] at hdata
    have := natToHex_data_inj hdata
    omega

/-! ## djb2Hash (src/Checkers/utils.ts and FragmentDetection/HashIndex.ts)

```
export function djb2Hash(str: string): string {
    let hash = 0;
    for (let i = 0; i < str.length; i++) {
        const char = str.charCodeAt(i);
        hash = ((hash << 5) - hash) + char;
        hash = hash & hash;
    }
    return hash.toString(16);
}
```
`hash << 5` wraps `hash * 32` into int32 range; `hash & hash` wraps the
exact intermediate sum back into int32 range. -/

/-- Character codes of a string: code point of each character (equal to the
UTF-16 code unit returned by `charCodeAt` for every character below
U+10000). -/
def charCodes (s : String) : List Nat := s.data.map Char.toNat

/-- One iteration of the djb2Hash loop body. -/
def djb2Step (hash : Int) (char : Nat) : Int :=
  toInt32 (toInt32 (hash * 32) - hash + char)

def djb2Hash (str : String) : String :=
  intToHexString ((charCodes str).foldl djb2Step 0)

/-- Modelled from the spec: the step formula the spec states for djb2Hash,
`hash = hash*33 - hash + charCode`, truncated to 32 bits after each step. -/
def djb2StepSpec (hash : Int) (char : Nat) : Int :=
  toInt32 (hash * 33 - hash + char)

/-- Modelled from the spec: djb2Hash as the spec describes it, folding with
`djb2StepSpec` and rendering the result in hexadecimal. -/
def djb2HashSpec (str : String) : String :=
  intToHexString ((charCodes str).foldl djb2StepSpec 0)

theorem djb2Step_eq (hash : Int) (char : Nat) :
    djb2Step hash char = toInt32 (hash * 32 - hash + char) := by
  unfold djb2Step
  apply toInt32_congr
  have := toInt32_emod (hash * 32)
  omega

/-- C3 (counterexample): the code's djb2Hash does not fold with the step
`hash = hash*33 - hash + charCode` claimed by the spec.  On the two-character
string `"ab"` the code computes `((0<<5)-0+97) = 97` and then
`((97<<5)-97+98) = 3105 = 0xc21`, while the claimed step gives
`97*33-97+98 = 3202 = 0xc82`. -/
theorem claim_C3_counterexample :
    djb2Hash "ab" = "c21" ∧ djb2HashSpec "ab" = "c82" ∧
      djb2Hash "ab" ≠ djb2HashSpec "ab" := by
  refine ⟨by decide, by decide, by decide⟩

/-- C3 (amended): djb2Hash folds the string left to right starting from 0
with the step `hash = hash*32 - hash + charCode` (the code's
`(hash << 5) - hash + charCode`), truncated to 32 bits after each step, and
returns the result rendered as a hexadecimal string; the function is
deterministic, so equal strings always hash equal. -/
theorem claim_C3_theorem :
    (∀ s : String,
        djb2Hash s =
          intToHexString
            ((charCodes s).foldl
              (fun (hash : Int) (char : Nat) => toInt32 (hash * 32 - hash + char)) 0)) ∧
    (∀ s1 s2 : String, s1 = s2 → djb2Hash s1 = djb2Hash s2) := by
  constructor
  · intro s
    unfold djb2Hash
    have hfun : djb2Step = fun (hash : Int) (char : Nat) => toInt32 (hash * 32 - hash + char) := by
      funext hash char
      exact djb2Step_eq hash char
    rw [hfun]
  · intro s1 s2 h
    rw [h]

/-- C3 (witness): the amended theorem applied at the concrete string `"ab"`. -/
theorem claim_C3_witness :
    djb2Hash "ab" =
        intToHexString
          ((charCodes "ab").foldl
            (fun (hash : Int) (char : Nat) => toInt32 (hash * 32 - hash + char)) 0) ∧
      djb2Hash "ab" = djb2Hash "ab" :=
  ⟨claim_C3_theorem.1 "ab", claim_C3_theorem.2 "ab" "ab" rfl⟩

/-! ## Token (src/Checkers/FragmentDetection/Token.ts) -/

inductive TokenType where
  | KEYWORD
  | IDENTIFIER
  | LITERAL
  | OPERATOR
  | PUNCTUATION
  | DECORATOR
  | COMMENT
  | UNKNOWN
deriving DecidableEq, Repr

structure Token where
  value : String
  type : TokenType
  line : Int
  column : Int
  file : Option String
deriving DecidableEq, Repr

instance : Inhabited Token := ⟨⟨"", TokenType.UNKNOWN, 0, 0, none⟩⟩

def createToken (value : String) (type : TokenType) (line column : Int)
    (file : Option String) : Token :=
  { value := value, type := type, line := line, column := column, file := file }

/-! ## Sliding windows (src/Checkers/FragmentDetection/SlidingWindow.ts)

```
export function createSlidingWindows(tokens: Token[], windowSize: number): TokenWindow[] {
    if (tokens.length < windowSize) {
        return [];
    }
    const windows: TokenWindow[] = [];
    for (let i = 0; i <= tokens.length - windowSize; i++) {
        const windowTokens = tokens.slice(i, i + windowSize);
        const firstToken = windowTokens[0];
        const lastToken = windowTokens[windowTokens.length - 1];
        windows.push({ startIndex: i, tokens: windowTokens,
            startLine: firstToken.line, endLine: lastToken.line, file: firstToken.file });
    }
    return windows;
}
```
When `windowSize = 0` the slice is empty and `firstToken` is `undefined`, so
`firstToken.line` throws a TypeError; the throw is modelled by `none`. -/

structure TokenWindow where
  startIndex : Nat
  tokens : List Token
  startLine : Int
  endLine : Int
  file : Option String
deriving DecidableEq, Repr

/-- One iteration of the window-building loop; `none` models the TypeError
thrown when the slice is empty (`firstToken === undefined`). -/
def mkWindow (tokens : List Token) (windowSize i : Nat) : Option TokenWindow :=
  let windowTokens := (tokens.drop i).take windowSize
  match windowTokens.head?, windowTokens.getLast? with
  | some firstToken, some lastToken =>
    some { startIndex := i, tokens := windowTokens, startLine := firstToken.line,
           endLine := lastToken.line, file := firstToken.file }
  | _, _ => none

def createSlidingWindows (tokens : List Token) (windowSize : Nat) :
    Option (List TokenWindow) :=
  if tokens.length < windowSize then some []
  else (List.range (tokens.length - windowSize + 1)).mapM (mkWindow tokens windowSize)

/--
```
export function getWindowCount(tokenCount: number, windowSize: number): number {
    if (tokenCount < windowSize) {
        return 0;
    }
    return tokenCount - windowSize + 1;
}
``` -/
def getWindowCount (tokenCount windowSize : Int) : Int :=
  if tokenCount < windowSize then 0 else tokenCount - windowSize + 1

theorem list_mapM_eq_map {α β : Type} (f : α → Option β) (g : α → β) :
    ∀ (l : List α), (∀ a ∈ l, f a = some (g a)) → l.mapM f = some (l.map g) := by
  intro l
  induction l with
  | nil => intro _; rfl
  | cons a t ih =>
    intro h
    rw [List.mapM_cons, h a (List.mem_cons_self a t), ih (fun x hx => h x (List.mem_cons_of_mem a hx))]
    rfl

/-- The total per-index window builder used to state what the loop produces
when it does not throw. -/
def specWindow (tokens : List Token) (windowSize i : Nat) : TokenWindow :=
  let windowTokens := (tokens.drop i).take windowSize
  { startIndex := i, tokens := windowTokens,
    startLine := (windowTokens.headD default).line,
    endLine := (windowTokens.getLastD default).line,
    file := (windowTokens.headD default).file }

theorem mkWindow_eq_specWindow {tokens : List Token} {windowSize i : Nat}
    (hw : 1 ≤ windowSize) (hi : i + windowSize ≤ tokens.length) :
    mkWindow tokens windowSize i = some (specWindow tokens windowSize i) := by
  have hlen : ((tokens.drop i).take windowSize).length = windowSize := by
    rw [List.length_take, List.length_drop]
    omega
  have hne : (tokens.drop i).take windowSize ≠ [] := by
    intro hemp
    rw [hemp] at hlen
    simp at hlen
    omega
  cases hcase : (tokens.drop i).take windowSize with
  | nil => exact absurd hcase hne
  | cons a t =>
    unfold mkWindow specWindow
    simp only [hcase]
    have hlast : (a :: t).getLast? = some ((a :: t).getLastD default) := by
      rw [List.getLastD_eq_getLast?]
      cases hl : (a :: t).getLast? with
      | none => simp [List.getLast?] at hl
      | some x => rfl
    rw [hlast]
    simp [List.headD]

/-- C2 (counterexample): with window size `0` and a nonempty token list the
claim demands `getWindowCount(1, 0) = 2` windows of length `0`, but the code
reads `firstToken.line` on an `undefined` first token of the empty slice and
throws (modelled by `none`); the same throw occurs in the `n < w` branchless
path for the empty list. -/
theorem claim_C2_counterexample :
    getWindowCount 1 0 = 2 ∧
      createSlidingWindows [createToken "a" TokenType.IDENTIFIER 1 0 (some "f.ts")] 0 = none := by
  constructor
  · decide
  · decide

/-- C2 (amended): `getWindowCount(n, w) = max(0, n - w + 1)` for all integer
inputs; and for every window size `w ≥ 1`, `createSlidingWindows` returns
(without throwing) exactly `getWindowCount(n, w)` windows, the `i`-th having
`startIndex = i`, being the contiguous slice `tokens[i .. i+w)`, of length
`w`, with `startLine`, `endLine` and `file` taken from its first and last
tokens; if `n < w` the result is the empty list.  (With `w = 0` the code
throws instead of producing windows, hence the restriction `w ≥ 1`.) -/
theorem claim_C2_theorem :
    (∀ n w : Int, getWindowCount n w = max 0 (n - w + 1)) ∧
    (∀ (tokens : List Token) (w : Nat), 1 ≤ w →
      ∃ ws : List TokenWindow,
        createSlidingWindows tokens w = some ws ∧
        (ws.length : Int) = getWindowCount tokens.length w ∧
        (tokens.length < w → ws = []) ∧
        (∀ (i : Nat) (hi : i < ws.length),
          (ws.get ⟨i, hi⟩).startIndex = i ∧
          (ws.get ⟨i, hi⟩).tokens = (tokens.drop i).take w ∧
          (ws.get ⟨i, hi⟩).tokens.length = w ∧
          ∃ ft lt : Token,
            (ws.get ⟨i, hi⟩).tokens.head? = some ft ∧
            (ws.get ⟨i, hi⟩).tokens.getLast? = some lt ∧
            (ws.get ⟨i, hi⟩).startLine = ft.line ∧
            (ws.get ⟨i, hi⟩).endLine = lt.line ∧
            (ws.get ⟨i, hi⟩).file = ft.file)) := by
  constructor
  · intro n w
    unfold getWindowCount
    split <;> omega
  · intro tokens w hw
    by_cases hlt : tokens.length < w
    · refine ⟨[], ?_, ?_, fun _ => rfl, ?_⟩
      · unfold createSlidingWindows
        simp [hlt]
      · unfold getWindowCount
        simp only [List.length_nil]
        rw [if_pos (by exact_mod_cast hlt)]
        rfl
      · intro i hi
        simp at hi
    · set n := tokens.length - w + 1 with hn
      have hmap : ∀ a ∈ List.range n, mkWindow tokens w a = some (specWindow tokens w a) := by
        intro a ha
        rw [List.mem_range] at ha
        exact mkWindow_eq_specWindow hw (by omega)
      refine ⟨(List.range n).map (specWindow tokens w), ?_, ?_, ?_, ?_⟩
      · unfold createSlidingWindows
        rw [if_neg hlt]
        exact list_mapM_eq_map _ _ _ hmap
      · rw [List.length_map, List.length_range]
        unfold getWindowCount
        rw [if_neg (by exact_mod_cast hlt)]
        push_cast
        omega
      · intro h
        exact absurd h hlt
      · intro i hi
        have hilt : i < n := by
          rw [List.length_map, List.length_range] at hi
          exact hi
        have hget : ((List.range n).map (specWindow tokens w)).get ⟨i, hi⟩ =
            specWindow tokens w i := by
          rw [List.get_map]
          congr 1
          exact List.get_range _ _
        rw [hget]
        have hiw : i + w ≤ tokens.length := by omega
        have hlen : ((tokens.drop i).take w).length = w := by
          rw [List.length_take, List.length_drop]
          omega
        have hne : (tokens.drop i).take w ≠ [] := by
          intro hemp
          rw [hemp] at hlen
          simp at hlen
          omega
        refine ⟨rfl, rfl, hlen, ?_⟩
        cases hcase : (tokens.drop i).take w with
        | nil => exact absurd hcase hne
        | cons a t =>
          refine ⟨a, (a :: t).getLastD default, ?_, ?_, ?_, ?_, ?_⟩
          · show ((tokens.drop i).take w).head? = some a
            rw [hcase]
            rfl
          · show ((tokens.drop i).take w).getLast? = some ((a :: t).getLastD default)
            rw [hcase, List.getLastD_eq_getLast?]
            cases hl : (a :: t).getLast? with
            | none => simp [List.getLast?] at hl
            | some x => rfl
          · show (((tokens.drop i).take w).headD default).line = a.line
            rw [hcase]
            rfl
          · show (((tokens.drop i).take w).getLastD default).line = ((a :: t).getLastD default).line
            rw [hcase]
          · show (((tokens.drop i).take w).headD default).file = a.file
            rw [hcase]
            rfl

/-- C2 (witness): the amended theorem applied to a concrete two-token list
with window size 1. -/
theorem claim_C2_witness :
    getWindowCount 5 2 = max 0 (5 - 2 + 1) ∧
      ∃ ws : List TokenWindow,
        createSlidingWindows
          [createToken "a" TokenType.IDENTIFIER 1 0 (some "f.ts"),
           createToken "b" TokenType.IDENTIFIER 1 2 (some "f.ts")] 1 = some ws ∧
        (ws.length : Int) =
          getWindowCount
            ([createToken "a" TokenType.IDENTIFIER 1 0 (some "f.ts"),
              createToken "b" TokenType.IDENTIFIER 1 2 (some "f.ts")] : List Token).length 1 := by
  constructor
  · exact claim_C2_theorem.1 5 2
  · obtain ⟨ws, h1, h2, _, _⟩ := claim_C2_theorem.2
      [createToken "a" TokenType.IDENTIFIER 1 0 (some "f.ts"),
       createToken "b" TokenType.IDENTIFIER 1 2 (some "f.ts")] 1 (by omega)
    exact ⟨ws, h1, h2⟩

/-! ## HashIndex (src/Checkers/FragmentDetection/HashIndex.ts) -/

structure FragmentLocation where
  file : String
  startIndex : Nat
  startLine : Int
  endLine : Int
deriving DecidableEq, Repr

/-- The `Map<string, FragmentLocation[]>` of `HashIndex`, modelled as an
insertion-ordered association list (a JS `Map` iterates keys in first
insertion order). -/
abbrev HashIndexMap := List (String × List FragmentLocation)

/-- `HashIndex.add`: append to an existing bucket, or create the bucket at
the end of the key order. -/
def indexAdd (index : HashIndexMap) (hash : String) (location : FragmentLocation) :
    HashIndexMap :=
  match index with
  | [] => [(hash, [location])]
  | (h, locs) :: rest =>
    if h = hash then (h, locs ++ [location]) :: rest
    else (h, locs) :: indexAdd rest hash location

/-- `HashIndex.get`: the bucket of a hash, or the empty list. -/
def indexGet (index : HashIndexMap) (hash : String) : List FragmentLocation :=
  match index with
  | [] => []
  | (h, locs) :: rest => if h = hash then locs else indexGet rest hash

/-- `HashIndex.getDuplicates`: every `[hash, locations]` entry with at least
two locations, in the index's insertion iteration order. -/
def getDuplicates (index : HashIndexMap) : List (String × List FragmentLocation) :=
  index.filter (fun p => 2 ≤ p.2.length)

/-- `HashIndex.size`: number of distinct hashes. -/
def indexSize (index : HashIndexMap) : Nat := index.length

/-- `Array.prototype.join(sep)`. -/
def joinSep (sep : String) : List String → String
  | [] => ""
  | [s] => s
  | s :: rest => s ++ sep ++ joinSep sep rest

/-- `computeWindowHash`: djb2 of the window's token values joined by `|`. -/
def computeWindowHash (window : TokenWindow) : String :=
  djb2Hash (joinSep "|" (window.tokens.map Token.value))

/-- `computeTokensHash`: djb2 of the token values joined by `|`. -/
def computeTokensHash (tokens : List Token) : String :=
  djb2Hash (joinSep "|" (tokens.map Token.value))

/-- `createLocationFromWindow`; `window.file || defaultFile` falls back on
`undefined` and on the empty string (both falsy). -/
def createLocationFromWindow (window : TokenWindow) (defaultFile : String) :
    FragmentLocation :=
  { file := match window.file with
      | some f => if f = "" then defaultFile else f
      | none => defaultFile,
    startIndex := window.startIndex,
    startLine := window.startLine,
    endLine := window.endLine }

/-! ## CloneMatcher (src/Checkers/FragmentDetection/CloneMatcher.ts) -/

structure CloneMatch where
  hash : String
  locations : List FragmentLocation
deriving DecidableEq, Repr

structure ClonePair where
  location1 : FragmentLocation
  location2 : FragmentLocation
  tokenCount : Int
deriving DecidableEq, Repr

/-- `CloneMatcher.processFile`: hash every sliding window of the file into
the shared index.  `none` models the TypeError propagating out of
`createSlidingWindows`. -/
def processFile (windowSize : Nat) (hashIndex : HashIndexMap) (tokens : List Token)
    (file : String) : Option HashIndexMap :=
  (createSlidingWindows tokens windowSize).map (fun windows =>
    windows.foldl
      (fun idx window =>
        indexAdd idx (computeWindowHash window) (createLocationFromWindow window file))
      hashIndex)

/-- `CloneMatcher.getMatches`. -/
def getMatches (hashIndex : HashIndexMap) : List CloneMatch :=
  (getDuplicates hashIndex).map (fun p => { hash := p.1, locations := p.2 })

/-- The two nested loops of `getClonePairs` on one duplicate group: all
pairs `(i, j)` with `i < j`, in loop order. -/
def pairUps (windowSize : Int) : List FragmentLocation → List ClonePair
  | [] => []
  | l :: rest =>
    rest.map (fun l2 => { location1 := l, location2 := l2, tokenCount := windowSize }) ++
      pairUps windowSize rest

/-- `CloneMatcher.getClonePairs`: explode every duplicate group into its
pairwise combinations, each carrying `tokenCount = windowSize`. -/
def getClonePairs (windowSize : Int) (hashIndex : HashIndexMap) : List ClonePair :=
  (getMatches hashIndex).foldr (fun m acc => pairUps windowSize m.locations ++ acc) []

/-- The eight tokens of the end-to-end scenario of C4, as one file. -/
def c4Tokens : List Token :=
  [createToken "a" TokenType.IDENTIFIER 1 0 (some "f.ts"),
   createToken "b" TokenType.IDENTIFIER 1 1 (some "f.ts"),
   createToken "c" TokenType.IDENTIFIER 1 2 (some "f.ts"),
   createToken "d" TokenType.IDENTIFIER 1 3 (some "f.ts"),
   createToken "a" TokenType.IDENTIFIER 1 4 (some "f.ts"),
   createToken "b" TokenType.IDENTIFIER 1 5 (some "f.ts"),
   createToken "c" TokenType.IDENTIFIER 1 6 (some "f.ts"),
   createToken "e" TokenType.IDENTIFIER 1 7 (some "f.ts")]

set_option maxRecDepth 20000 in
/-- C4: processing `['a','b','c','d','a','b','c','e']` with window size 3 as
one file yields exactly one duplicate group — the hash of `"a|b|c"` — with
exactly two locations, at start indices 0 and 4, and exactly one ClonePair
connecting those two locations with `tokenCount = 3`. -/
theorem claim_C4_theorem :
    (processFile 3 [] c4Tokens "f.ts").map
        (fun idx => (getMatches idx, getClonePairs 3 idx)) =
      some
        ([{ hash := djb2Hash "a|b|c",
            locations :=
              [{ file := "f.ts", startIndex := 0, startLine := 1, endLine := 1 },
               { file := "f.ts", startIndex := 4, startLine := 1, endLine := 1 }] }],
         [{ location1 := { file := "f.ts", startIndex := 0, startLine := 1, endLine := 1 },
            location2 := { file := "f.ts", startIndex := 4, startLine := 1, endLine := 1 },
            tokenCount := 3 }]) := by
  decide

/-! ## CloneMerger (src/Checkers/FragmentDetection/CloneMerger.ts) -/

structure MergedLocation where
  file : String
  startLine : Int
  endLine : Int
  startIndex : Int
  endIndex : Int
deriving DecidableEq, Repr

structure MergedClone where
  location1 : MergedLocation
  location2 : MergedLocation
  tokenCount : Int
deriving DecidableEq, Repr

/-- `isConsecutive`: same file pair and both start indices advanced by
exactly one. -/
def isConsecutive (pair1 pair2 : ClonePair) : Bool :=
  let sameFiles :=
    pair1.location1.file == pair2.location1.file &&
      pair1.location2.file == pair2.location2.file
  if !sameFiles then false
  else
    ((pair2.location1.startIndex : Int) == (pair1.location1.startIndex : Int) + 1) &&
      ((pair2.location2.startIndex : Int) == (pair1.location2.startIndex : Int) + 1)

/-- `createMergedClone`: a fresh region seeded from one pair, with
`endIndex = startIndex + windowSize - 1` on both sides. -/
def createMergedClone (pair : ClonePair) (windowSize : Int) : MergedClone :=
  { location1 :=
      { file := pair.location1.file,
        startLine := pair.location1.startLine,
        endLine := pair.location1.endLine,
        startIndex := pair.location1.startIndex,
        endIndex := (pair.location1.startIndex : Int) + windowSize - 1 },
    location2 :=
      { file := pair.location2.file,
        startLine := pair.location2.startLine,
        endLine := pair.location2.endLine,
        startIndex := pair.location2.startIndex,
        endIndex := (pair.location2.startIndex : Int) + windowSize - 1 },
    tokenCount := windowSize }

/-- `extendMergedClone`, rendered functionally: the source mutates `merged`
in place; the returned record is its post state. -/
def extendMergedClone (merged : MergedClone) (pair : ClonePair) : MergedClone :=
  let tokenCount := merged.tokenCount + 1
  { location1 :=
      { merged.location1 with
        endIndex := merged.location1.startIndex + tokenCount - 1,
        endLine := max merged.location1.endLine pair.location1.endLine },
    location2 :=
      { merged.location2 with
        endIndex := merged.location2.startIndex + tokenCount - 1,
        endLine := max merged.location2.endLine pair.location2.endLine },
    tokenCount := tokenCount }

/-- Code-point lexicographic comparison of character lists; the model of
`localeCompare` returning a negative number. -/
def charListLt : List Char → List Char → Bool
  | [], [] => false
  | [], _ :: _ => true
  | _ :: _, [] => false
  | a :: as, b :: bs =>
    if a.toNat < b.toNat then true
    else if b.toNat < a.toNat then false
    else charListLt as bs

def strLt (a b : String) : Bool := charListLt a.data b.data

/-- `compareClonePairs(a, b) < 0`: ordering by
`(file1, file2, startIndex1, startIndex2)`. -/
def pairLt (a b : ClonePair) : Bool :=
  if a.location1.file = b.location1.file then
    if a.location2.file = b.location2.file then
      if a.location1.startIndex = b.location1.startIndex then
        decide (a.location2.startIndex < b.location2.startIndex)
      else decide (a.location1.startIndex < b.location1.startIndex)
    else strLt a.location2.file b.location2.file
  else strLt a.location1.file b.location1.file

/-- Stable insertion of one pair into an already sorted list: the new pair
goes after every element it does not strictly precede, which reproduces the
order of the stable `Array.prototype.sort`. -/
def insertPair (x : ClonePair) : List ClonePair → List ClonePair
  | [] => [x]
  | y :: ys => if pairLt x y then x :: y :: ys else y :: insertPair x ys

/-- `[...pairs].sort(compareClonePairs)`: a stable sort by `pairLt` of a
copy of the input. -/
def sortPairs (pairs : List ClonePair) : List ClonePair :=
  pairs.foldl (fun acc p => insertPair p acc) []

/-- The merging loop of `mergeClonePairs` from index 1 on: `prev` is
`sorted[i-1]`, `current` the region being grown. -/
def mergeLoop (windowSize : Int) (prev : ClonePair) (current : MergedClone) :
    List ClonePair → List MergedClone
  | [] => [current]
  | p :: ps =>
    if isConsecutive prev p then
      mergeLoop windowSize p (extendMergedClone current p) ps
    else
      current :: mergeLoop windowSize p (createMergedClone p windowSize) ps

/-- `mergeClonePairs`: sort, then merge maximal runs of consecutive pairs. -/
def mergeClonePairs (pairs : List ClonePair) (windowSize : Int) : List MergedClone :=
  match sortPairs pairs with
  | [] => []
  | p :: ps => mergeLoop windowSize p (createMergedClone p windowSize) ps

/-! Decomposition of a sorted pair list into its maximal `isConsecutive`
runs, used to state what `mergeClonePairs` produces.  A run is a head pair
together with the pairs that extended it. -/

def chunkLoop (prev headPair : ClonePair) (acc : List ClonePair) :
    List ClonePair → List (ClonePair × List ClonePair)
  | [] => [(headPair, acc)]
  | p :: ps =>
    if isConsecutive prev p then chunkLoop p headPair (acc ++ [p]) ps
    else (headPair, acc) :: chunkLoop p p [] ps

def chunkRuns : List ClonePair → List (ClonePair × List ClonePair)
  | [] => []
  | p :: ps => chunkLoop p p [] ps

/-- Collapse one run into its merged region. -/
def mergeRun (windowSize : Int) (run : ClonePair × List ClonePair) : MergedClone :=
  run.2.foldl extendMergedClone (createMergedClone run.1 windowSize)

/-- Flatten a run decomposition back into the pair list it came from. -/
def runsFlatten (runs : List (ClonePair × List ClonePair)) : List ClonePair :=
  runs.foldr (fun r acc => r.1 :: r.2 ++ acc) []

/-- A list of pairs in which every adjacent pair of elements satisfies
`isConsecutive`. -/
def chainB : List ClonePair → Bool
  | [] => true
  | [_] => true
  | a :: b :: t => isConsecutive a b && chainB (b :: t)

/-- Adjacent runs of a decomposition are separated by a broken chain: the
last pair of one run is not consecutive with the head of the next. -/
def runsSeparated : List (ClonePair × List ClonePair) → Bool
  | [] => true
  | [_] => true
  | r1 :: r2 :: t => !(isConsecutive (r1.2.getLastD r1.1) r2.1) && runsSeparated (r2 :: t)

theorem chainB_append_singleton :
    ∀ (acc : List ClonePair) (h p : ClonePair), chainB (h :: acc) = true →
      isConsecutive (acc.getLastD h) p = true → chainB ((h :: acc) ++ [p]) = true := by
  intro acc
  induction acc with
  | nil =>
    intro h p _ hcons
    have hcons' : isConsecutive h p = true := hcons
    show (isConsecutive h p && chainB [p]) = true
    rw [hcons']
    rfl
  | cons a acc ih =>
    intro h p hchain hcons
    have hchain' : (isConsecutive h a && chainB (a :: acc)) = true := hchain
    rw [Bool.and_eq_true] at hchain'
    have hcons' : isConsecutive (acc.getLastD a) p = true := by
      rw [List.getLastD_cons] at hcons
      exact hcons
    have h3 := ih a p hchain'.2 hcons'
    show (isConsecutive h a && chainB ((a :: acc) ++ [p])) = true
    rw [Bool.and_eq_true]
    exact ⟨hchain'.1, h3⟩

theorem chunkLoop_spec :
    ∀ (ps : List ClonePair) (prev headPair : ClonePair) (acc : List ClonePair),
      chainB (headPair :: acc) = true → acc.getLastD headPair = prev →
      runsFlatten (chunkLoop prev headPair acc ps) = headPair :: (acc ++ ps) ∧
      (∀ r ∈ chunkLoop prev headPair acc ps, chainB (r.1 :: r.2) = true) ∧
      runsSeparated (chunkLoop prev headPair acc ps) = true ∧
      ∃ x t, chunkLoop prev headPair acc ps = (headPair, x) :: t := by
  intro ps
  induction ps with
  | nil =>
    intro prev headPair acc hchain _
    refine ⟨?_, ?_, ?_, acc, [], rfl⟩
    · simp [chunkLoop, runsFlatten]
    · intro r hr
      simp [chunkLoop] at hr
      rw [hr]
      exact hchain
    · rfl
  | cons p ps ih =>
    intro prev headPair acc hchain hlast
    by_cases hc : isConsecutive prev p = true
    · have hchain' : chainB (headPair :: (acc ++ [p])) = true := by
        have := chainB_append_singleton acc headPair p hchain (by rw [hlast]; exact hc)
        simpa using this
      have hlast' : (acc ++ [p]).getLastD headPair = p := by
        simp [List.getLastD_concat]
      obtain ⟨h1, h2, h3, x, t, h4⟩ := ih p headPair (acc ++ [p]) hchain' hlast'
      have heq : chunkLoop prev headPair acc (p :: ps) = chunkLoop p headPair (acc ++ [p]) ps := by
        simp [chunkLoop, hc]
      rw [heq]
      refine ⟨?_, h2, h3, x, t, h4⟩
      rw [h1]
      simp
    · have hc' : isConsecutive prev p = false := by
        cases h : isConsecutive prev p
        · rfl
        · exact absurd h hc
      have heq : chunkLoop prev headPair acc (p :: ps) =
          (headPair, acc) :: chunkLoop p p [] ps := by
        simp [chunkLoop, hc']
      obtain ⟨h1, h2, h3, x, t, h4⟩ := ih p p [] (by rfl) (by rfl)
      rw [heq]
      refine ⟨?_, ?_, ?_, acc, chunkLoop p p [] ps, rfl⟩
      · show headPair :: acc ++ runsFlatten (chunkLoop p p [] ps) = headPair :: (acc ++ p :: ps)
        rw [h1]
        simp
      · intro r hr
        rcases List.mem_cons.mp hr with hr | hr
        · rw [hr]
          exact hchain
        · exact h2 r hr
      · rw [h4]
        show (!(isConsecutive (acc.getLastD headPair) p) &&
          runsSeparated ((p, x) :: t)) = true
        rw [hlast, hc', ← h4, h3]
        rfl

theorem chunkRuns_spec (l : List ClonePair) :
    runsFlatten (chunkRuns l) = l ∧
      (∀ r ∈ chunkRuns l, chainB (r.1 :: r.2) = true) ∧
      runsSeparated (chunkRuns l) = true := by
  cases l with
  | nil => exact ⟨rfl, fun r hr => absurd hr (List.not_mem_nil r), rfl⟩
  | cons p ps =>
    obtain ⟨h1, h2, h3, _⟩ := chunkLoop_spec ps p p [] (by rfl) (by rfl)
    exact ⟨by simpa using h1, h2, h3⟩

theorem mergeLoop_eq_chunkLoop :
    ∀ (w : Int) (ps : List ClonePair) (prev headPair : ClonePair) (acc : List ClonePair),
      mergeLoop w prev (mergeRun w (headPair, acc)) ps =
        (chunkLoop prev headPair acc ps).map (mergeRun w) := by
  intro w ps
  induction ps with
  | nil => intro prev headPair acc; rfl
  | cons p ps ih =>
    intro prev headPair acc
    show (if isConsecutive prev p then
            mergeLoop w p (extendMergedClone (mergeRun w (headPair, acc)) p) ps
          else mergeRun w (headPair, acc) :: mergeLoop w p (createMergedClone p w) ps) =
        List.map (mergeRun w)
          (if isConsecutive prev p then chunkLoop p headPair (acc ++ [p]) ps
           else (headPair, acc) :: chunkLoop p p [] ps)
    by_cases hc : isConsecutive prev p = true
    · rw [if_pos hc, if_pos hc]
      have hext : extendMergedClone (mergeRun w (headPair, acc)) p =
          mergeRun w (headPair, acc ++ [p]) := by
        unfold mergeRun
        rw [List.foldl_append]
        rfl
      rw [hext]
      exact ih p headPair (acc ++ [p])
    · rw [if_neg hc, if_neg hc, List.map_cons]
      have htail : mergeLoop w p (createMergedClone p w) ps =
          List.map (mergeRun w) (chunkLoop p p [] ps) := ih p p []
      rw [htail]

theorem mergeClonePairs_eq_runs (pairs : List ClonePair) (w : Int) :
    mergeClonePairs pairs w = (chunkRuns (sortPairs pairs)).map (mergeRun w) := by
  unfold mergeClonePairs chunkRuns
  cases h : sortPairs pairs with
  | nil => rfl
  | cons p ps =>
    show mergeLoop w p (createMergedClone p w) ps =
      List.map (mergeRun w) (chunkLoop p p [] ps)
    exact mergeLoop_eq_chunkLoop w ps p p []

theorem foldl_extend_fields :
    ∀ (ts : List ClonePair) (m : MergedClone),
      (ts.foldl extendMergedClone m).tokenCount = m.tokenCount + ts.length ∧
      (ts.foldl extendMergedClone m).location1.startIndex = m.location1.startIndex ∧
      (ts.foldl extendMergedClone m).location2.startIndex = m.location2.startIndex ∧
      (ts.foldl extendMergedClone m).location1.file = m.location1.file ∧
      (ts.foldl extendMergedClone m).location2.file = m.location2.file ∧
      (ts.foldl extendMergedClone m).location1.startLine = m.location1.startLine ∧
      (ts.foldl extendMergedClone m).location2.startLine = m.location2.startLine := by
  intro ts
  induction ts with
  | nil => intro m; simp
  | cons p ts ih =>
    intro m
    have h := ih (extendMergedClone m p)
    have e1 : (extendMergedClone m p).tokenCount = m.tokenCount + 1 := rfl
    have e2 : (extendMergedClone m p).location1.startIndex = m.location1.startIndex := rfl
    have e3 : (extendMergedClone m p).location2.startIndex = m.location2.startIndex := rfl
    have e4 : (extendMergedClone m p).location1.file = m.location1.file := rfl
    have e5 : (extendMergedClone m p).location2.file = m.location2.file := rfl
    have e6 : (extendMergedClone m p).location1.startLine = m.location1.startLine := rfl
    have e7 : (extendMergedClone m p).location2.startLine = m.location2.startLine := rfl
    simp only [List.foldl_cons, List.length_cons]
    refine ⟨?_, ?_, ?_, ?_, ?_, ?_, ?_⟩
    · rw [h.1, e1]
      push_cast
      ring
    · rw [h.2.1, e2]
    · rw [h.2.2.1, e3]
    · rw [h.2.2.2.1, e4]
    · rw [h.2.2.2.2.1, e5]
    · rw [h.2.2.2.2.2.1, e6]
    · rw [h.2.2.2.2.2.2, e7]

theorem foldl_extend_endIndex :
    ∀ (ts : List ClonePair) (m : MergedClone),
      m.location1.endIndex = m.location1.startIndex + m.tokenCount - 1 →
      m.location2.endIndex = m.location2.startIndex + m.tokenCount - 1 →
      (ts.foldl extendMergedClone m).location1.endIndex =
          (ts.foldl extendMergedClone m).location1.startIndex +
            (ts.foldl extendMergedClone m).tokenCount - 1 ∧
        (ts.foldl extendMergedClone m).location2.endIndex =
          (ts.foldl extendMergedClone m).location2.startIndex +
            (ts.foldl extendMergedClone m).tokenCount - 1 := by
  intro ts
  induction ts with
  | nil => intro m h1 h2; exact ⟨h1, h2⟩
  | cons p ts ih =>
    intro m _ _
    simp only [List.foldl_cons]
    exact ih (extendMergedClone m p) rfl rfl

theorem mergeRun_fields (w : Int) (headPair : ClonePair) (ts : List ClonePair) :
    (mergeRun w (headPair, ts)).tokenCount = w + ts.length ∧
      (mergeRun w (headPair, ts)).location1.startIndex = (headPair.location1.startIndex : Int) ∧
      (mergeRun w (headPair, ts)).location2.startIndex = (headPair.location2.startIndex : Int) ∧
      (mergeRun w (headPair, ts)).location1.endIndex =
        (headPair.location1.startIndex : Int) + w + ts.length - 1 ∧
      (mergeRun w (headPair, ts)).location2.endIndex =
        (headPair.location2.startIndex : Int) + w + ts.length - 1 := by
  have hf := foldl_extend_fields ts (createMergedClone headPair w)
  have he := foldl_extend_endIndex ts (createMergedClone headPair w) rfl rfl
  unfold mergeRun
  have hc1 : (createMergedClone headPair w).tokenCount = w := rfl
  have hc2 : (createMergedClone headPair w).location1.startIndex =
      (headPair.location1.startIndex : Int) := rfl
  have hc3 : (createMergedClone headPair w).location2.startIndex =
      (headPair.location2.startIndex : Int) := rfl
  refine ⟨?_, ?_, ?_, ?_, ?_⟩
  · rw [hf.1, hc1]
  · rw [hf.2.1, hc2]
  · rw [hf.2.2.1, hc3]
  · rw [he.1, hf.2.1, hf.1, hc1, hc2]; ring
  · rw [he.2, hf.2.2.1, hf.1, hc1, hc3]; ring

/-- The sorted triple of the C1 scenario: pairs at offsets 0↔10, 1↔11,
2↔12, all in one file pair. -/
def c1PairAt (i j : Nat) : ClonePair :=
  { location1 := { file := "f.ts", startIndex := i, startLine := 1, endLine := 1 },
    location2 := { file := "f.ts", startIndex := j, startLine := 1, endLine := 1 },
    tokenCount := 3 }

/-- C1 (counterexample): the pairs 0↔10 and 1↔11 form a chain in the
claim's sense (same file pair, both start indices advanced by one), yet with
the additional pair 1↔5 sorted between them the chain is split across two
output regions: the merge yields three single-window regions, the chain's
members ending up in the first and third. -/
theorem claim_C1_counterexample :
    isConsecutive (c1PairAt 0 10) (c1PairAt 1 11) = true ∧
      mergeClonePairs [c1PairAt 0 10, c1PairAt 1 5, c1PairAt 1 11] 3 =
        [{ location1 := { file := "f.ts", startLine := 1, endLine := 1, startIndex := 0, endIndex := 2 },
           location2 := { file := "f.ts", startLine := 1, endLine := 1, startIndex := 10, endIndex := 12 },
           tokenCount := 3 },
         { location1 := { file := "f.ts", startLine := 1, endLine := 1, startIndex := 1, endIndex := 3 },
           location2 := { file := "f.ts", startLine := 1, endLine := 1, startIndex := 5, endIndex := 7 },
           tokenCount := 3 },
         { location1 := { file := "f.ts", startLine := 1, endLine := 1, startIndex := 1, endIndex := 3 },
           location2 := { file := "f.ts", startLine := 1, endLine := 1, startIndex := 11, endIndex := 13 },
           tokenCount := 3 }] := by
  constructor
  · decide
  · decide

/-- C1 (amended): `mergeClonePairs` sorts by
`(file1, file2, startIndex1, startIndex2)` and coalesces each maximal run of
pairs that are consecutive *in the sorted order* into exactly one
MergedClone: the output equals one region per run of the sorted list's run
decomposition, where the decomposition flattens back to the sorted list,
every run is an `isConsecutive` chain, and adjacent runs are separated by a
broken chain (maximality); one run of `1 + k` pairs produces the region with
`tokenCount = windowSize + k` and `endIndex = startIndex + tokenCount - 1`
on both sides.  In particular the three pairs at offsets 0↔10, 1↔11, 2↔12
with window size 3 merge into exactly one MergedClone with `tokenCount = 5`
and `endIndex = startIndex + 4` on both sides, and a gap (offsets 0↔10,
1↔11, 3↔13) splits into two separate MergedClones.  (A chain whose members
are not adjacent in the sorted order can be split, as the counterexample
shows, so the coalescing guarantee is per sorted-order run.) -/
theorem claim_C1_theorem :
    (∀ (pairs : List ClonePair) (w : Int),
        mergeClonePairs pairs w = (chunkRuns (sortPairs pairs)).map (mergeRun w)) ∧
    (∀ l : List ClonePair,
        runsFlatten (chunkRuns l) = l ∧
        (∀ r ∈ chunkRuns l, chainB (r.1 :: r.2) = true) ∧
        runsSeparated (chunkRuns l) = true) ∧
    (∀ (w : Int) (headPair : ClonePair) (ts : List ClonePair),
        (mergeRun w (headPair, ts)).tokenCount = w + ts.length ∧
        (mergeRun w (headPair, ts)).location1.startIndex =
          (headPair.location1.startIndex : Int) ∧
        (mergeRun w (headPair, ts)).location2.startIndex =
          (headPair.location2.startIndex : Int) ∧
        (mergeRun w (headPair, ts)).location1.endIndex =
          (headPair.location1.startIndex : Int) + w + ts.length - 1 ∧
        (mergeRun w (headPair, ts)).location2.endIndex =
          (headPair.location2.startIndex : Int) + w + ts.length - 1) ∧
    mergeClonePairs [c1PairAt 0 10, c1PairAt 1 11, c1PairAt 2 12] 3 =
      [{ location1 := { file := "f.ts", startLine := 1, endLine := 1, startIndex := 0, endIndex := 4 },
         location2 := { file := "f.ts", startLine := 1, endLine := 1, startIndex := 10, endIndex := 14 },
         tokenCount := 5 }] ∧
    mergeClonePairs [c1PairAt 0 10, c1PairAt 1 11, c1PairAt 3 13] 3 =
      [{ location1 := { file := "f.ts", startLine := 1, endLine := 1, startIndex := 0, endIndex := 3 },
         location2 := { file := "f.ts", startLine := 1, endLine := 1, startIndex := 10, endIndex := 13 },
         tokenCount := 4 },
       { location1 := { file := "f.ts", startLine := 1, endLine := 1, startIndex := 3, endIndex := 5 },
         location2 := { file := "f.ts", startLine := 1, endLine := 1, startIndex := 13, endIndex := 15 },
         tokenCount := 3 }] := by
  refine ⟨mergeClonePairs_eq_runs, chunkRuns_spec, mergeRun_fields, ?_, ?_⟩
  · decide
  · decide

/-- C1 (witness): the amended theorem applied to a concrete singleton pair
list and a concrete run. -/
theorem claim_C1_witness :
    mergeClonePairs [c1PairAt 0 10] 3 =
        (chunkRuns (sortPairs [c1PairAt 0 10])).map (mergeRun 3) ∧
      chainB ((c1PairAt 0 10, ([] : List ClonePair)).1 ::
        (c1PairAt 0 10, ([] : List ClonePair)).2) = true ∧
      (mergeRun 3 (c1PairAt 0 10, [])).tokenCount =
        3 + (([] : List ClonePair)).length :=
  ⟨claim_C1_theorem.1 [c1PairAt 0 10] 3,
   (claim_C1_theorem.2.1 [c1PairAt 0 10]).2.1 (c1PairAt 0 10, []) (by decide),
   (claim_C1_theorem.2.2.1 3 (c1PairAt 0 10) []).1⟩

/-! ## C10: `mergeClonePairs` never mutates its input.

To make the frame property expressible, the location objects the input
pairs reference live in an explicit heap, and the merger is rendered as a
state-passing function over that heap performing exactly the allocations
and writes of the source:
* `const sorted = [...pairs].sort(...)` sorts a copy of the input array, so
  the input array itself is returned unchanged;
* `createMergedClone` allocates two fresh location cells whose fields are
  copied from the pair's location cells (an object literal);
* `extendMergedClone` writes only the two cells of the region being grown.
The theorem states that every heap cell existing before the call is
unchanged after it. -/

instance : Inhabited FragmentLocation := ⟨⟨"", 0, 0, 0⟩⟩

/-- A heap cell: a `FragmentLocation` referenced by the input pairs, or a
merged-region location allocated by `createMergedClone`. -/
inductive LocCell where
  | frag : FragmentLocation → LocCell
  | merged : MergedLocation → LocCell
deriving DecidableEq, Repr

abbrev LocHeap := List LocCell

/-- A ClonePair whose two locations are references into the heap. -/
structure HClonePair where
  loc1 : Nat
  loc2 : Nat
  tokenCount : Int
deriving DecidableEq, Repr

/-- A MergedClone whose two locations are references into the heap. -/
structure HMergedClone where
  loc1 : Nat
  loc2 : Nat
  tokenCount : Int
deriving DecidableEq, Repr

def heapDefault : LocCell := LocCell.frag default

/-- Read a cell as a FragmentLocation (the branch for a merged cell is
never taken by the code below). -/
def readFrag (heap : LocHeap) (i : Nat) : FragmentLocation :=
  match heap.getD i heapDefault with
  | LocCell.frag l => l
  | LocCell.merged m =>
    { file := m.file
      startIndex := m.startIndex.toNat
      startLine := m.startLine
      endLine := m.endLine }

/-- Read a cell as a MergedLocation (the branch for a frag cell is never
taken by the code below). -/
def readMerged (heap : LocHeap) (i : Nat) : MergedLocation :=
  match heap.getD i heapDefault with
  | LocCell.merged m => m
  | LocCell.frag l =>
    { file := l.file
      startLine := l.startLine
      endLine := l.endLine
      startIndex := l.startIndex
      endIndex := 0 }

/-- Heap version of `createMergedClone`: copy the pair's location fields
into two freshly allocated cells. -/
def createMergedCloneH (heap : LocHeap) (pair : HClonePair) (windowSize : Int) :
    LocHeap × HMergedClone :=
  let l1 := readFrag heap pair.loc1
  let l2 := readFrag heap pair.loc2
  let a1 := heap.length
  let heap1 := heap ++
    [LocCell.merged
      { file := l1.file, startLine := l1.startLine, endLine := l1.endLine,
        startIndex := l1.startIndex, endIndex := (l1.startIndex : Int) + windowSize - 1 }]
  let heap2 := heap1 ++
    [LocCell.merged
      { file := l2.file, startLine := l2.startLine, endLine := l2.endLine,
        startIndex := l2.startIndex, endIndex := (l2.startIndex : Int) + windowSize - 1 }]
  (heap2, { loc1 := a1, loc2 := a1 + 1, tokenCount := windowSize })

/-- Heap version of `extendMergedClone`: the statement sequence of the
source, each assignment a heap write on the region's own cells. -/
def extendMergedCloneH (heap : LocHeap) (merged : HMergedClone) (pair : HClonePair) :
    LocHeap × HMergedClone :=
  let tokenCount := merged.tokenCount + 1
  let c1 := readMerged heap merged.loc1
  let heap1 := heap.set merged.loc1
    (LocCell.merged { c1 with endIndex := c1.startIndex + tokenCount - 1 })
  let c2 := readMerged heap1 merged.loc2
  let heap2 := heap1.set merged.loc2
    (LocCell.merged { c2 with endIndex := c2.startIndex + tokenCount - 1 })
  let d1 := readMerged heap2 merged.loc1
  let heap3 := heap2.set merged.loc1
    (LocCell.merged { d1 with endLine := max d1.endLine (readFrag heap2 pair.loc1).endLine })
  let d2 := readMerged heap3 merged.loc2
  let heap4 := heap3.set merged.loc2
    (LocCell.merged { d2 with endLine := max d2.endLine (readFrag heap3 pair.loc2).endLine })
  (heap4, { merged with tokenCount := tokenCount })

/-- Heap version of `isConsecutive`. -/
def isConsecutiveH (heap : LocHeap) (pair1 pair2 : HClonePair) : Bool :=
  let sameFiles :=
    (readFrag heap pair1.loc1).file == (readFrag heap pair2.loc1).file &&
      (readFrag heap pair1.loc2).file == (readFrag heap pair2.loc2).file
  if !sameFiles then false
  else
    ((readFrag heap pair2.loc1).startIndex == (readFrag heap pair1.loc1).startIndex + 1) &&
      ((readFrag heap pair2.loc2).startIndex == (readFrag heap pair1.loc2).startIndex + 1)

/-- Heap version of `compareClonePairs(a, b) < 0`. -/
def pairLtH (heap : LocHeap) (a b : HClonePair) : Bool :=
  if (readFrag heap a.loc1).file = (readFrag heap b.loc1).file then
    if (readFrag heap a.loc2).file = (readFrag heap b.loc2).file then
      if (readFrag heap a.loc1).startIndex = (readFrag heap b.loc1).startIndex then
        decide ((readFrag heap a.loc2).startIndex < (readFrag heap b.loc2).startIndex)
      else decide ((readFrag heap a.loc1).startIndex < (readFrag heap b.loc1).startIndex)
    else strLt (readFrag heap a.loc2).file (readFrag heap b.loc2).file
  else strLt (readFrag heap a.loc1).file (readFrag heap b.loc1).file

def insertPairH (heap : LocHeap) (x : HClonePair) : List HClonePair → List HClonePair
  | [] => [x]
  | y :: ys => if pairLtH heap x y then x :: y :: ys else y :: insertPairH heap x ys

/-- `[...pairs].sort(...)`: the sort reads the heap but never writes it, and
operates on a copy of the input array. -/
def sortPairsH (heap : LocHeap) (pairs : List HClonePair) : List HClonePair :=
  pairs.foldl (fun acc p => insertPairH heap p acc) []

/-- Heap version of the merging loop. -/
def mergeLoopH (windowSize : Int) (heap : LocHeap) (prev : HClonePair)
    (current : HMergedClone) : List HClonePair → LocHeap × List HMergedClone
  | [] => (heap, [current])
  | p :: ps =>
    if isConsecutiveH heap prev p then
      let r := extendMergedCloneH heap current p
      mergeLoopH windowSize r.1 p r.2 ps
    else
      let r := createMergedCloneH heap p windowSize
      let rest := mergeLoopH windowSize r.1 p r.2 ps
      (rest.1, current :: rest.2)

/-- Heap version of `mergeClonePairs`: returns the final heap, the input
array contents after the call (the sort runs on a copy, so they are the
input), and the merged regions. -/
def mergeClonePairsH (heap : LocHeap) (pairs : List HClonePair) (windowSize : Int) :
    LocHeap × List HClonePair × List HMergedClone :=
  match sortPairsH heap pairs with
  | [] => (heap, pairs, [])
  | p :: ps =>
    let r := createMergedCloneH heap p windowSize
    let final := mergeLoopH windowSize r.1 p r.2 ps
    (final.1, pairs, final.2)

theorem getD_set_ne {l : List LocCell} :
    ∀ {j i : Nat} (c : LocCell), j ≠ i → (l.set j c).getD i heapDefault = l.getD i heapDefault := by
  induction l with
  | nil => intro j i c _; simp [List.set]
  | cons a t ih =>
    intro j i c hne
    cases j with
    | zero =>
      cases i with
      | zero => exact absurd rfl hne
      | succ i => simp [List.set, List.getD]
    | succ j =>
      cases i with
      | zero => simp [List.set, List.getD]
      | succ i =>
        have := ih (j := j) (i := i) c (by omega)
        simpa [List.set, List.getD] using this

theorem getD_append_lt {l l' : List LocCell} {i : Nat} (h : i < l.length) :
    (l ++ l').getD i heapDefault = l.getD i heapDefault := by
  unfold List.getD
  rw [List.get?_append h]

theorem createMergedCloneH_spec (heap : LocHeap) (pair : HClonePair) (w : Int) :
    (createMergedCloneH heap pair w).1.length = heap.length + 2 ∧
      (createMergedCloneH heap pair w).2.loc1 = heap.length ∧
      (createMergedCloneH heap pair w).2.loc2 = heap.length + 1 ∧
      ∀ i, i < heap.length →
        (createMergedCloneH heap pair w).1.getD i heapDefault = heap.getD i heapDefault := by
  refine ⟨by simp [createMergedCloneH], rfl, rfl, ?_⟩
  intro i hi
  show ((heap ++ _) ++ _).getD i heapDefault = heap.getD i heapDefault
  rw [getD_append_lt (by simpa using Nat.lt_succ_of_lt (by simpa using hi)), getD_append_lt hi]

theorem extendMergedCloneH_spec (heap : LocHeap) (merged : HMergedClone)
    (pair : HClonePair) {n : Nat} (h1 : n ≤ merged.loc1) (h2 : n ≤ merged.loc2) :
    heap.length ≤ (extendMergedCloneH heap merged pair).1.length ∧
      (extendMergedCloneH heap merged pair).2.loc1 = merged.loc1 ∧
      (extendMergedCloneH heap merged pair).2.loc2 = merged.loc2 ∧
      ∀ i, i < n →
        (extendMergedCloneH heap merged pair).1.getD i heapDefault = heap.getD i heapDefault := by
  refine ⟨by simp [extendMergedCloneH], rfl, rfl, ?_⟩
  intro i hi
  show ((((heap.set merged.loc1 _).set merged.loc2 _).set merged.loc1 _).set merged.loc2 _).getD i
      heapDefault = heap.getD i heapDefault
  rw [getD_set_ne _ (by omega), getD_set_ne _ (by omega), getD_set_ne _ (by omega),
    getD_set_ne _ (by omega)]

theorem mergeLoopH_frame :
    ∀ (ps : List HClonePair) (w : Int) (n : Nat) (heap : LocHeap) (prev : HClonePair)
      (current : HMergedClone),
      n ≤ heap.length → n ≤ current.loc1 → n ≤ current.loc2 →
      n ≤ (mergeLoopH w heap prev current ps).1.length ∧
        ∀ i, i < n →
          (mergeLoopH w heap prev current ps).1.getD i heapDefault = heap.getD i heapDefault := by
  intro ps
  induction ps with
  | nil =>
    intro w n heap prev current hlen _ _
    exact ⟨hlen, fun i _ => rfl⟩
  | cons p ps ih =>
    intro w n heap prev current hlen hc1 hc2
    show n ≤ (if isConsecutiveH heap prev p then
          mergeLoopH w (extendMergedCloneH heap current p).1 p (extendMergedCloneH heap current p).2 ps
        else
          ((mergeLoopH w (createMergedCloneH heap p w).1 p (createMergedCloneH heap p w).2 ps).1,
           current :: (mergeLoopH w (createMergedCloneH heap p w).1 p (createMergedCloneH heap p w).2 ps).2)).1.length ∧
      ∀ i, i < n → (if isConsecutiveH heap prev p then
          mergeLoopH w (extendMergedCloneH heap current p).1 p (extendMergedCloneH heap current p).2 ps
        else
          ((mergeLoopH w (createMergedCloneH heap p w).1 p (createMergedCloneH heap p w).2 ps).1,
           current :: (mergeLoopH w (createMergedCloneH heap p w).1 p (createMergedCloneH heap p w).2 ps).2)).1.getD i heapDefault =
        heap.getD i heapDefault
    by_cases hcons : isConsecutiveH heap prev p = true
    · rw [if_pos hcons]
      obtain ⟨e1, e2, e3, e4⟩ := extendMergedCloneH_spec heap current p hc1 hc2
      obtain ⟨f1, f2⟩ := ih w n (extendMergedCloneH heap current p).1 p
        (extendMergedCloneH heap current p).2 (le_trans hlen e1) (by omega) (by omega)
      exact ⟨f1, fun i hi => (f2 i hi).trans (e4 i hi)⟩
    · rw [if_neg hcons]
      obtain ⟨e1, e2, e3, e4⟩ := createMergedCloneH_spec heap p w
      obtain ⟨f1, f2⟩ := ih w n (createMergedCloneH heap p w).1 p
        (createMergedCloneH heap p w).2 (by omega) (by omega) (by omega)
      exact ⟨f1, fun i hi => (f2 i hi).trans (e4 i (by omega))⟩

/-- C10: `mergeClonePairs` never mutates its input: the input array is left
with the same pairs in the same order (the sort runs on a copy), and every
heap cell existing before the call — in particular every location object
the input pairs reference, with all its fields — is unchanged after the
call; merged regions are built from fresh copies of a pair's fields, and
extension writes only the freshly built region. -/
theorem claim_C10_theorem (heap : LocHeap) (pairs : List HClonePair) (w : Int) :
    (mergeClonePairsH heap pairs w).2.1 = pairs ∧
      ∀ i, i < heap.length →
        (mergeClonePairsH heap pairs w).1.getD i heapDefault = heap.getD i heapDefault := by
  unfold mergeClonePairsH
  cases h : sortPairsH heap pairs with
  | nil => exact ⟨rfl, fun i _ => rfl⟩
  | cons p ps =>
    refine ⟨rfl, ?_⟩
    intro i hi
    obtain ⟨e1, e2, e3, e4⟩ := createMergedCloneH_spec heap p w
    obtain ⟨f1, f2⟩ := mergeLoopH_frame ps w heap.length (createMergedCloneH heap p w).1 p
      (createMergedCloneH heap p w).2 (by omega) (by omega) (by omega)
    exact (f2 i hi).trans (e4 i hi)

/-- C10 (witness): the frame theorem applied to a concrete one-cell heap
and one pair. -/
theorem claim_C10_witness :
    (mergeClonePairsH [LocCell.frag { file := "f.ts", startIndex := 0, startLine := 1, endLine := 2 },
        LocCell.frag { file := "f.ts", startIndex := 9, startLine := 4, endLine := 5 }]
      [{ loc1 := 0, loc2 := 1, tokenCount := 3 }] 3).2.1 =
        [{ loc1 := 0, loc2 := 1, tokenCount := 3 }] ∧
      (mergeClonePairsH [LocCell.frag { file := "f.ts", startIndex := 0, startLine := 1, endLine := 2 },
          LocCell.frag { file := "f.ts", startIndex := 9, startLine := 4, endLine := 5 }]
        [{ loc1 := 0, loc2 := 1, tokenCount := 3 }] 3).1.getD 0 heapDefault =
        LocCell.frag { file := "f.ts", startIndex := 0, startLine := 1, endLine := 2 } := by
  have h := claim_C10_theorem
    [LocCell.frag { file := "f.ts", startIndex := 0, startLine := 1, endLine := 2 },
     LocCell.frag { file := "f.ts", startIndex := 9, startLine := 4, endLine := 5 }]
    [{ loc1 := 0, loc2 := 1, tokenCount := 3 }] 3
  exact ⟨h.1, (h.2 0 (by decide)).trans (by decide)⟩

/-! ## Text normalization utilities (src/Checkers/utils.ts)

The regex-based replacements are rendered as executable character
scanners.  JavaScript character classes are modelled over their ASCII
content (every string these checkers process through them is ASCII). -/

def isWsChar (c : Char) : Bool :=
  c = ' ' || c = '\t' || c = '\n' || c = '\r' || c = '\x0b' || c = '\x0c'

def isAsciiLetter (c : Char) : Bool :=
  ('a' ≤ c && c ≤ 'z') || ('A' ≤ c && c ≤ 'Z')

def isDigitChar (c : Char) : Bool := '0' ≤ c && c ≤ '9'

def isHexDigitChar (c : Char) : Bool :=
  isDigitChar c || ('a' ≤ c && c ≤ 'f') || ('A' ≤ c && c ≤ 'F')

/-- The `\w` class: `[a-zA-Z0-9_]`. -/
def isWordChar (c : Char) : Bool := isAsciiLetter c || isDigitChar c || c = '_'

/-- First character of the identifier pattern: `[a-zA-Z_]`. -/
def isIdentStart (c : Char) : Bool := isAsciiLetter c || c = '_'

def lowerChar (c : Char) : Char :=
  if 'A' ≤ c && c ≤ 'Z' then Char.ofNat (c.toNat + 32) else c

def upperChar (c : Char) : Char :=
  if 'a' ≤ c && c ≤ 'z' then Char.ofNat (c.toNat - 32) else c

def lowerStr (s : String) : String := String.mk (s.data.map lowerChar)

def upperStr (s : String) : String := String.mk (s.data.map upperChar)

/-- `text.replace(/\s+/g, " ")`: collapse every whitespace run into one
space.  `prevWs` records whether the previous character was whitespace. -/
def collapseWsAux (prevWs : Bool) : List Char → List Char
  | [] => []
  | c :: cs =>
    if isWsChar c then
      if prevWs then collapseWsAux true cs
      else ' ' :: collapseWsAux true cs
    else c :: collapseWsAux false cs

/-- `String.prototype.trim`. -/
def trimChars (cs : List Char) : List Char :=
  ((cs.dropWhile (fun c => isWsChar c)).reverse.dropWhile (fun c => isWsChar c)).reverse

/-- `text.replace(/\s+/g, " ").trim()`, the first step of `normalizeBasic`. -/
def collapseWsTrim (cs : List Char) : List Char := trimChars (collapseWsAux false cs)

/-- Strip a literal character sequence from the front of a list. -/
def stripLit : List Char → List Char → Option (List Char)
  | [], rest => some rest
  | _ :: _, [] => none
  | p :: ps, c :: cs => if c = p then stripLit ps cs else none

theorem stripLit_sound :
    ∀ (pat l rest : List Char), stripLit pat l = some rest → l = pat ++ rest := by
  intro pat
  induction pat with
  | nil =>
    intro l rest h
    cases h
    rfl
  | cons p ps ih =>
    intro l rest h
    cases l with
    | nil => cases h
    | cons c cs =>
      by_cases hc : c = p
      · have h' : stripLit ps cs = some rest := by
          simpa [stripLit, hc] using h
        rw [List.cons_append, ← ih cs rest h', hc]
      · simp [stripLit, hc] at h

/-- Whether the run between `@` and `:` fits `[^:\s]+\.[a-z]+` (with the
`i` flag, so the letters may be of either case): it must end in a nonempty
letter run preceded by a dot preceded by at least one more character.
Backtracking over `[^:\s]+` can only succeed at the run's last dot, so this
is the exact match condition. -/
def atFileRunOk (run : List Char) : Bool :=
  let revRun := run.reverse
  let letters := revRun.takeWhile (fun c => isAsciiLetter c)
  !letters.isEmpty &&
    (match revRun.dropWhile (fun c => isAsciiLetter c) with
     | '.' :: a => !a.isEmpty
     | _ => false)

/-- Attempt the regex `@[^:\s]+\.[a-z]+:` (flags `gi`) at a position whose
`@` has been consumed; returns the rest of the input after the match. -/
def matchAtFile (cs : List Char) : Option (List Char) :=
  let run := cs.takeWhile (fun c => !(c = ':') && !(isWsChar c))
  let rest := cs.dropWhile (fun c => !(c = ':') && !(isWsChar c))
  match rest with
  | ':' :: rest' => if atFileRunOk run then some rest' else none
  | _ => none

/-- `text.replace(/@[^:\s]+\.[a-z]+:/gi, "@FILE:")`, fuel-driven so that it
reduces definitionally (the fuel never runs out when it is at least the
input length). -/
def replaceAtFileAux : Nat → List Char → List Char
  | 0, cs => cs
  | _ + 1, [] => []
  | fuel + 1, c :: cs =>
    if c = '@' then
      match matchAtFile cs with
      | some rest => '@' :: 'F' :: 'I' :: 'L' :: 'E' :: ':' :: replaceAtFileAux fuel rest
      | none => c :: replaceAtFileAux fuel cs
    else c :: replaceAtFileAux fuel cs

def thisFileLit : List Char := "this: @FILE: ".data

def thisFileRepl : List Char := "this: @FILE: CLASS".data

/-- `text.replace(/this: @FILE: \w+/g, "this: @FILE: CLASS")`. -/
def replaceThisFileAux : Nat → List Char → List Char
  | 0, cs => cs
  | _ + 1, [] => []
  | fuel + 1, c :: cs =>
    match stripLit thisFileLit (c :: cs) with
    | some rest =>
      let w := rest.takeWhile (fun ch => isWordChar ch)
      if w.isEmpty then c :: replaceThisFileAux fuel cs
      else thisFileRepl ++ replaceThisFileAux fuel (rest.dropWhile (fun ch => isWordChar ch))
    | none => c :: replaceThisFileAux fuel cs

/-- `text.replace(/%AC\d+/g, "%AC")`. -/
def replaceACAux : Nat → List Char → List Char
  | 0, cs => cs
  | _ + 1, [] => []
  | fuel + 1, c :: cs =>
    if c = '%' then
      match cs with
      | 'A' :: 'C' :: rest =>
        let d := rest.takeWhile (fun ch => isDigitChar ch)
        if d.isEmpty then c :: replaceACAux fuel cs
        else '%' :: 'A' :: 'C' :: replaceACAux fuel (rest.dropWhile (fun ch => isDigitChar ch))
      | _ => c :: replaceACAux fuel cs
    else c :: replaceACAux fuel cs

/--
```
export function normalizeBasic(text: string): string {
    text = text.replace(/\s+/g, " ").trim();
    text = text.replace(/@[^:\s]+\.[a-z]+:/gi, "@FILE:");
    text = text.replace(/this: @FILE: \w+/g, "this: @FILE: CLASS");
    text = text.replace(/%AC\d+/g, "%AC");
    return text;
}
``` -/
def normalizeBasic (text : String) : String :=
  let t1 := collapseWsTrim text.data
  let t2 := replaceAtFileAux (t1.length + 1) t1
  let t3 := replaceThisFileAux (t2.length + 1) t2
  let t4 := replaceACAux (t3.length + 1) t3
  String.mk t4

theorem replaceAtFileAux_id :
    ∀ (fuel : Nat) (cs : List Char), (∀ c ∈ cs, c ≠ '@') → replaceAtFileAux fuel cs = cs := by
  intro fuel
  induction fuel with
  | zero => intro cs _; rfl
  | succ fuel ih =>
    intro cs h
    cases cs with
    | nil => rfl
    | cons c cs =>
      have hc : c ≠ '@' := h c (List.mem_cons_self c cs)
      show (if c = '@' then _ else c :: replaceAtFileAux fuel cs) = c :: cs
      rw [if_neg hc, ih cs (fun x hx => h x (List.mem_cons_of_mem c hx))]

theorem replaceThisFileAux_id :
    ∀ (fuel : Nat) (cs : List Char), (∀ c ∈ cs, c ≠ '@') → replaceThisFileAux fuel cs = cs := by
  intro fuel
  induction fuel with
  | zero => intro cs _; rfl
  | succ fuel ih =>
    intro cs h
    cases cs with
    | nil => rfl
    | cons c cs =>
      have hlit : stripLit thisFileLit (c :: cs) = none := by
        cases hs : stripLit thisFileLit (c :: cs) with
        | none => rfl
        | some rest =>
          exfalso
          have := stripLit_sound thisFileLit (c :: cs) rest hs
          have hat : '@' ∈ c :: cs := by
            rw [this]
            have : '@' ∈ thisFileLit := by decide
            exact List.mem_append_left _ this
          exact h '@' hat rfl
      show (match stripLit thisFileLit (c :: cs) with
        | some rest => _
        | none => c :: replaceThisFileAux fuel cs) = c :: cs
      rw [hlit, ih cs (fun x hx => h x (List.mem_cons_of_mem c hx))]

theorem replaceACAux_id :
    ∀ (fuel : Nat) (cs : List Char), (∀ c ∈ cs, c ≠ '%') → replaceACAux fuel cs = cs := by
  intro fuel
  induction fuel with
  | zero => intro cs _; rfl
  | succ fuel ih =>
    intro cs h
    cases cs with
    | nil => rfl
    | cons c cs =>
      have hc : c ≠ '%' := h c (List.mem_cons_self c cs)
      show (if c = '%' then _ else c :: replaceACAux fuel cs) = c :: cs
      rw [if_neg hc, ih cs (fun x hx => h x (List.mem_cons_of_mem c hx))]

/-- No `@` and no `%` anywhere in the text: the file-reference and
anonymous-class scrubs of `normalizeBasic` are then no-ops. -/
def markerFree (cs : List Char) : Bool :=
  cs.all (fun c => !(c = '@') && !(c = '%'))

theorem markerFree_no_at {cs : List Char} (h : markerFree cs = true) :
    ∀ c ∈ cs, c ≠ '@' := by
  intro c hc
  have := List.all_eq_true.mp h c hc
  intro heq
  rw [heq] at this
  simp at this

theorem markerFree_no_pct {cs : List Char} (h : markerFree cs = true) :
    ∀ c ∈ cs, c ≠ '%' := by
  intro c hc
  have := List.all_eq_true.mp h c hc
  intro heq
  rw [heq] at this
  simp at this

theorem normalizeBasic_of_canonical {text : String}
    (hfree : markerFree text.data = true)
    (hcanon : collapseWsTrim text.data = text.data) :
    normalizeBasic text = text := by
  unfold normalizeBasic
  simp only [hcanon, replaceAtFileAux_id _ _ (markerFree_no_at hfree),
    replaceThisFileAux_id _ _ (markerFree_no_at hfree),
    replaceACAux_id _ _ (markerFree_no_pct hfree)]

/-! ### The identifier pattern `/\b([a-zA-Z_][a-zA-Z0-9_]*)\b/g`

A text decomposes into segments: the regex's matches — maximal word-char
runs that begin with an identifier-start character at a word boundary —
and every other character individually.  `replace` computes a replacement
per match, left to right, and splices. -/

inductive Seg where
  | word : List Char → Seg
  | chr : Char → Seg
deriving DecidableEq, Repr

def fromSegs : List Seg → List Char
  | [] => []
  | Seg.word w :: rest => w ++ fromSegs rest
  | Seg.chr c :: rest => c :: fromSegs rest

/-- Segment scanner.  `prevWord` records whether the previous character was
a word character (then there is no boundary before an identifier-start
character), `run` the reversed current match. -/
def toSegsAux (prevWord : Bool) (run : List Char) : List Char → List Seg
  | [] => if run.isEmpty then [] else [Seg.word run.reverse]
  | c :: cs =>
    if run.isEmpty then
      if !prevWord && isIdentStart c then toSegsAux prevWord [c] cs
      else Seg.chr c :: toSegsAux (isWordChar c) [] cs
    else
      if isWordChar c then toSegsAux prevWord (c :: run) cs
      else Seg.word run.reverse :: Seg.chr c :: toSegsAux false [] cs

def toSegs (cs : List Char) : List Seg := toSegsAux false [] cs

theorem fromSegs_toSegsAux :
    ∀ (cs : List Char) (prevWord : Bool) (run : List Char),
      fromSegs (toSegsAux prevWord run cs) = run.reverse ++ cs := by
  intro cs
  induction cs with
  | nil =>
    intro pw run
    show fromSegs (if run.isEmpty then [] else [Seg.word run.reverse]) = run.reverse ++ []
    cases run with
    | nil => rfl
    | cons a t => simp [fromSegs]
  | cons c cs ih =>
    intro pw run
    show fromSegs
        (if run.isEmpty then
          if !pw && isIdentStart c then toSegsAux pw [c] cs
          else Seg.chr c :: toSegsAux (isWordChar c) [] cs
        else
          if isWordChar c then toSegsAux pw (c :: run) cs
          else Seg.word run.reverse :: Seg.chr c :: toSegsAux false [] cs) =
      run.reverse ++ c :: cs
    cases run with
    | nil =>
      by_cases hs : (!pw && isIdentStart c) = true
      · simp only [List.isEmpty_nil, if_true, hs]
        rw [ih pw [c]]
        rfl
      · simp only [List.isEmpty_nil, if_true, hs, if_false]
        show c :: fromSegs (toSegsAux (isWordChar c) [] cs) = [] ++ c :: cs
        rw [ih (isWordChar c) []]
        rfl
    | cons a t =>
      show fromSegs
          (if isWordChar c then toSegsAux pw (c :: a :: t) cs
           else Seg.word (a :: t).reverse :: Seg.chr c :: toSegsAux false [] cs) =
        (a :: t).reverse ++ c :: cs
      by_cases hw : isWordChar c = true
      · rw [if_pos hw, ih pw (c :: a :: t)]
        simp
      · rw [if_neg hw]
        show (a :: t).reverse ++ c :: fromSegs (toSegsAux false [] cs) = (a :: t).reverse ++ c :: cs
        rw [ih false []]
        rfl

theorem fromSegs_toSegs (cs : List Char) : fromSegs (toSegs cs) = cs :=
  fromSegs_toSegsAux cs false []

/-! ### normalizeIdentifiers (src/Checkers/utils.ts)

```
export function normalizeIdentifiers(text: string, identifierMap: Map<string, string>): string {
    const identifierPattern = /\b([a-zA-Z_][a-zA-Z0-9_]*)\b/g;
    return text.replace(identifierPattern, (match) => {
        if (TYPE2_KEYWORDS.has(match.toLowerCase()) || match.length <= 1) {
            return match;
        }
        if (match === match.toUpperCase() && match.length > 1) {
            return match;
        }
        if (identifierMap.has(match)) {
            return identifierMap.get(match)!;
        }
        const normalized = `ID_` + (identifierMap.size + 1);
        identifierMap.set(match, normalized);
        return normalized;
    });
}
``` -/

/-- The identifier map, insertion-ordered (`Map.size` is its length). -/
abbrev IdMap := List (String × String)

def idMapFind : IdMap → String → Option String
  | [], _ => none
  | (k, v) :: rest, key => if k = key then some v else idMapFind rest key

def TYPE2_KEYWORDS : List String :=
  ["let", "const", "var", "function", "return", "if", "else", "for", "while",
   "true", "false", "null", "undefined", "this", "new", "class", "extends",
   "number", "string", "boolean", "void", "any", "object",
   "length", "push", "pop", "map", "filter", "forEach", "indexOf",
   "console", "log", "toFixed", "trim", "toString",
   "parameter0", "parameter1", "parameter2"]

def isType2Keyword (w : String) : Bool := TYPE2_KEYWORDS.contains (lowerStr w)

/-- The replacement callback of `normalizeIdentifiers` for one match. -/
def normalizeWordRun (m : IdMap) (w : String) : String × IdMap :=
  if isType2Keyword w || decide (w.length ≤ 1) then (w, m)
  else if w = upperStr w ∧ 1 < w.length then (w, m)
  else
    match idMapFind m w with
    | some v => (v, m)
    | none =>
      let normalized := "ID_" ++ toString (m.length + 1)
      (normalized, m ++ [(w, normalized)])

def normSegs (m : IdMap) : List Seg → List Seg × IdMap
  | [] => ([], m)
  | Seg.word w :: rest =>
    let r := normalizeWordRun m (String.mk w)
    let rec' := normSegs r.2 rest
    (Seg.word r.1.data :: rec'.1, rec'.2)
  | Seg.chr c :: rest =>
    let rec' := normSegs m rest
    (Seg.chr c :: rec'.1, rec'.2)

def normalizeIdentifiers (text : String) (identifierMap : IdMap) : String × IdMap :=
  let r := normSegs identifierMap (toSegs text.data)
  (String.mk (fromSegs r.1), r.2)

/-! ### normalizeLiterals (src/Checkers/utils.ts)

```
export function normalizeLiterals(text: string): string {
    text = text.replace(/\b\d+\.?\d*([eE][+-]?\d+)?\b/g, 'NUM');
    text = text.replace(/\b0x[0-9a-fA-F]+\b/g, 'NUM');
    text = text.replace(/"[^"]*"/g, 'STR');
    text = text.replace(/'[^']*'/g, 'STR');
    return text;
}
``` -/

def nextIsWord : List Char → Bool
  | [] => false
  | c :: _ => isWordChar c

/-- `[eE][+-]?\d+`. -/
def expMatch : List Char → Option (List Char)
  | [] => none
  | c :: rest =>
    if c = 'e' || c = 'E' then
      let rest2 := match rest with
        | s :: r2 => if s = '+' || s = '-' then r2 else rest
        | [] => rest
      let d := rest2.takeWhile (fun ch => isDigitChar ch)
      if d.isEmpty then none else some (rest2.dropWhile (fun ch => isDigitChar ch))
    else none

/-- Attempt `\d+\.?\d*([eE][+-]?\d+)?\b` at a position whose head is a
digit with a word boundary before it; candidates in the engine's
backtracking order.  Returns whether the match's last character is a word
character (for the continuation's boundary state) and the rest. -/
def numMatch (cs : List Char) : Option (Bool × List Char) :=
  let d1 := cs.takeWhile (fun ch => isDigitChar ch)
  let r1 := cs.dropWhile (fun ch => isDigitChar ch)
  if d1.isEmpty then none
  else
    match r1 with
    | '.' :: r2 =>
      let d2 := r2.takeWhile (fun ch => isDigitChar ch)
      let r3 := r2.dropWhile (fun ch => isDigitChar ch)
      (match expMatch r3 with
       | some r4 => if nextIsWord r4 then none else some (true, r4)
       | none => none) <|>
      (if !d2.isEmpty && !nextIsWord r3 then some (true, r3) else none) <|>
      (if nextIsWord r2 then some (false, r2) else none) <|>
      some (true, '.' :: r2)
    | _ =>
      (match expMatch r1 with
       | some r4 => if nextIsWord r4 then none else some (true, r4)
       | none => none) <|>
      (if !nextIsWord r1 then some (true, r1) else none)

def numRepl : List Char := ['N', 'U', 'M']

def strRepl : List Char := ['S', 'T', 'R']

def replaceNumAux : Nat → Bool → List Char → List Char
  | 0, _, cs => cs
  | _ + 1, _, [] => []
  | fuel + 1, pw, c :: cs =>
    if !pw && isDigitChar c then
      match numMatch (c :: cs) with
      | some r => numRepl ++ replaceNumAux fuel r.1 r.2
      | none => c :: replaceNumAux fuel true cs
    else c :: replaceNumAux fuel (isWordChar c) cs

def replaceHexAux : Nat → Bool → List Char → List Char
  | 0, _, cs => cs
  | _ + 1, _, [] => []
  | fuel + 1, pw, c :: cs =>
    if !pw && c = '0' then
      match cs with
      | 'x' :: rest =>
        let h := rest.takeWhile (fun ch => isHexDigitChar ch)
        let r := rest.dropWhile (fun ch => isHexDigitChar ch)
        if h.isEmpty || nextIsWord r then c :: replaceHexAux fuel true cs
        else numRepl ++ replaceHexAux fuel true r
      | _ => c :: replaceHexAux fuel true cs
    else c :: replaceHexAux fuel (isWordChar c) cs

def replaceQuoteAux (q : Char) : Nat → List Char → List Char
  | 0, cs => cs
  | _ + 1, [] => []
  | fuel + 1, c :: cs =>
    if c = q then
      match cs.dropWhile (fun ch => !(ch = q)) with
      | _ :: r => strRepl ++ replaceQuoteAux q fuel r
      | [] => c :: replaceQuoteAux q fuel cs
    else c :: replaceQuoteAux q fuel cs

def normalizeLiterals (text : String) : String :=
  let t1 := replaceNumAux (text.data.length + 1) false text.data
  let t2 := replaceHexAux (t1.length + 1) false t1
  let t3 := replaceQuoteAux '"' (t2.length + 1) t2
  let t4 := replaceQuoteAux '\'' (t3.length + 1) t3
  String.mk t4

/-! ### Type-2 method hash (CodeCloneType2Check.computeHash over the base
check): basic-normalize each statement, normalize identifiers with one map
shared across the statement list, optionally abstract literals, join with
`|` and hash. -/

def type2Step (ignoreLiterals : Bool) (acc : List String × IdMap) (stmt : String) :
    List String × IdMap :=
  let text1 := normalizeBasic stmt
  let r := normalizeIdentifiers text1 acc.2
  let text2 := if ignoreLiterals then normalizeLiterals r.1 else r.1
  (acc.1 ++ [text2], r.2)

def computeType2Hash (ignoreLiterals : Bool) (stmts : List String) : String :=
  djb2Hash (joinSep "|" ((stmts.foldl (type2Step ignoreLiterals) ([], [])).1))

/-! ### Renaming of identifiers (the relation of claim C5)

A method is a consistent renaming of another when every non-trivial
identifier match (length ≥ 2, not a keyword or common builtin, not
all-uppercase — the words `normalizeIdentifiers` would map) is replaced by
`ρ` of it, and everything else is unchanged. -/

/-- Shape of a full identifier match: nonempty, identifier-start head, word
characters throughout. -/
def identRun : List Char → Bool
  | [] => false
  | c :: cs => isIdentStart c && cs.all (fun ch => isWordChar ch)

/-- Exactly the words on which `normalizeWordRun` applies the map. -/
def type2Eligible (w : String) : Bool :=
  !(isType2Keyword w || decide (w.length ≤ 1)) && !(decide (w = upperStr w ∧ 1 < w.length))

theorem normalizeWordRun_of_ineligible {w : String} (m : IdMap)
    (h : type2Eligible w = false) : normalizeWordRun m w = (w, m) := by
  unfold normalizeWordRun
  by_cases hkw : (isType2Keyword w || decide (w.length <= 1)) = true
  · rw [if_pos hkw]
  · have hA : (isType2Keyword w || decide (w.length <= 1)) = false := by
      cases hx : (isType2Keyword w || decide (w.length <= 1))
      · rfl
      · exact absurd hx hkw
    unfold type2Eligible at h
    rw [hA] at h
    simp at h
    rw [if_neg hkw, if_pos h]

theorem normalizeWordRun_of_eligible {w : String} (m : IdMap)
    (h : type2Eligible w = true) :
    normalizeWordRun m w =
      match idMapFind m w with
      | some v => (v, m)
      | none =>
        ("ID_" ++ toString (m.length + 1), m ++ [(w, "ID_" ++ toString (m.length + 1))]) := by
  unfold type2Eligible at h
  rw [Bool.and_eq_true] at h
  obtain ⟨h1, h2⟩ := h
  rw [Bool.not_eq_true'] at h1 h2
  unfold normalizeWordRun
  rw [if_neg (by rw [h1]; exact Bool.false_ne_true), if_neg (of_decide_eq_false h2)]

/-- Substitute eligible identifier matches through `ρ`. -/
def renameSegs (ρ : String → String) : List Seg → List Seg
  | [] => []
  | Seg.word w :: rest =>
    (if type2Eligible (String.mk w) then Seg.word (ρ (String.mk w)).data
     else Seg.word w) :: renameSegs ρ rest
  | Seg.chr c :: rest => Seg.chr c :: renameSegs ρ rest

/-- The consistent renaming of a text: every eligible identifier match
replaced by `ρ` of it. -/
def applyRename (ρ : String → String) (s : String) : String :=
  String.mk (fromSegs (renameSegs ρ (toSegs s.data)))

/-- The conditions on a renaming: it maps eligible identifiers to eligible
identifiers and is injective on them. -/
def RenameOk (ρ : String → String) : Prop :=
  (∀ w : String, identRun w.data = true → type2Eligible w = true →
      identRun (ρ w).data = true ∧ type2Eligible (ρ w) = true) ∧
  (∀ w w' : String, identRun w.data = true → type2Eligible w = true →
      identRun w'.data = true → type2Eligible w' = true → ρ w = ρ w' → w = w')

/-! Well-formed segment lists: exactly the images of `toSegs`.  The state
records what the previous character was: nothing word-like, a word
character inside a non-match, or the end of a match. -/

inductive WState where
  | noWord
  | chrWord
  | wordSeg
deriving DecidableEq, Repr

def wfChrGuard (st : WState) (c : Char) : Bool :=
  match st with
  | WState.noWord => !(isIdentStart c)
  | WState.chrWord => true
  | WState.wordSeg => !(isWordChar c)

def wfFrom : WState → List Seg → Bool
  | _, [] => true
  | st, Seg.chr c :: rest =>
    wfChrGuard st c && wfFrom (if isWordChar c then WState.chrWord else WState.noWord) rest
  | st, Seg.word w :: rest =>
    (match st with
     | WState.noWord => identRun w
     | _ => false) && wfFrom WState.wordSeg rest

def stateOfPw (pw : Bool) : WState := if pw then WState.chrWord else WState.noWord

theorem identRun_concat {w : List Char} {c : Char} (hw : identRun w = true)
    (hc : isWordChar c = true) : identRun (w ++ [c]) = true := by
  cases w with
  | nil => cases hw
  | cons a t =>
    rw [show identRun (a :: t) = (isIdentStart a && t.all (fun ch => isWordChar ch)) from rfl,
      Bool.and_eq_true] at hw
    show (isIdentStart a && (t ++ [c]).all (fun ch => isWordChar ch)) = true
    rw [Bool.and_eq_true, List.all_append]
    refine ⟨hw.1, ?_⟩
    rw [Bool.and_eq_true]
    exact ⟨hw.2, by simp [hc]⟩

theorem toSegsAux_wf :
    ∀ (cs : List Char) (pw : Bool),
      (wfFrom (stateOfPw pw) (toSegsAux pw [] cs) = true) ∧
      (∀ run, identRun run.reverse = true →
        wfFrom WState.noWord (toSegsAux pw run cs) = true) := by
  intro cs
  induction cs with
  | nil =>
    intro pw
    constructor
    · rfl
    · intro run hrun
      cases run with
      | nil => cases hrun
      | cons a t =>
        show ((match WState.noWord with
          | WState.noWord => identRun (a :: t).reverse
          | _ => false) && wfFrom WState.wordSeg []) = true
        rw [hrun]
        rfl
  | cons c cs ih =>
    intro pw
    constructor
    · show wfFrom (stateOfPw pw)
        (if (!pw && isIdentStart c) = true then toSegsAux pw [c] cs
         else Seg.chr c :: toSegsAux (isWordChar c) [] cs) = true
      by_cases hs : (!pw && isIdentStart c) = true
      · rw [if_pos hs]
        rw [Bool.and_eq_true] at hs
        have hpw : pw = false := by
          cases pw
          · rfl
          · cases hs.1
        have hident : identRun ([c] : List Char).reverse = true := by
          show identRun [c] = true
          show (isIdentStart c && List.all [] (fun ch => isWordChar ch)) = true
          rw [hs.2]
          rfl
        have h2 := (ih pw).2 [c] hident
        subst hpw
        exact h2
      · rw [if_neg hs]
        show (wfChrGuard (stateOfPw pw) c &&
          wfFrom (if isWordChar c then WState.chrWord else WState.noWord)
            (toSegsAux (isWordChar c) [] cs)) = true
        rw [Bool.and_eq_true]
        constructor
        · cases pw
          · show (!(isIdentStart c)) = true
            cases hid : isIdentStart c
            · rfl
            · exact absurd (by rw [hid]; rfl) hs
          · rfl
        · have h1 := (ih (isWordChar c)).1
          cases hw : isWordChar c
          · rw [hw] at h1
            exact h1
          · rw [hw] at h1
            exact h1
    · intro run hrun
      cases run with
      | nil => cases hrun
      | cons a t =>
        show wfFrom WState.noWord
          (if isWordChar c = true then toSegsAux pw (c :: a :: t) cs
           else Seg.word (a :: t).reverse :: Seg.chr c :: toSegsAux false [] cs) = true
        by_cases hw : isWordChar c = true
        · rw [if_pos hw]
          have hident : identRun (c :: a :: t).reverse = true := by
            rw [show (c :: a :: t).reverse = (a :: t).reverse ++ [c] by simp]
            exact identRun_concat hrun hw
          exact (ih pw).2 (c :: a :: t) hident
        · rw [if_neg hw]
          show ((match WState.noWord with
            | WState.noWord => identRun (a :: t).reverse
            | _ => false) &&
            wfFrom WState.wordSeg (Seg.chr c :: toSegsAux false [] cs)) = true
          rw [Bool.and_eq_true]
          refine ⟨hrun, ?_⟩
          show (wfChrGuard WState.wordSeg c &&
            wfFrom (if isWordChar c then WState.chrWord else WState.noWord)
              (toSegsAux false [] cs)) = true
          rw [Bool.and_eq_true]
          constructor
          · show (!(isWordChar c)) = true
            cases hwc : isWordChar c
            · rfl
            · exact absurd hwc hw
          · have hwf : isWordChar c = false := by
              cases hwc : isWordChar c
              · rfl
              · exact absurd hwc hw
            rw [hwf]
            exact (ih false).1

theorem toSegs_wf (cs : List Char) : wfFrom WState.noWord (toSegs cs) = true :=
  (toSegsAux_wf cs false).1

theorem renameSegs_wf {ρ : String → String} (hρ : RenameOk ρ) :
    ∀ (segs : List Seg) (st : WState), wfFrom st segs = true →
      wfFrom st (renameSegs ρ segs) = true := by
  intro segs
  induction segs with
  | nil => intro st _; rfl
  | cons s rest ih =>
    intro st h
    cases s with
    | chr c =>
      rw [show wfFrom st (Seg.chr c :: rest) = (wfChrGuard st c &&
        wfFrom (if isWordChar c then WState.chrWord else WState.noWord) rest) from rfl,
        Bool.and_eq_true] at h
      show wfFrom st (Seg.chr c :: renameSegs ρ rest) = true
      rw [show wfFrom st (Seg.chr c :: renameSegs ρ rest) = (wfChrGuard st c &&
        wfFrom (if isWordChar c then WState.chrWord else WState.noWord) (renameSegs ρ rest)) from rfl,
        Bool.and_eq_true]
      exact ⟨h.1, ih _ h.2⟩
    | word w =>
      cases st with
      | noWord =>
        rw [show wfFrom WState.noWord (Seg.word w :: rest) =
          (identRun w && wfFrom WState.wordSeg rest) from rfl, Bool.and_eq_true] at h
        show wfFrom WState.noWord
          ((if type2Eligible (String.mk w) then Seg.word (ρ (String.mk w)).data
            else Seg.word w) :: renameSegs ρ rest) = true
        by_cases he : type2Eligible (String.mk w) = true
        · rw [if_pos he]
          rw [show wfFrom WState.noWord (Seg.word (ρ (String.mk w)).data :: renameSegs ρ rest) =
            (identRun (ρ (String.mk w)).data && wfFrom WState.wordSeg (renameSegs ρ rest)) from rfl,
            Bool.and_eq_true]
          have hident : identRun (String.mk w).data = true := h.1
          exact ⟨(hρ.1 (String.mk w) hident he).1, ih _ h.2⟩
        · rw [if_neg he]
          rw [show wfFrom WState.noWord (Seg.word w :: renameSegs ρ rest) =
            (identRun w && wfFrom WState.wordSeg (renameSegs ρ rest)) from rfl,
            Bool.and_eq_true]
          exact ⟨h.1, ih _ h.2⟩
      | chrWord =>
        rw [show wfFrom WState.chrWord (Seg.word w :: rest) =
          (false && wfFrom WState.wordSeg rest) from rfl] at h
        cases h
      | wordSeg =>
        rw [show wfFrom WState.wordSeg (Seg.word w :: rest) =
          (false && wfFrom WState.wordSeg rest) from rfl] at h
        cases h

theorem toSegsAux_consume_run :
    ∀ (w : List Char) (pw : Bool) (run : List Char) (tail : List Char),
      run ≠ [] → w.all (fun ch => isWordChar ch) = true →
      toSegsAux pw run (w ++ tail) = toSegsAux pw (w.reverse ++ run) tail := by
  intro w
  induction w with
  | nil => intro pw run tail _ _; rfl
  | cons c w' ih =>
    intro pw run tail hne hall
    rw [List.all_cons, Bool.and_eq_true] at hall
    cases run with
    | nil => exact absurd rfl hne
    | cons a t =>
      show (if isWordChar c = true then toSegsAux pw (c :: a :: t) (w' ++ tail)
        else Seg.word (a :: t).reverse :: Seg.chr c :: toSegsAux false [] (w' ++ tail)) = _
      rw [if_pos hall.1, ih pw (c :: a :: t) tail (by intro hx; cases hx) hall.2]
      congr 1
      simp

def pwOf : WState → Bool
  | WState.noWord => false
  | WState.chrWord => true
  | WState.wordSeg => true

theorem wf_reparse :
    ∀ (segs : List Seg) (st : WState), wfFrom st segs = true →
      toSegsAux (pwOf st) [] (fromSegs segs) = segs := by
  intro segs
  induction segs with
  | nil => intro st _; cases st <;> rfl
  | cons s rest ih =>
    intro st h
    cases s with
    | chr c =>
      rw [show wfFrom st (Seg.chr c :: rest) = (wfChrGuard st c &&
        wfFrom (if isWordChar c then WState.chrWord else WState.noWord) rest) from rfl,
        Bool.and_eq_true] at h
      show toSegsAux (pwOf st) [] (c :: fromSegs rest) = Seg.chr c :: rest
      have hstart : (!(pwOf st) && isIdentStart c) = false := by
        cases st with
        | noWord =>
          have : isIdentStart c = false := by
            have := h.1
            cases hid : isIdentStart c
            · rfl
            · rw [show wfChrGuard WState.noWord c = !(isIdentStart c) from rfl, hid] at this
              cases this
          rw [this]
          simp
        | chrWord => rfl
        | wordSeg => rfl
      show (if (!(pwOf st) && isIdentStart c) = true then toSegsAux (pwOf st) [c] (fromSegs rest)
        else Seg.chr c :: toSegsAux (isWordChar c) [] (fromSegs rest)) = Seg.chr c :: rest
      rw [hstart]
      show Seg.chr c :: toSegsAux (isWordChar c) [] (fromSegs rest) = Seg.chr c :: rest
      congr 1
      cases hw : isWordChar c
      · have := ih (WState.noWord) (by rw [hw] at h; exact h.2)
        exact this
      · have := ih (WState.chrWord) (by rw [hw] at h; exact h.2)
        exact this
    | word w =>
      cases st with
      | chrWord =>
        rw [show wfFrom WState.chrWord (Seg.word w :: rest) =
          (false && wfFrom WState.wordSeg rest) from rfl] at h
        cases h
      | wordSeg =>
        rw [show wfFrom WState.wordSeg (Seg.word w :: rest) =
          (false && wfFrom WState.wordSeg rest) from rfl] at h
        cases h
      | noWord =>
        rw [show wfFrom WState.noWord (Seg.word w :: rest) =
          (identRun w && wfFrom WState.wordSeg rest) from rfl, Bool.and_eq_true] at h
        cases w with
        | nil => cases h.1
        | cons c w' =>
          have hid : isIdentStart c = true ∧ w'.all (fun ch => isWordChar ch) = true := by
            have := h.1
            rw [show identRun (c :: w') = (isIdentStart c && w'.all (fun ch => isWordChar ch)) from rfl,
              Bool.and_eq_true] at this
            exact this
          show toSegsAux false [] ((c :: w') ++ fromSegs rest) = Seg.word (c :: w') :: rest
          show (if (!false && isIdentStart c) = true then toSegsAux false [c] (w' ++ fromSegs rest)
            else Seg.chr c :: toSegsAux (isWordChar c) [] (w' ++ fromSegs rest)) =
            Seg.word (c :: w') :: rest
          rw [if_pos (by rw [hid.1]; rfl)]
          rw [toSegsAux_consume_run w' false [c] (fromSegs rest) (by intro hx; cases hx) hid.2]
          have hih := ih WState.wordSeg h.2
          cases rest with
          | nil =>
            show (if (w'.reverse ++ [c]).isEmpty = true then []
              else [Seg.word (w'.reverse ++ [c]).reverse]) = [Seg.word (c :: w')]
            rw [if_neg (by simp)]
            congr 2
            simp
          | cons s' rest' =>
            cases s' with
            | word _ =>
              rw [show wfFrom WState.wordSeg (Seg.word _ :: rest') =
                (false && wfFrom WState.wordSeg rest') from rfl] at h
              exact absurd h.2 (by rw [show (false && wfFrom WState.wordSeg rest') = false from rfl]; exact Bool.false_ne_true)
            | chr c' =>
              have hguard : wfFrom WState.wordSeg (Seg.chr c' :: rest') = true := h.2
              rw [show wfFrom WState.wordSeg (Seg.chr c' :: rest') = (wfChrGuard WState.wordSeg c' &&
                wfFrom (if isWordChar c' then WState.chrWord else WState.noWord) rest') from rfl,
                Bool.and_eq_true] at hguard
              have hcw : isWordChar c' = false := by
                have := hguard.1
                cases hx : isWordChar c'
                · rfl
                · rw [show wfChrGuard WState.wordSeg c' = !(isWordChar c') from rfl, hx] at this
                  cases this
              show toSegsAux false (w'.reverse ++ [c]) (c' :: fromSegs rest') =
                Seg.word (c :: w') :: Seg.chr c' :: rest'
              have hrunne : (w'.reverse ++ [c]) ≠ [] := by simp
              cases hrun : w'.reverse ++ [c] with
              | nil => exact absurd hrun hrunne
              | cons ra rt =>
                show (if isWordChar c' = true then toSegsAux false (c' :: ra :: rt) (fromSegs rest')
                  else Seg.word (ra :: rt).reverse :: Seg.chr c' :: toSegsAux false [] (fromSegs rest')) = _
                rw [hcw]
                show Seg.word (ra :: rt).reverse :: Seg.chr c' :: toSegsAux false [] (fromSegs rest') =
                  Seg.word (c :: w') :: Seg.chr c' :: rest'
                have hrev : (ra :: rt).reverse = c :: w' := by
                  rw [← hrun]
                  simp
                rw [hrev]
                congr 2
                have hexp : toSegsAux true [] (c' :: fromSegs rest') = Seg.chr c' :: rest' := hih
                rw [show toSegsAux true [] (c' :: fromSegs rest') =
                  (if (!true && isIdentStart c') = true then toSegsAux true [c'] (fromSegs rest')
                   else Seg.chr c' :: toSegsAux (isWordChar c') [] (fromSegs rest')) from rfl] at hexp
                rw [show (!true && isIdentStart c') = false by simp] at hexp
                simp only [Bool.false_eq_true, if_false] at hexp
                rw [hcw] at hexp
                have := List.cons.inj hexp
                exact this.2

theorem toSegs_applyRename {ρ : String → String} (hρ : RenameOk ρ) (cs : List Char) :
    toSegs (fromSegs (renameSegs ρ (toSegs cs))) = renameSegs ρ (toSegs cs) :=
  wf_reparse _ WState.noWord (renameSegs_wf hρ _ WState.noWord (toSegs_wf cs))

theorem strMkData (s : String) : String.mk s.data = s := by
  cases s
  rfl

/-- All keys of an identifier map are eligible identifier matches — an
invariant of `normalizeIdentifiers`. -/
def keysOk (m : IdMap) : Prop :=
  ∀ kv ∈ m, identRun kv.1.data = true ∧ type2Eligible kv.1 = true

def mapKeys (ρ : String → String) (m : IdMap) : IdMap :=
  m.map (fun kv => (ρ kv.1, kv.2))

theorem idMapFind_mapKeys {ρ : String → String} (hρ : RenameOk ρ) :
    ∀ (m : IdMap), keysOk m → ∀ (w : String), identRun w.data = true →
      type2Eligible w = true → idMapFind (mapKeys ρ m) (ρ w) = idMapFind m w := by
  intro m
  induction m with
  | nil => intro _ w _ _; rfl
  | cons kv rest ih =>
    intro hkeys w hwid hwel
    obtain ⟨k, v⟩ := kv
    have hk := hkeys (k, v) (List.mem_cons_self _ _)
    show (if ρ k = ρ w then some v else idMapFind (mapKeys ρ rest) (ρ w)) =
      (if k = w then some v else idMapFind rest w)
    by_cases heq : k = w
    · rw [if_pos (by rw [heq]), if_pos heq]
    · have hne : ρ k ≠ ρ w := fun hc => heq (hρ.2 k w hk.1 hk.2 hwid hwel hc)
      rw [if_neg hne, if_neg heq,
        ih (fun kv hkv => hkeys kv (List.mem_cons_of_mem _ hkv)) w hwid hwel]

theorem wf_words_ident :
    ∀ (segs : List Seg) (st : WState), wfFrom st segs = true →
      ∀ w, Seg.word w ∈ segs → identRun w = true := by
  intro segs
  induction segs with
  | nil => intro st _ w hw; cases hw
  | cons s rest ih =>
    intro st h w hw
    cases s with
    | chr c =>
      rw [show wfFrom st (Seg.chr c :: rest) = (wfChrGuard st c &&
        wfFrom (if isWordChar c then WState.chrWord else WState.noWord) rest) from rfl,
        Bool.and_eq_true] at h
      rcases List.mem_cons.mp hw with hx | hx
      · cases hx
      · exact ih _ h.2 w hx
    | word w' =>
      cases st with
      | noWord =>
        rw [show wfFrom WState.noWord (Seg.word w' :: rest) =
          (identRun w' && wfFrom WState.wordSeg rest) from rfl, Bool.and_eq_true] at h
        rcases List.mem_cons.mp hw with hx | hx
        · cases hx
          exact h.1
        · exact ih _ h.2 w hx
      | chrWord =>
        rw [show wfFrom WState.chrWord (Seg.word w' :: rest) =
          (false && wfFrom WState.wordSeg rest) from rfl] at h
        cases h
      | wordSeg =>
        rw [show wfFrom WState.wordSeg (Seg.word w' :: rest) =
          (false && wfFrom WState.wordSeg rest) from rfl] at h
        cases h

theorem normSegs_word_cons (m : IdMap) (w : List Char) (rest : List Seg) :
    normSegs m (Seg.word w :: rest) =
      (Seg.word (normalizeWordRun m (String.mk w)).1.data ::
        (normSegs (normalizeWordRun m (String.mk w)).2 rest).1,
       (normSegs (normalizeWordRun m (String.mk w)).2 rest).2) := rfl

theorem normSegs_chr_cons (m : IdMap) (c : Char) (rest : List Seg) :
    normSegs m (Seg.chr c :: rest) =
      (Seg.chr c :: (normSegs m rest).1, (normSegs m rest).2) := rfl

theorem normSegs_rename {ρ : String → String} (hρ : RenameOk ρ) :
    ∀ (segs : List Seg) (m : IdMap), keysOk m →
      (∀ w, Seg.word w ∈ segs → identRun w = true) →
      (normSegs (mapKeys ρ m) (renameSegs ρ segs)).1 = (normSegs m segs).1 ∧
        (normSegs (mapKeys ρ m) (renameSegs ρ segs)).2 = mapKeys ρ ((normSegs m segs).2) ∧
        keysOk ((normSegs m segs).2) := by
  intro segs
  induction segs with
  | nil => intro m hm _; exact ⟨rfl, rfl, hm⟩
  | cons s rest ih =>
    intro m hm hwords
    cases s with
    | chr c =>
      have hrest := ih m hm (fun w hw => hwords w (List.mem_cons_of_mem _ hw))
      have hrw : renameSegs ρ (Seg.chr c :: rest) = Seg.chr c :: renameSegs ρ rest := rfl
      rw [hrw, normSegs_chr_cons, normSegs_chr_cons]
      exact ⟨by rw [hrest.1], hrest.2.1, hrest.2.2⟩
    | word w =>
      have hwid : identRun w = true := hwords w (List.mem_cons_self _ _)
      have hwid' : identRun (String.mk w).data = true := hwid
      have hwrest : ∀ w', Seg.word w' ∈ rest → identRun w' = true :=
        fun w' hw => hwords w' (List.mem_cons_of_mem _ hw)
      by_cases he : type2Eligible (String.mk w) = true
      · have hρw := hρ.1 (String.mk w) hwid' he
        have hfind := idMapFind_mapKeys hρ m hm (String.mk w) hwid' he
        have hrw : renameSegs ρ (Seg.word w :: rest) =
            Seg.word (ρ (String.mk w)).data :: renameSegs ρ rest := by
          show (if type2Eligible (String.mk w) then Seg.word (ρ (String.mk w)).data
            else Seg.word w) :: renameSegs ρ rest = _
          rw [if_pos he]
        rw [hrw, normSegs_word_cons, normSegs_word_cons, strMkData]
        have horig := normalizeWordRun_of_eligible (w := String.mk w) m he
        have hren := normalizeWordRun_of_eligible (w := ρ (String.mk w)) (mapKeys ρ m) hρw.2
        rw [hfind] at hren
        have hlen : (mapKeys ρ m).length = m.length := List.length_map _ _
        cases hf : idMapFind m (String.mk w) with
        | some v =>
          rw [hf] at horig hren
          rw [horig, hren]
          have hrest := ih m hm hwrest
          exact ⟨by rw [hrest.1], hrest.2.1, hrest.2.2⟩
        | none =>
          rw [hf] at horig hren
          rw [horig, hren, hlen]
          have hm2 : keysOk (m ++ [(String.mk w, "ID_" ++ toString (m.length + 1))]) := by
            intro kv hkv
            rcases List.mem_append.mp hkv with hkv | hkv
            · exact hm kv hkv
            · rcases List.mem_singleton.mp hkv with rfl
              exact ⟨hwid', he⟩
          have hmk : mapKeys ρ m ++ [(ρ (String.mk w), "ID_" ++ toString (m.length + 1))] =
              mapKeys ρ (m ++ [(String.mk w, "ID_" ++ toString (m.length + 1))]) := by
            unfold mapKeys
            rw [List.map_append]
            rfl
          rw [hmk]
          have hrest := ih (m ++ [(String.mk w, "ID_" ++ toString (m.length + 1))]) hm2 hwrest
          exact ⟨by rw [hrest.1], hrest.2.1, hrest.2.2⟩
      · have hrw : renameSegs ρ (Seg.word w :: rest) = Seg.word w :: renameSegs ρ rest := by
          show (if type2Eligible (String.mk w) then Seg.word (ρ (String.mk w)).data
            else Seg.word w) :: renameSegs ρ rest = _
          rw [if_neg he]
        rw [hrw, normSegs_word_cons, normSegs_word_cons]
        have he' : type2Eligible (String.mk w) = false := by
          cases hx : type2Eligible (String.mk w)
          · rfl
          · exact absurd hx he
        rw [normalizeWordRun_of_ineligible m he', normalizeWordRun_of_ineligible (mapKeys ρ m) he']
        have hrest := ih m hm hwrest
        exact ⟨by rw [hrest.1], hrest.2.1, hrest.2.2⟩

theorem normalizeIdentifiers_rename {ρ : String → String} (hρ : RenameOk ρ)
    (s : String) (m : IdMap) (hm : keysOk m) :
    (normalizeIdentifiers (applyRename ρ s) (mapKeys ρ m)).1 =
        (normalizeIdentifiers s m).1 ∧
      (normalizeIdentifiers (applyRename ρ s) (mapKeys ρ m)).2 =
        mapKeys ρ ((normalizeIdentifiers s m).2) ∧
      keysOk ((normalizeIdentifiers s m).2) := by
  have hdata : (applyRename ρ s).data = fromSegs (renameSegs ρ (toSegs s.data)) := rfl
  have hws := wf_words_ident (toSegs s.data) WState.noWord (toSegs_wf s.data)
  have h := normSegs_rename hρ (toSegs s.data) m hm hws
  refine ⟨?_, ?_, h.2.2⟩
  · show String.mk (fromSegs (normSegs (mapKeys ρ m) (toSegs (applyRename ρ s).data)).1) =
      String.mk (fromSegs (normSegs m (toSegs s.data)).1)
    rw [hdata]
    rw [show toSegs (fromSegs (renameSegs ρ (toSegs s.data))) = renameSegs ρ (toSegs s.data)
      from toSegs_applyRename hρ s.data]
    rw [h.1]
  · show (normSegs (mapKeys ρ m) (toSegs (applyRename ρ s).data)).2 =
      mapKeys ρ ((normSegs m (toSegs s.data)).2)
    rw [hdata]
    rw [show toSegs (fromSegs (renameSegs ρ (toSegs s.data))) = renameSegs ρ (toSegs s.data)
      from toSegs_applyRename hρ s.data]
    exact h.2.1

/-- A statement text on which `normalizeBasic` is the identity: free of the
`@`/`%` markers it scrubs, and already in canonical whitespace form. -/
def StmtOk (s : String) : Prop :=
  markerFree s.data = true ∧ collapseWsTrim s.data = s.data

theorem type2Step_false (acc : List String × IdMap) (s : String) :
    type2Step false acc s =
      (acc.1 ++ [(normalizeIdentifiers (normalizeBasic s) acc.2).1],
       (normalizeIdentifiers (normalizeBasic s) acc.2).2) := rfl

theorem type2Fold_rename {ρ : String → String} (hρ : RenameOk ρ) :
    ∀ (S : List String) (acc : List String) (m : IdMap), keysOk m →
      (∀ s ∈ S, StmtOk s ∧ StmtOk (applyRename ρ s)) →
      ((S.map (applyRename ρ)).foldl (type2Step false) (acc, mapKeys ρ m)).1 =
        (S.foldl (type2Step false) (acc, m)).1 := by
  intro S
  induction S with
  | nil => intro acc m _ _; rfl
  | cons s S ih =>
    intro acc m hm hS
    have hs := hS s (List.mem_cons_self _ _)
    have hb1 : normalizeBasic s = s := normalizeBasic_of_canonical hs.1.1 hs.1.2
    have hb2 : normalizeBasic (applyRename ρ s) = applyRename ρ s :=
      normalizeBasic_of_canonical hs.2.1 hs.2.2
    have hni := normalizeIdentifiers_rename hρ s m hm
    rw [List.map_cons, List.foldl_cons, List.foldl_cons, type2Step_false, type2Step_false,
      hb1, hb2]
    show ((S.map (applyRename ρ)).foldl (type2Step false)
        (acc ++ [(normalizeIdentifiers (applyRename ρ s) (mapKeys ρ m)).1],
         (normalizeIdentifiers (applyRename ρ s) (mapKeys ρ m)).2)).1 =
      (S.foldl (type2Step false)
        (acc ++ [(normalizeIdentifiers s m).1], (normalizeIdentifiers s m).2)).1
    rw [hni.1, hni.2.1]
    exact ih (acc ++ [(normalizeIdentifiers s m).1]) ((normalizeIdentifiers s m).2) hni.2.2
      (fun x hx => hS x (List.mem_cons_of_mem _ hx))

theorem computeType2Hash_rename {ρ : String → String} (hρ : RenameOk ρ)
    (S : List String) (hS : ∀ s ∈ S, StmtOk s ∧ StmtOk (applyRename ρ s)) :
    computeType2Hash false S = computeType2Hash false (S.map (applyRename ρ)) := by
  unfold computeType2Hash
  have h := type2Fold_rename hρ S [] [] (fun kv hkv => absurd hkv (List.not_mem_nil kv)) hS
  rw [show (mapKeys ρ [] : IdMap) = [] from rfl] at h
  rw [h]

/-! ### A single substituted operator character survives the identifier
normalization at the same position, and djb2 separates the results. -/

theorem toSegsAux_diffOne (x y : Char) (hx : isWordChar x = false)
    (hix : isIdentStart x = false) (hy : isWordChar y = false)
    (hiy : isIdentStart y = false) :
    ∀ (p : List Char) (pw : Bool) (run : List Char) (q : List Char),
      ∃ A B, toSegsAux pw run (p ++ x :: q) = A ++ Seg.chr x :: B ∧
        toSegsAux pw run (p ++ y :: q) = A ++ Seg.chr y :: B := by
  intro p
  induction p with
  | nil =>
    intro pw run q
    cases run with
    | nil =>
      refine ⟨[], toSegsAux false [] q, ?_, ?_⟩
      · show (if (!pw && isIdentStart x) = true then toSegsAux pw [x] q
          else Seg.chr x :: toSegsAux (isWordChar x) [] q) = [] ++ Seg.chr x :: toSegsAux false [] q
        rw [hix]
        rw [show (!pw && false) = false by simp]
        simp only [Bool.false_eq_true, if_false, hx]
        rfl
      · show (if (!pw && isIdentStart y) = true then toSegsAux pw [y] q
          else Seg.chr y :: toSegsAux (isWordChar y) [] q) = [] ++ Seg.chr y :: toSegsAux false [] q
        rw [hiy]
        rw [show (!pw && false) = false by simp]
        simp only [Bool.false_eq_true, if_false, hy]
        rfl
    | cons a t =>
      refine ⟨[Seg.word (a :: t).reverse], toSegsAux false [] q, ?_, ?_⟩
      · show (if isWordChar x = true then toSegsAux pw (x :: a :: t) q
          else Seg.word (a :: t).reverse :: Seg.chr x :: toSegsAux false [] q) = _
        rw [hx]
        rfl
      · show (if isWordChar y = true then toSegsAux pw (y :: a :: t) q
          else Seg.word (a :: t).reverse :: Seg.chr y :: toSegsAux false [] q) = _
        rw [hy]
        rfl
  | cons c p ih =>
    intro pw run q
    cases run with
    | nil =>
      by_cases hs : (!pw && isIdentStart c) = true
      · obtain ⟨A, B, h1, h2⟩ := ih pw [c] q
        refine ⟨A, B, ?_, ?_⟩
        · show (if (!pw && isIdentStart c) = true then toSegsAux pw [c] (p ++ x :: q)
            else Seg.chr c :: toSegsAux (isWordChar c) [] (p ++ x :: q)) = _
          rw [if_pos hs]
          exact h1
        · show (if (!pw && isIdentStart c) = true then toSegsAux pw [c] (p ++ y :: q)
            else Seg.chr c :: toSegsAux (isWordChar c) [] (p ++ y :: q)) = _
          rw [if_pos hs]
          exact h2
      · obtain ⟨A, B, h1, h2⟩ := ih (isWordChar c) [] q
        refine ⟨Seg.chr c :: A, B, ?_, ?_⟩
        · show (if (!pw && isIdentStart c) = true then toSegsAux pw [c] (p ++ x :: q)
            else Seg.chr c :: toSegsAux (isWordChar c) [] (p ++ x :: q)) = _
          rw [if_neg hs, h1]
          rfl
        · show (if (!pw && isIdentStart c) = true then toSegsAux pw [c] (p ++ y :: q)
            else Seg.chr c :: toSegsAux (isWordChar c) [] (p ++ y :: q)) = _
          rw [if_neg hs, h2]
          rfl
    | cons a t =>
      by_cases hw : isWordChar c = true
      · obtain ⟨A, B, h1, h2⟩ := ih pw (c :: a :: t) q
        refine ⟨A, B, ?_, ?_⟩
        · show (if isWordChar c = true then toSegsAux pw (c :: a :: t) (p ++ x :: q)
            else Seg.word (a :: t).reverse :: Seg.chr c :: toSegsAux false [] (p ++ x :: q)) = _
          rw [if_pos hw]
          exact h1
        · show (if isWordChar c = true then toSegsAux pw (c :: a :: t) (p ++ y :: q)
            else Seg.word (a :: t).reverse :: Seg.chr c :: toSegsAux false [] (p ++ y :: q)) = _
          rw [if_pos hw]
          exact h2
      · obtain ⟨A, B, h1, h2⟩ := ih false [] q
        refine ⟨Seg.word (a :: t).reverse :: Seg.chr c :: A, B, ?_, ?_⟩
        · show (if isWordChar c = true then toSegsAux pw (c :: a :: t) (p ++ x :: q)
            else Seg.word (a :: t).reverse :: Seg.chr c :: toSegsAux false [] (p ++ x :: q)) = _
          rw [if_neg hw, h1]
          rfl
        · show (if isWordChar c = true then toSegsAux pw (c :: a :: t) (p ++ y :: q)
            else Seg.word (a :: t).reverse :: Seg.chr c :: toSegsAux false [] (p ++ y :: q)) = _
          rw [if_neg hw, h2]
          rfl

theorem normSegs_append :
    ∀ (xs ys : List Seg) (m : IdMap),
      normSegs m (xs ++ ys) =
        ((normSegs m xs).1 ++ (normSegs (normSegs m xs).2 ys).1,
         (normSegs (normSegs m xs).2 ys).2) := by
  intro xs
  induction xs with
  | nil => intro ys m; simp [normSegs]
  | cons s rest ih =>
    intro ys m
    cases s with
    | word w =>
      rw [List.cons_append, normSegs_word_cons, normSegs_word_cons, ih]
      rfl
    | chr c =>
      rw [List.cons_append, normSegs_chr_cons, normSegs_chr_cons, ih]
      rfl

theorem fromSegs_append :
    ∀ (xs ys : List Seg), fromSegs (xs ++ ys) = fromSegs xs ++ fromSegs ys := by
  intro xs
  induction xs with
  | nil => intro ys; rfl
  | cons s rest ih =>
    intro ys
    cases s with
    | word w =>
      show w ++ fromSegs (rest ++ ys) = (w ++ fromSegs rest) ++ fromSegs ys
      rw [ih]
      simp
    | chr c =>
      show c :: fromSegs (rest ++ ys) = (c :: fromSegs rest) ++ fromSegs ys
      rw [ih]
      rfl

theorem normalizeIdentifiers_diffOne (s s' : String) (m : IdMap) (p q : List Char)
    (hs : s.data = p ++ '+' :: q) (hs' : s'.data = p ++ '*' :: q) :
    ∃ F G, (normalizeIdentifiers s m).1.data = F ++ '+' :: G ∧
      (normalizeIdentifiers s' m).1.data = F ++ '*' :: G ∧
      (normalizeIdentifiers s m).2 = (normalizeIdentifiers s' m).2 := by
  obtain ⟨A, B, hA, hB⟩ :=
    toSegsAux_diffOne '+' '*' (by decide) (by decide) (by decide) (by decide) p false [] q
  have hsegs : toSegs s.data = A ++ Seg.chr '+' :: B := by
    rw [hs]
    exact hA
  have hsegs' : toSegs s'.data = A ++ Seg.chr '*' :: B := by
    rw [hs']
    exact hB
  refine ⟨fromSegs (normSegs m A).1, fromSegs (normSegs ((normSegs m A).2) B).1, ?_, ?_, ?_⟩
  · show (fromSegs (normSegs m (toSegs s.data)).1) = _
    rw [hsegs, normSegs_append, normSegs_chr_cons]
    show fromSegs ((normSegs m A).1 ++ Seg.chr '+' :: (normSegs ((normSegs m A).2) B).1) = _
    rw [fromSegs_append]
    rfl
  · show (fromSegs (normSegs m (toSegs s'.data)).1) = _
    rw [hsegs', normSegs_append, normSegs_chr_cons]
    show fromSegs ((normSegs m A).1 ++ Seg.chr '*' :: (normSegs ((normSegs m A).2) B).1) = _
    rw [fromSegs_append]
    rfl
  · show (normSegs m (toSegs s.data)).2 = (normSegs m (toSegs s'.data)).2
    rw [hsegs, hsegs', normSegs_append, normSegs_append, normSegs_chr_cons, normSegs_chr_cons]

theorem djb2Step_modeq (h : Int) (c : Nat) :
    djb2Step h c ≡ 31 * h + (c : Int) [ZMOD (2:Int) ^ 32] := by
  rw [djb2Step_eq]
  have h1 : toInt32 (h * 32 - h + (c : Int)) ≡ h * 32 - h + (c : Int) [ZMOD (2:Int) ^ 32] :=
    toInt32_emod _
  have h2 : h * 32 - h + (c : Int) ≡ 31 * h + (c : Int) [ZMOD (2:Int) ^ 32] := by
    have he : h * 32 - h + (c : Int) = 31 * h + (c : Int) := by ring
    rw [he]
  exact h1.trans h2

theorem djb2_fold_diff :
    ∀ (B : List Nat) (h1 h2 : Int),
      B.foldl djb2Step h1 - B.foldl djb2Step h2 ≡
        31 ^ B.length * (h1 - h2) [ZMOD (2:Int) ^ 32] := by
  intro B
  induction B with
  | nil =>
    intro h1 h2
    have he : (31:Int) ^ ([] : List Nat).length * (h1 - h2) = h1 - h2 := by norm_num
    rw [List.foldl_nil, List.foldl_nil, he]
  | cons c B ih =>
    intro h1 h2
    rw [List.foldl_cons, List.foldl_cons]
    have hstep := ih (djb2Step h1 c) (djb2Step h2 c)
    have hd : djb2Step h1 c - djb2Step h2 c ≡ 31 * (h1 - h2) [ZMOD (2:Int) ^ 32] := by
      have h3 := (djb2Step_modeq h1 c).sub (djb2Step_modeq h2 c)
      have he : 31 * h1 + (c : Int) - (31 * h2 + (c : Int)) = 31 * (h1 - h2) := by ring
      rw [he] at h3
      exact h3
    have h4 := hd.mul_left ((31:Int) ^ B.length)
    have h5 := hstep.trans h4
    have he2 : (31:Int) ^ B.length * (31 * (h1 - h2)) = 31 ^ (c :: B).length * (h1 - h2) := by
      rw [List.length_cons, pow_succ]
      ring
    rw [he2] at h5
    exact h5

theorem djb2_fold_range :
    ∀ (B : List Nat) (h : Int), -2 ^ 31 ≤ h → h < 2 ^ 31 →
      -2 ^ 31 ≤ B.foldl djb2Step h ∧ B.foldl djb2Step h < 2 ^ 31 := by
  intro B
  induction B with
  | nil => intro h h1 h2; exact ⟨h1, h2⟩
  | cons c B ih =>
    intro h h1 h2
    rw [List.foldl_cons]
    refine ih _ ?_ ?_
    · unfold djb2Step; exact toInt32_lower _
    · unfold djb2Step; exact toInt32_upper _

theorem pow31_emod_ne (k : Nat) : ¬ ((31:Int) ^ k ≡ 0 [ZMOD (2:Int) ^ 32]) := by
  intro h
  have h0 : (31:Int) ^ k % 2 ^ 32 = 0 % 2 ^ 32 := h
  rw [Int.zero_emod] at h0
  have hdvd : ((2:Int) ^ 32) ∣ 31 ^ k := Int.dvd_of_emod_eq_zero h0
  have h2 : (2:Int) ∣ 31 ^ k := dvd_trans ⟨(2:Int) ^ 31, by norm_num⟩ hdvd
  have hodd : Odd ((31:Int) ^ k) := Odd.pow (⟨15, by norm_num⟩ : Odd (31:Int))
  obtain ⟨m, hm⟩ := h2
  have heven : Even ((31:Int) ^ k) := ⟨m, by omega⟩
  exact (Int.even_iff_not_odd.mp heven) hodd

theorem djb2Hash_ne_of_plusStar {s t : String} {a b : List Char}
    (hs : s.data = a ++ '+' :: b) (ht : t.data = a ++ '*' :: b) :
    djb2Hash s ≠ djb2Hash t := by
  intro heq
  unfold djb2Hash charCodes at heq
  rw [hs, ht, List.map_append, List.map_append, List.map_cons, List.map_cons] at heq
  rw [show Char.toNat '+' = 43 from rfl, show Char.toNat '*' = 42 from rfl] at heq
  rw [List.foldl_append, List.foldl_append, List.foldl_cons, List.foldl_cons] at heq
  set h0 := (a.map Char.toNat).foldl djb2Step 0 with hh0
  have dlow : ∀ (h : Int) (c : Nat), -2 ^ 31 ≤ djb2Step h c := by
    intro h c; unfold djb2Step; exact toInt32_lower _
  have dup : ∀ (h : Int) (c : Nat), djb2Step h c < 2 ^ 31 := by
    intro h c; unfold djb2Step; exact toInt32_upper _
  have hr1 := djb2_fold_range (b.map Char.toNat) (djb2Step h0 43) (dlow _ _) (dup _ _)
  have hr2 := djb2_fold_range (b.map Char.toNat) (djb2Step h0 42) (dlow _ _) (dup _ _)
  have hF := intToHexString_inj hr1.1 hr2.1 heq
  have hdiff := djb2_fold_diff (b.map Char.toNat) (djb2Step h0 43) (djb2Step h0 42)
  have hd : djb2Step h0 43 - djb2Step h0 42 ≡ 1 [ZMOD (2:Int) ^ 32] := by
    have h3 := (djb2Step_modeq h0 43).sub (djb2Step_modeq h0 42)
    have he : 31 * h0 + ((43:Nat) : Int) - (31 * h0 + ((42:Nat) : Int)) = 1 := by
      push_cast; ring
    rw [he] at h3
    exact h3
  have h4 := hd.mul_left ((31:Int) ^ (b.map Char.toNat).length)
  have h5 := hdiff.trans h4
  rw [hF, sub_self, mul_one] at h5
  exact pow31_emod_ne (b.map Char.toNat).length h5.symm

theorem type2Fold_acc :
    ∀ (Q : List String) (acc : List String) (m : IdMap),
      Q.foldl (type2Step false) (acc, m) =
        (acc ++ (Q.foldl (type2Step false) ([], m)).1,
         (Q.foldl (type2Step false) ([], m)).2) := by
  intro Q
  induction Q with
  | nil => intro acc m; simp
  | cons s Q ih =>
    intro acc m
    rw [List.foldl_cons, List.foldl_cons, type2Step_false, type2Step_false]
    simp only [List.nil_append]
    rw [ih (acc ++ [(normalizeIdentifiers (normalizeBasic s) m).1])
        ((normalizeIdentifiers (normalizeBasic s) m).2),
      ih [(normalizeIdentifiers (normalizeBasic s) m).1]
        ((normalizeIdentifiers (normalizeBasic s) m).2)]
    simp [List.append_assoc]

theorem joinSep_cons (sep x : String) (l : List String) (h : l ≠ []) :
    joinSep sep (x :: l) = x ++ sep ++ joinSep sep l := by
  cases l with
  | nil => exact absurd rfl h
  | cons y l' => rfl

theorem joinSep_data_diffOne :
    ∀ (X : List String) (sA sB : String) (Y : List String) (p q : List Char),
      sA.data = p ++ '+' :: q → sB.data = p ++ '*' :: q →
      ∃ A B, (joinSep "|" (X ++ sA :: Y)).data = A ++ '+' :: B ∧
        (joinSep "|" (X ++ sB :: Y)).data = A ++ '*' :: B := by
  intro X
  induction X with
  | nil =>
    intro sA sB Y p q hA hB
    cases Y with
    | nil => exact ⟨p, q, hA, hB⟩
    | cons y Y' =>
      refine ⟨p, q ++ '|' :: (joinSep "|" (y :: Y')).data, ?_, ?_⟩
      · show (sA ++ "|" ++ joinSep "|" (y :: Y')).data = _
        rw [String.data_append, String.data_append, hA,
          show ("|" : String).data = ['|'] from rfl]
        simp [List.append_assoc]
      · show (sB ++ "|" ++ joinSep "|" (y :: Y')).data = _
        rw [String.data_append, String.data_append, hB,
          show ("|" : String).data = ['|'] from rfl]
        simp [List.append_assoc]
  | cons x X' ih =>
    intro sA sB Y p q hA hB
    obtain ⟨A, B, h1, h2⟩ := ih sA sB Y p q hA hB
    refine ⟨x.data ++ '|' :: A, B, ?_, ?_⟩
    · rw [List.cons_append, joinSep_cons _ _ _ (by simp)]
      rw [String.data_append, String.data_append, h1,
        show ("|" : String).data = ['|'] from rfl]
      simp [List.append_assoc]
    · rw [List.cons_append, joinSep_cons _ _ _ (by simp)]
      rw [String.data_append, String.data_append, h2,
        show ("|" : String).data = ['|'] from rfl]
      simp [List.append_assoc]

theorem type2Fold_decomp (P Q : List String) (s : String) :
    ((P ++ s :: Q).foldl (type2Step false) ([], ([] : IdMap))).1 =
      (P.foldl (type2Step false) ([], ([] : IdMap))).1 ++
        (normalizeIdentifiers (normalizeBasic s)
          (P.foldl (type2Step false) ([], ([] : IdMap))).2).1 ::
        (Q.foldl (type2Step false)
          ([], (normalizeIdentifiers (normalizeBasic s)
            (P.foldl (type2Step false) ([], ([] : IdMap))).2).2)).1 := by
  rw [List.foldl_append, List.foldl_cons, type2Step_false]
  rw [type2Fold_acc]
  simp [List.append_assoc]

/-! ### Method collection and pairing (CodeCloneBaseCheck)

`addMethodToHash` pushes a method record onto the insertion-ordered
`methodsByHash` map; `findClonePairs` walks the groups in map order and
pairs every `i < j` inside each group of size at least two. -/

structure MethodRec where
  filePath : String
  methodName : String
  hash : String
deriving DecidableEq

abbrev HashGroups := List (String × List MethodRec)

def lookupG : HashGroups → String → Option (List MethodRec)
  | [], _ => none
  | (h, g) :: rest, key => if h = key then some g else lookupG rest key

/-- `addMethodToHash`: append to the existing group for the hash, or add a
new singleton group at the end of the map. -/
def groupUpdate : HashGroups → MethodRec → HashGroups
  | [], r => [(r.hash, [r])]
  | (h, g) :: rest, r =>
    if h = r.hash then (h, g ++ [r]) :: rest else (h, g) :: groupUpdate rest r

def buildGroups (ms : List MethodRec) : HashGroups := ms.foldl groupUpdate []

/-- The `i < j` double loop of `findClonePairs` over one group. -/
def methodPairs : List MethodRec → List (MethodRec × MethodRec)
  | [] => []
  | m :: rest => rest.map (fun m2 => (m, m2)) ++ methodPairs rest

def fcpStep (acc : List (MethodRec × MethodRec)) (e : String × List MethodRec) :
    List (MethodRec × MethodRec) :=
  acc ++ (if 2 ≤ e.2.length then methodPairs e.2 else [])

def findClonePairs (gs : HashGroups) : List (MethodRec × MethodRec) :=
  gs.foldl fcpStep []

def hashFilter (ms : List MethodRec) (key : String) : List MethodRec :=
  ms.filter (fun m => decide (m.hash = key))

theorem fcp_acc :
    ∀ (gs : HashGroups) (acc : List (MethodRec × MethodRec)),
      gs.foldl fcpStep acc = acc ++ gs.foldl fcpStep [] := by
  intro gs
  induction gs with
  | nil => intro acc; simp
  | cons e gs ih =>
    intro acc
    rw [List.foldl_cons, List.foldl_cons]
    rw [ih (fcpStep acc e), ih (fcpStep [] e)]
    unfold fcpStep
    simp [List.append_assoc]

theorem findClonePairs_of_mem {gs : HashGroups} {h : String} {g : List MethodRec}
    (hmem : (h, g) ∈ gs) (hlen : 2 ≤ g.length) {x : MethodRec × MethodRec}
    (hx : x ∈ methodPairs g) : x ∈ findClonePairs gs := by
  induction gs with
  | nil => exact absurd hmem (List.not_mem_nil _)
  | cons e gs ih =>
    show x ∈ (e :: gs).foldl fcpStep []
    rw [List.foldl_cons, fcp_acc]
    rcases List.mem_cons.mp hmem with he | ht
    · apply List.mem_append_left
      unfold fcpStep
      rw [← he]
      rw [if_pos hlen]
      simpa using hx
    · exact List.mem_append_right _ (ih ht)

theorem findClonePairs_mem_ex {gs : HashGroups} {x : MethodRec × MethodRec}
    (hx : x ∈ findClonePairs gs) :
    ∃ h g, (h, g) ∈ gs ∧ x ∈ methodPairs g := by
  induction gs with
  | nil => exact absurd hx (List.not_mem_nil _)
  | cons e gs ih =>
    rw [show findClonePairs (e :: gs) = (e :: gs).foldl fcpStep [] from rfl,
      List.foldl_cons, fcp_acc] at hx
    rcases List.mem_append.mp hx with hl | hr
    · unfold fcpStep at hl
      rw [List.nil_append] at hl
      by_cases h2 : 2 ≤ e.2.length
      · rw [if_pos h2] at hl
        exact ⟨e.1, e.2, List.mem_cons_self _ _, hl⟩
      · rw [if_neg h2] at hl
        exact absurd hl (List.not_mem_nil _)
    · obtain ⟨h, g, hmem, hg⟩ := ih hr
      exact ⟨h, g, List.mem_cons_of_mem _ hmem, hg⟩

theorem methodPairs_both {g : List MethodRec} {m1 m2 : MethodRec}
    (h : (m1, m2) ∈ methodPairs g) : m1 ∈ g ∧ m2 ∈ g := by
  induction g with
  | nil => exact absurd h (List.not_mem_nil _)
  | cons m rest ih =>
    rcases List.mem_append.mp h with hl | hr
    · obtain ⟨a, ha, heq⟩ := List.mem_map.mp hl
      have h1 : m = m1 := congrArg Prod.fst heq
      have h2 : a = m2 := congrArg Prod.snd heq
      subst h1
      subst h2
      exact ⟨List.mem_cons_self _ _, List.mem_cons_of_mem _ ha⟩
    · obtain ⟨h1, h2⟩ := ih hr
      exact ⟨List.mem_cons_of_mem _ h1, List.mem_cons_of_mem _ h2⟩

theorem methodPairs_mem_of_split :
    ∀ (A : List MethodRec) (m1 : MethodRec) (B : List MethodRec) (m2 : MethodRec)
      (C : List MethodRec), (m1, m2) ∈ methodPairs (A ++ m1 :: B ++ m2 :: C) := by
  intro A
  induction A with
  | nil =>
    intro m1 B m2 C
    show (m1, m2) ∈ (B ++ m2 :: C).map (fun x => (m1, x)) ++ methodPairs (B ++ m2 :: C)
    apply List.mem_append_left
    exact List.mem_map.mpr ⟨m2, by simp, rfl⟩
  | cons a A ih =>
    intro m1 B m2 C
    show (m1, m2) ∈ (A ++ m1 :: B ++ m2 :: C).map (fun x => (a, x)) ++
      methodPairs (A ++ m1 :: B ++ m2 :: C)
    exact List.mem_append_right _ (ih m1 B m2 C)

/-- Every member of a group carries the group's hash key. -/
def GroupsInv (gs : HashGroups) : Prop :=
  ∀ h g, (h, g) ∈ gs → ∀ m ∈ g, m.hash = h

theorem groupUpdate_inv :
    ∀ (gs : HashGroups) (r : MethodRec), GroupsInv gs → GroupsInv (groupUpdate gs r) := by
  intro gs
  induction gs with
  | nil =>
    intro r _ h g hmem m hm
    rcases List.mem_cons.mp hmem with he | ht
    · have h1 : h = r.hash := congrArg Prod.fst he
      have h2 : g = [r] := congrArg Prod.snd he
      subst h1; subst h2
      rcases List.mem_cons.mp hm with hmr | hmn
      · rw [hmr]
      · exact absurd hmn (List.not_mem_nil _)
    · exact absurd ht (List.not_mem_nil _)
  | cons e gs ih =>
    intro r hinv h g hmem m hm
    obtain ⟨h0, g0⟩ := e
    unfold groupUpdate at hmem
    by_cases hc : h0 = r.hash
    · rw [if_pos hc] at hmem
      rcases List.mem_cons.mp hmem with he | ht
      · have h1 : h = h0 := congrArg Prod.fst he
        have h2 : g = g0 ++ [r] := congrArg Prod.snd he
        rw [h2] at hm
        rcases List.mem_append.mp hm with hg0 | hrr
        · rw [h1]
          exact hinv h0 g0 (List.mem_cons_self _ _) m hg0
        · rcases List.mem_cons.mp hrr with hmr | hmn
          · rw [hmr, h1, ← hc]
          · exact absurd hmn (List.not_mem_nil _)
      · exact hinv h g (List.mem_cons_of_mem _ ht) m hm
    · rw [if_neg hc] at hmem
      rcases List.mem_cons.mp hmem with he | ht
      · exact hinv h g (List.mem_cons.mpr (Or.inl he)) m hm
      · exact ih r (fun h' g' hm' => hinv h' g' (List.mem_cons_of_mem _ hm')) h g ht m hm

theorem buildGroups_inv (ms : List MethodRec) : GroupsInv (buildGroups ms) := by
  have hgen : ∀ (l : List MethodRec) (gs : HashGroups), GroupsInv gs →
      GroupsInv (l.foldl groupUpdate gs) := by
    intro l
    induction l with
    | nil => intro gs h; exact h
    | cons r l ih =>
      intro gs h
      exact ih (groupUpdate gs r) (groupUpdate_inv gs r h)
  exact hgen ms [] (fun h g hmem => absurd hmem (List.not_mem_nil _))

theorem lookupG_mem :
    ∀ (gs : HashGroups) (key : String) (g : List MethodRec),
      lookupG gs key = some g → (key, g) ∈ gs := by
  intro gs
  induction gs with
  | nil => intro key g h; exact absurd h (by simp [lookupG])
  | cons e gs ih =>
    intro key g h
    obtain ⟨h0, g0⟩ := e
    unfold lookupG at h
    by_cases hc : h0 = key
    · rw [if_pos hc] at h
      have : g0 = g := Option.some.inj h
      rw [← this, ← hc]
      exact List.mem_cons_self _ _
    · rw [if_neg hc] at h
      exact List.mem_cons_of_mem _ (ih key g h)

theorem lookupG_groupUpdate (gs : HashGroups) (r : MethodRec) (key : String) :
    lookupG (groupUpdate gs r) key =
      if r.hash = key then some ((lookupG gs key).getD [] ++ [r])
      else lookupG gs key := by
  induction gs with
  | nil =>
    by_cases hk : r.hash = key
    · rw [if_pos hk]
      show (if r.hash = key then some [r] else lookupG [] key) = _
      rw [if_pos hk]
      rfl
    · rw [if_neg hk]
      show (if r.hash = key then some [r] else lookupG [] key) = _
      rw [if_neg hk]
  | cons e gs ih =>
    obtain ⟨h0, g0⟩ := e
    unfold groupUpdate
    by_cases h1 : h0 = r.hash
    · rw [if_pos h1]
      by_cases hk : r.hash = key
      · rw [if_pos hk]
        show (if h0 = key then some (g0 ++ [r]) else lookupG gs key) = _
        rw [if_pos (h1.trans hk)]
        have : lookupG ((h0, g0) :: gs) key = some g0 := by
          show (if h0 = key then some g0 else lookupG gs key) = some g0
          rw [if_pos (h1.trans hk)]
        rw [this]
        rfl
      · rw [if_neg hk]
        have hn : ¬ h0 = key := fun hcon => hk (h1 ▸ hcon)
        show (if h0 = key then some (g0 ++ [r]) else lookupG gs key) = _
        rw [if_neg hn]
        show _ = (if h0 = key then some g0 else lookupG gs key)
        rw [if_neg hn]
    · rw [if_neg h1]
      by_cases hk0 : h0 = key
      · have hrk : ¬ r.hash = key := fun hcon => h1 (hk0.trans hcon.symm)
        rw [if_neg hrk]
        show (if h0 = key then some g0 else lookupG (groupUpdate gs r) key) = _
        rw [if_pos hk0]
        show _ = (if h0 = key then some g0 else lookupG gs key)
        rw [if_pos hk0]
      · show (if h0 = key then some g0 else lookupG (groupUpdate gs r) key) = _
        rw [if_neg hk0, ih]
        by_cases hk : r.hash = key
        · rw [if_pos hk, if_pos hk]
          have : lookupG ((h0, g0) :: gs) key = lookupG gs key := by
            show (if h0 = key then some g0 else lookupG gs key) = _
            rw [if_neg hk0]
          rw [this]
        · rw [if_neg hk, if_neg hk]
          show _ = (if h0 = key then some g0 else lookupG gs key)
          rw [if_neg hk0]

theorem buildGroups_lookup_gen :
    ∀ (ms : List MethodRec) (gs : HashGroups) (key : String),
      lookupG (ms.foldl groupUpdate gs) key =
        if hashFilter ms key = [] then lookupG gs key
        else some ((lookupG gs key).getD [] ++ hashFilter ms key) := by
  intro ms
  induction ms with
  | nil =>
    intro gs key
    rw [if_pos (show hashFilter [] key = [] from rfl)]
    rfl
  | cons m ms ih =>
    intro gs key
    rw [List.foldl_cons, ih, lookupG_groupUpdate]
    by_cases hmk : m.hash = key
    · have hfc : hashFilter (m :: ms) key = m :: hashFilter ms key := by
        unfold hashFilter
        rw [List.filter_cons, if_pos (by simp [hmk])]
      rw [hfc, if_pos hmk]
      rw [if_neg (show (m :: hashFilter ms key) ≠ [] by simp)]
      by_cases hrest : hashFilter ms key = []
      · rw [if_pos hrest, hrest]
      · rw [if_neg hrest]
        rw [Option.getD_some, List.append_assoc]
        rfl
    · have hfc : hashFilter (m :: ms) key = hashFilter ms key := by
        unfold hashFilter
        rw [List.filter_cons, if_neg (by simpa using hmk)]
      rw [hfc, if_neg hmk]

theorem equalHash_paired (A : List MethodRec) (m1 : MethodRec) (B : List MethodRec)
    (m2 : MethodRec) (C : List MethodRec) (hh : m1.hash = m2.hash) :
    (m1, m2) ∈ findClonePairs (buildGroups (A ++ m1 :: B ++ m2 :: C)) := by
  have hfil : hashFilter (A ++ m1 :: B ++ m2 :: C) m1.hash =
      hashFilter A m1.hash ++ m1 :: hashFilter B m1.hash ++ m2 :: hashFilter C m1.hash := by
    unfold hashFilter
    rw [List.filter_append, List.filter_cons, List.filter_append, List.filter_cons]
    rw [if_pos (by simp), if_pos (by simp [hh])]
  have hne : hashFilter (A ++ m1 :: B ++ m2 :: C) m1.hash ≠ [] := by
    intro hc
    rw [hfil] at hc
    have := congrArg List.length hc
    simp at this
  have hlk := buildGroups_lookup_gen (A ++ m1 :: B ++ m2 :: C) [] m1.hash
  rw [if_neg hne] at hlk
  have hlk2 : lookupG (buildGroups (A ++ m1 :: B ++ m2 :: C)) m1.hash =
      some (hashFilter (A ++ m1 :: B ++ m2 :: C) m1.hash) := hlk
  have hmem := lookupG_mem _ _ _ hlk2
  have hlen : 2 ≤ (hashFilter (A ++ m1 :: B ++ m2 :: C) m1.hash).length := by
    rw [hfil]
    simp only [List.length_append, List.length_cons]
    omega
  have hx : (m1, m2) ∈ methodPairs (hashFilter (A ++ m1 :: B ++ m2 :: C) m1.hash) := by
    rw [hfil]
    exact methodPairs_mem_of_split (hashFilter A m1.hash) m1 (hashFilter B m1.hash) m2
      (hashFilter C m1.hash)
  exact findClonePairs_of_mem hmem hlen hx

theorem paired_equalHash (ms : List MethodRec) (m1 m2 : MethodRec)
    (h : (m1, m2) ∈ findClonePairs (buildGroups ms)) : m1.hash = m2.hash := by
  obtain ⟨key, g, hmem, hx⟩ := findClonePairs_mem_ex h
  obtain ⟨h1, h2⟩ := methodPairs_both hx
  have hinv := buildGroups_inv ms
  rw [hinv key g hmem m1 h1, hinv key g hmem m2 h2]

theorem computeType2Hash_operator_ne
    (P Q : List String) (s s' : String) (p q : List Char)
    (hs : s.data = p ++ '+' :: q) (hs' : s'.data = p ++ '*' :: q)
    (hok : StmtOk s) (hok' : StmtOk s') :
    computeType2Hash false (P ++ s :: Q) ≠ computeType2Hash false (P ++ s' :: Q) := by
  unfold computeType2Hash
  have hd1 := type2Fold_decomp P Q s
  have hd2 := type2Fold_decomp P Q s'
  rw [normalizeBasic_of_canonical hok.1 hok.2] at hd1
  rw [normalizeBasic_of_canonical hok'.1 hok'.2] at hd2
  obtain ⟨F, G, hF, hF', hmap⟩ :=
    normalizeIdentifiers_diffOne s s'
      (P.foldl (type2Step false) ([], ([] : IdMap))).2 p q hs hs'
  rw [hmap] at hd1
  rw [hd1, hd2]
  obtain ⟨A, B, hj, hj'⟩ :=
    joinSep_data_diffOne (P.foldl (type2Step false) ([], ([] : IdMap))).1
      (normalizeIdentifiers s (P.foldl (type2Step false) ([], ([] : IdMap))).2).1
      (normalizeIdentifiers s' (P.foldl (type2Step false) ([], ([] : IdMap))).2).1
      ((Q.foldl (type2Step false)
        ([], (normalizeIdentifiers s'
          (P.foldl (type2Step false) ([], ([] : IdMap))).2).2)).1) F G hF hF'
  exact djb2Hash_ne_of_plusStar hj hj'

instance instDecidableStmtOk (s : String) : Decidable (StmtOk s) :=
  inferInstanceAs (Decidable (markerFree s.data = true ∧ collapseWsTrim s.data = s.data))

/-- A concrete consistent renaming, built as an involution:
`xx ↔ yy`, `ab ↔ uv`, `cd ↔ c9`. -/
def rhoC (w : String) : String :=
  if w = "xx" then "yy" else if w = "yy" then "xx"
  else if w = "ab" then "uv" else if w = "uv" then "ab"
  else if w = "cd" then "c9" else if w = "c9" then "cd" else w

theorem rhoC_notin {w : String} (h1 : w ≠ "xx") (h2 : w ≠ "yy") (h3 : w ≠ "ab")
    (h4 : w ≠ "uv") (h5 : w ≠ "cd") (h6 : w ≠ "c9") : rhoC w = w := by
  unfold rhoC
  rw [if_neg h1, if_neg h2, if_neg h3, if_neg h4, if_neg h5, if_neg h6]

theorem rhoC_invol (w : String) : rhoC (rhoC w) = w := by
  by_cases h1 : w = "xx"
  · subst h1; decide
  · by_cases h2 : w = "yy"
    · subst h2; decide
    · by_cases h3 : w = "ab"
      · subst h3; decide
      · by_cases h4 : w = "uv"
        · subst h4; decide
        · by_cases h5 : w = "cd"
          · subst h5; decide
          · by_cases h6 : w = "c9"
            · subst h6; decide
            · rw [rhoC_notin h1 h2 h3 h4 h5 h6, rhoC_notin h1 h2 h3 h4 h5 h6]

theorem rhoC_pres (w : String) (hid : identRun w.data = true)
    (hel : type2Eligible w = true) :
    identRun (rhoC w).data = true ∧ type2Eligible (rhoC w) = true := by
  by_cases h1 : w = "xx"
  · subst h1; exact ⟨by decide, by decide⟩
  · by_cases h2 : w = "yy"
    · subst h2; exact ⟨by decide, by decide⟩
    · by_cases h3 : w = "ab"
      · subst h3; exact ⟨by decide, by decide⟩
      · by_cases h4 : w = "uv"
        · subst h4; exact ⟨by decide, by decide⟩
        · by_cases h5 : w = "cd"
          · subst h5; exact ⟨by decide, by decide⟩
          · by_cases h6 : w = "c9"
            · subst h6; exact ⟨by decide, by decide⟩
            · rw [rhoC_notin h1 h2 h3 h4 h5 h6]
              exact ⟨hid, hel⟩

theorem rhoC_renameOk : RenameOk rhoC := by
  constructor
  · exact rhoC_pres
  · intro w w' _ _ _ _ h
    have hc := congrArg rhoC h
    rw [rhoC_invol, rhoC_invol] at hc
    exact hc

set_option maxRecDepth 40000 in
/-- **C5, counterexample.** The claim quantifies over any consistent renaming
of every non-trivial identifier.  The renaming `xx ↔ yy, ab ↔ uv, cd ↔ c9` is
eligibility-preserving and injective on identifiers, and both methods have
five statements, yet the hashes differ: in `"@ab.cd: xx"` the `@…​.xx:` scrub
of `normalizeBasic` rewrites the text to `"@FILE: xx"` before identifier
normalization, while the renamed text `"@uv.c9: yy"` is not scrubbed (the
suffix `c9` contains a digit), so one method hashes `…​|@FILE: ID_1` and the
other `…​|@ID_2.ID_3: ID_1`. -/
theorem claim_C5_counterexample :
    ¬ (∀ (ρ : String → String) (S : List String), RenameOk ρ → 5 ≤ S.length →
        computeType2Hash false S = computeType2Hash false (S.map (applyRename ρ))) := by
  intro h
  have hc := h rhoC ["xx(1)", "xx(2)", "xx(3)", "xx(4)", "@ab.cd: xx"] rhoC_renameOk
    (by decide)
  revert hc
  decide

/-- **C5.** (1) On statement texts that contain no `@`/`%` marker characters
and are whitespace-canonical, a consistent renaming of every non-trivial
identifier (eligibility-preserving and injective) leaves the Type-2 hash
unchanged; (2) two collected methods with equal hashes are paired by
`findClonePairs`; (3) every pair produced by `findClonePairs` has equal
hashes; (4) hence two methods whose statement lists differ in a single
operator character (`+` versus `*`) have different hashes and are never
paired. -/
theorem claim_C5_theorem :
    (∀ (ρ : String → String) (S : List String), RenameOk ρ →
        (∀ s ∈ S, StmtOk s ∧ StmtOk (applyRename ρ s)) →
        computeType2Hash false S = computeType2Hash false (S.map (applyRename ρ))) ∧
    (∀ (A : List MethodRec) (m1 : MethodRec) (B : List MethodRec) (m2 : MethodRec)
        (C : List MethodRec), m1.hash = m2.hash →
        (m1, m2) ∈ findClonePairs (buildGroups (A ++ m1 :: B ++ m2 :: C))) ∧
    (∀ (ms : List MethodRec) (m1 m2 : MethodRec),
        (m1, m2) ∈ findClonePairs (buildGroups ms) → m1.hash = m2.hash) ∧
    (∀ (ms : List MethodRec) (m1 m2 : MethodRec) (P Q : List String) (s s' : String)
        (p q : List Char), s.data = p ++ '+' :: q → s'.data = p ++ '*' :: q →
        StmtOk s → StmtOk s' →
        m1.hash = computeType2Hash false (P ++ s :: Q) →
        m2.hash = computeType2Hash false (P ++ s' :: Q) →
        (m1, m2) ∉ findClonePairs (buildGroups ms)) := by
  refine ⟨fun ρ S hρ hS => computeType2Hash_rename hρ S hS,
    fun A m1 B m2 C hh => equalHash_paired A m1 B m2 C hh,
    fun ms m1 m2 h => paired_equalHash ms m1 m2 h,
    fun ms m1 m2 P Q s s' p q hs hs' hok hok' hm1 hm2 hmem => ?_⟩
  have heq := paired_equalHash ms m1 m2 hmem
  rw [hm1, hm2] at heq
  exact computeType2Hash_operator_ne P Q s s' p q hs hs' hok hok' heq

set_option maxRecDepth 40000 in
theorem claim_C5_witness :
    (computeType2Hash false ["xx(1)"] =
      computeType2Hash false (["xx(1)"].map (applyRename rhoC))) ∧
    ((⟨"a.ts", "f", "h1"⟩, ⟨"b.ts", "g", "h1"⟩) ∈
      findClonePairs (buildGroups [⟨"a.ts", "f", "h1"⟩, ⟨"b.ts", "g", "h1"⟩])) ∧
    ((⟨"a.ts", "f", "h1"⟩ : MethodRec).hash = (⟨"b.ts", "g", "h1"⟩ : MethodRec).hash) ∧
    ((⟨"a.ts", "p", computeType2Hash false ["a + b"]⟩,
      ⟨"a.ts", "q", computeType2Hash false ["a * b"]⟩) ∉
      findClonePairs (buildGroups
        [⟨"a.ts", "p", computeType2Hash false ["a + b"]⟩,
         ⟨"a.ts", "q", computeType2Hash false ["a * b"]⟩])) :=
  ⟨claim_C5_theorem.1 rhoC ["xx(1)"] rhoC_renameOk (by decide),
   claim_C5_theorem.2.1 [] ⟨"a.ts", "f", "h1"⟩ [] ⟨"b.ts", "g", "h1"⟩ [] rfl,
   claim_C5_theorem.2.2.1
     [⟨"a.ts", "f", "h1"⟩, ⟨"b.ts", "g", "h1"⟩] ⟨"a.ts", "f", "h1"⟩ ⟨"b.ts", "g", "h1"⟩
     (by decide),
   claim_C5_theorem.2.2.2
     [⟨"a.ts", "p", computeType2Hash false ["a + b"]⟩,
      ⟨"a.ts", "q", computeType2Hash false ["a * b"]⟩]
     ⟨"a.ts", "p", computeType2Hash false ["a + b"]⟩
     ⟨"a.ts", "q", computeType2Hash false ["a * b"]⟩
     [] [] "a + b" "a * b" ['a', ' '] [' ', 'b']
     (by decide) (by decide) (by decide) (by decide) rfl rfl⟩

/-! ### Tokenizer (src/Checkers/FragmentDetection/index.ts)

The TypeScript scanner is external; its output stream is modelled as a
list of raw tokens carrying the scanned text, the `TokenType` that
`mapSyntaxKindToTokenType` assigns to the scanned kind, the literal kind,
and the scanner position.  `tokenize` resets the identifier counter and
map, then walks the stream: comments are skipped when `skipComments` is
set, unknown kinds are skipped, every other token is normalized and
emitted with its line/column from `offsetToLineColumn`. -/

def offsetToLineColumn (text : List Char) (offset : Nat) : Nat × Int :=
  let st := (text.take offset).enum.foldl
    (fun (acc : Nat × Int) p => if p.2 = '\n' then (acc.1 + 1, Int.ofNat p.1) else acc)
    (1, -1)
  (st.1, (offset : Int) - st.2 - 1)

inductive SynKind where
  | numericLiteral
  | bigIntLiteral
  | stringLiteral
  | noSubstitutionTemplateLiteral
  | templateHead
  | templateMiddle
  | templateTail
  | trueKeyword
  | falseKeyword
  | nullKeyword
  | regularExpressionLiteral
  | identifierKind
  | otherKind
deriving DecidableEq, Repr

structure RawTok where
  value : String
  type : TokenType
  kind : SynKind
  pos : Nat
deriving DecidableEq, Repr

structure TokenizerOptions where
  skipComments : Bool
  normalizeIdentifiers : Bool
  normalizeLiterals : Bool
deriving DecidableEq, Repr

structure TokenizerState where
  identifierCounter : Nat
  identifierMap : List (String × String)
deriving DecidableEq, Repr

def mapLookup : List (String × String) → String → Option String
  | [], _ => none
  | (k, v) :: rest, key => if k = key then some v else mapLookup rest key

/-- `Tokenizer.normalizeIdentifier`: identifiers of length at most one are
returned unchanged; otherwise the stored mapping is reused, or a fresh
`ID_<counter>` is allocated and the counter advanced. -/
def tokNormalizeIdentifier (st : TokenizerState) (value : String) :
    String × TokenizerState :=
  if value.length ≤ 1 then (value, st)
  else
    match mapLookup st.identifierMap value with
    | some v => (v, st)
    | none =>
      ("ID_" ++ toString st.identifierCounter,
       ⟨st.identifierCounter + 1,
        st.identifierMap ++ [(value, "ID_" ++ toString st.identifierCounter)]⟩)

def tokNormalizeLiteral (value : String) (kind : SynKind) : String :=
  match kind with
  | .numericLiteral => "NUM"
  | .bigIntLiteral => "NUM"
  | .stringLiteral => "STR"
  | .noSubstitutionTemplateLiteral => "STR"
  | .templateHead => "STR"
  | .templateMiddle => "STR"
  | .templateTail => "STR"
  | .trueKeyword => "BOOL"
  | .falseKeyword => "BOOL"
  | .nullKeyword => "NULL"
  | .regularExpressionLiteral => "REGEX"
  | _ => value

def normalizeToken (opts : TokenizerOptions) (st : TokenizerState) (value : String)
    (type : TokenType) (kind : SynKind) : String × TokenizerState :=
  if (opts.normalizeIdentifiers && decide (type = TokenType.IDENTIFIER)) = true then
    tokNormalizeIdentifier st value
  else if (opts.normalizeLiterals && decide (type = TokenType.LITERAL)) = true then
    (tokNormalizeLiteral value kind, st)
  else (value, st)

def tokenizeLoop (opts : TokenizerOptions) (src : List Char) (file : Option String) :
    TokenizerState → List RawTok → List Token
  | _, [] => []
  | st, r :: rest =>
    if (opts.skipComments && decide (r.type = TokenType.COMMENT)) = true then
      tokenizeLoop opts src file st rest
    else if r.type = TokenType.UNKNOWN then
      tokenizeLoop opts src file st rest
    else
      let n := normalizeToken opts st r.value r.type r.kind
      let lc := offsetToLineColumn src r.pos
      createToken n.1 r.type (lc.1 : Int) lc.2 file :: tokenizeLoop opts src file n.2 rest

/-- `Tokenizer.tokenize`: the carried state `st0` is discarded — the
counter and map are reset before scanning. -/
def tokenizeT (opts : TokenizerOptions) (src : List Char) (file : Option String)
    (raws : List RawTok) (st0 : TokenizerState) : List Token :=
  tokenizeLoop opts src file ⟨0, []⟩ raws

/-! Specification-side bookkeeping for the numbering: the first
occurrences of eligible identifier values, in stream order. -/

def eligibleIdB (v : String) : Bool := !(decide (v.length ≤ 1))

def firstOccsAux (seen : List String) : List String → List String
  | [] => []
  | v :: rest =>
    if v ∈ seen then firstOccsAux seen rest else v :: firstOccsAux (seen ++ [v]) rest

def firstOccs (l : List String) : List String := firstOccsAux [] l

def idxOfS (v : String) : List String → Nat
  | [] => 0
  | u :: rest => if u = v then 0 else idxOfS v rest + 1

def idPairs : List String → Nat → List (String × String)
  | [], _ => []
  | v :: rest, n => (v, "ID_" ++ toString n) :: idPairs rest (n + 1)

def stateOfSeen (F : List String) : TokenizerState := ⟨F.length, idPairs F 0⟩

/-- The stream of values `normalizeIdentifier` produces, threading the
tokenizer state. -/
def normIdsGo (st : TokenizerState) : List String → List String
  | [] => []
  | v :: rest =>
    (tokNormalizeIdentifier st v).1 ::
      normIdsGo (tokNormalizeIdentifier st v).2 rest

def normIds (vals : List String) : List String := normIdsGo ⟨0, []⟩ vals

theorem tokNormalizeIdentifier_long (st : TokenizerState) (v : String)
    (h : ¬ v.length ≤ 1) :
    tokNormalizeIdentifier st v =
      match mapLookup st.identifierMap v with
      | some x => (x, st)
      | none =>
        ("ID_" ++ toString st.identifierCounter,
         ⟨st.identifierCounter + 1,
          st.identifierMap ++ [(v, "ID_" ++ toString st.identifierCounter)]⟩) := by
  unfold tokNormalizeIdentifier
  rw [if_neg h]

theorem idPairs_lookup :
    ∀ (F : List String) (n : Nat) (v : String),
      mapLookup (idPairs F n) v =
        if v ∈ F then some ("ID_" ++ toString (n + idxOfS v F)) else none := by
  intro F
  induction F with
  | nil => intro n v; simp [mapLookup, idPairs]
  | cons u F ih =>
    intro n v
    show (if u = v then some ("ID_" ++ toString n) else mapLookup (idPairs F (n + 1)) v) = _
    by_cases h : u = v
    · rw [if_pos h, if_pos (List.mem_cons.mpr (Or.inl h.symm))]
      rw [show idxOfS v (u :: F) = 0 from by
        show (if u = v then 0 else idxOfS v F + 1) = 0
        rw [if_pos h]]
      rw [Nat.add_zero]
    · rw [if_neg h, ih]
      by_cases hm : v ∈ F
      · rw [if_pos hm, if_pos (List.mem_cons_of_mem _ hm)]
        rw [show idxOfS v (u :: F) = idxOfS v F + 1 from by
          show (if u = v then 0 else idxOfS v F + 1) = idxOfS v F + 1
          rw [if_neg h]]
        rw [show n + 1 + idxOfS v F = n + (idxOfS v F + 1) from by omega]
      · rw [if_neg hm]
        rw [if_neg (fun hc => by
          rcases List.mem_cons.mp hc with h1 | h2
          · exact h h1.symm
          · exact hm h2)]

theorem idPairs_append :
    ∀ (F : List String) (n : Nat) (v : String),
      idPairs (F ++ [v]) n = idPairs F n ++ [(v, "ID_" ++ toString (n + F.length))] := by
  intro F
  induction F with
  | nil => intro n v; simp [idPairs]
  | cons u F ih =>
    intro n v
    show (u, "ID_" ++ toString n) :: idPairs (F ++ [v]) (n + 1) = _
    rw [ih]
    rw [show n + 1 + F.length = n + (u :: F).length from by simp [List.length_cons]; omega]
    rfl

theorem idxOfS_append_left {v : String} {F : List String} (X : List String)
    (h : v ∈ F) : idxOfS v (F ++ X) = idxOfS v F := by
  induction F with
  | nil => exact absurd h (List.not_mem_nil _)
  | cons u F ih =>
    show (if u = v then 0 else idxOfS v (F ++ X) + 1) =
      (if u = v then 0 else idxOfS v F + 1)
    by_cases hu : u = v
    · rw [if_pos hu, if_pos hu]
    · rw [if_neg hu, if_neg hu,
        ih (by rcases List.mem_cons.mp h with h1 | h2; exact absurd h1.symm hu; exact h2)]

theorem idxOfS_append_self {v : String} :
    ∀ (F X : List String), v ∉ F → idxOfS v (F ++ v :: X) = F.length := by
  intro F
  induction F with
  | nil =>
    intro X _
    show (if v = v then 0 else idxOfS v X + 1) = 0
    rw [if_pos rfl]
  | cons u F ih =>
    intro X hmem
    show (if u = v then 0 else idxOfS v (F ++ v :: X) + 1) = F.length + 1
    rw [if_neg (fun hc => hmem (List.mem_cons.mpr (Or.inl hc.symm))),
      ih X (fun hc => hmem (List.mem_cons_of_mem _ hc))]

theorem stateOfSeen_zero : stateOfSeen [] = ⟨0, []⟩ := rfl

theorem normIdsGo_spec :
    ∀ (vals F : List String),
      normIdsGo (stateOfSeen F) vals = vals.map (fun v =>
        if v.length ≤ 1 then v
        else "ID_" ++ toString (idxOfS v (F ++ firstOccsAux F (vals.filter eligibleIdB)))) := by
  intro vals
  induction vals with
  | nil => intro F; rfl
  | cons v rest ih =>
    intro F
    show (tokNormalizeIdentifier (stateOfSeen F) v).1 ::
      normIdsGo (tokNormalizeIdentifier (stateOfSeen F) v).2 rest = _
    simp only [List.map_cons]
    by_cases hlen : v.length ≤ 1
    · have hstep : tokNormalizeIdentifier (stateOfSeen F) v = (v, stateOfSeen F) := by
        unfold tokNormalizeIdentifier
        rw [if_pos hlen]
      have hfil : (v :: rest).filter eligibleIdB = rest.filter eligibleIdB := by
        rw [List.filter_cons]
        simp [eligibleIdB, hlen]
      rw [hstep, hfil, if_pos hlen]
      exact congrArg (List.cons v) (ih F)
    · have hfil : (v :: rest).filter eligibleIdB = v :: rest.filter eligibleIdB := by
        rw [List.filter_cons]
        simp [eligibleIdB, hlen]
      rw [hfil]
      by_cases hmem : v ∈ F
      · have hfa : firstOccsAux F (v :: rest.filter eligibleIdB) =
            firstOccsAux F (rest.filter eligibleIdB) := by
          show (if v ∈ F then firstOccsAux F (rest.filter eligibleIdB)
            else v :: firstOccsAux (F ++ [v]) (rest.filter eligibleIdB)) = _
          rw [if_pos hmem]
        have hstep : tokNormalizeIdentifier (stateOfSeen F) v =
            ("ID_" ++ toString (idxOfS v F), stateOfSeen F) := by
          rw [tokNormalizeIdentifier_long _ _ hlen]
          show (match mapLookup (idPairs F 0) v with
            | some x => (x, stateOfSeen F)
            | none =>
              ("ID_" ++ toString (stateOfSeen F).identifierCounter,
               ⟨(stateOfSeen F).identifierCounter + 1,
                (stateOfSeen F).identifierMap ++
                  [(v, "ID_" ++ toString (stateOfSeen F).identifierCounter)]⟩)) = _
          rw [idPairs_lookup, if_pos hmem, Nat.zero_add]
        rw [hstep, hfa, if_neg hlen, idxOfS_append_left _ hmem]
        exact congrArg (List.cons _) (ih F)
      · have hfa : firstOccsAux F (v :: rest.filter eligibleIdB) =
            v :: firstOccsAux (F ++ [v]) (rest.filter eligibleIdB) := by
          show (if v ∈ F then firstOccsAux F (rest.filter eligibleIdB)
            else v :: firstOccsAux (F ++ [v]) (rest.filter eligibleIdB)) = _
          rw [if_neg hmem]
        have hstate : stateOfSeen (F ++ [v]) =
            ⟨F.length + 1, idPairs F 0 ++ [(v, "ID_" ++ toString F.length)]⟩ := by
          unfold stateOfSeen
          rw [idPairs_append, Nat.zero_add,
            show (F ++ [v]).length = F.length + 1 from by simp]
        have hstep : tokNormalizeIdentifier (stateOfSeen F) v =
            ("ID_" ++ toString F.length, stateOfSeen (F ++ [v])) := by
          rw [tokNormalizeIdentifier_long _ _ hlen]
          show (match mapLookup (idPairs F 0) v with
            | some x => (x, stateOfSeen F)
            | none =>
              ("ID_" ++ toString (stateOfSeen F).identifierCounter,
               ⟨(stateOfSeen F).identifierCounter + 1,
                (stateOfSeen F).identifierMap ++
                  [(v, "ID_" ++ toString (stateOfSeen F).identifierCounter)]⟩)) = _
          rw [idPairs_lookup, if_neg hmem, hstate]
          rfl
        rw [hstep, hfa, if_neg hlen]
        rw [idxOfS_append_self F (firstOccsAux (F ++ [v]) (rest.filter eligibleIdB)) hmem]
        have htail := ih (F ++ [v])
        rw [show (F ++ [v]) ++ firstOccsAux (F ++ [v]) (rest.filter eligibleIdB) =
            F ++ v :: firstOccsAux (F ++ [v]) (rest.filter eligibleIdB) from by
          simp [List.append_assoc]] at htail
        exact congrArg (List.cons _) htail

theorem normIds_spec (vals : List String) :
    normIds vals = vals.map (fun v =>
      if v.length ≤ 1 then v
      else "ID_" ++ toString (idxOfS v (firstOccs (vals.filter eligibleIdB)))) := by
  have h := normIdsGo_spec vals []
  rw [stateOfSeen_zero] at h
  exact h

theorem tokenizeLoop_idents (opts : TokenizerOptions) (src : List Char)
    (file : Option String) (hni : opts.normalizeIdentifiers = true) :
    ∀ (raws : List RawTok) (st : TokenizerState),
      (∀ r ∈ raws, r.type = TokenType.IDENTIFIER) →
      (tokenizeLoop opts src file st raws).map Token.value =
        normIdsGo st (raws.map RawTok.value) := by
  intro raws
  induction raws with
  | nil => intro st _; rfl
  | cons r rest ih =>
    intro st hall
    have hid : r.type = TokenType.IDENTIFIER := hall r (List.mem_cons_self _ _)
    show (if (opts.skipComments && decide (r.type = TokenType.COMMENT)) = true then
        tokenizeLoop opts src file st rest
      else if r.type = TokenType.UNKNOWN then tokenizeLoop opts src file st rest
      else
        createToken (normalizeToken opts st r.value r.type r.kind).1 r.type
          ((offsetToLineColumn src r.pos).1 : Int) (offsetToLineColumn src r.pos).2 file ::
          tokenizeLoop opts src file (normalizeToken opts st r.value r.type r.kind).2
            rest).map Token.value = _
    rw [if_neg (by rw [hid]; simp), if_neg (by rw [hid]; simp)]
    have hnt : normalizeToken opts st r.value r.type r.kind =
        tokNormalizeIdentifier st r.value := by
      unfold normalizeToken
      rw [if_pos (by rw [hid, hni]; simp)]
    rw [List.map_cons, hnt]
    show (tokNormalizeIdentifier st r.value).1 :: _ = _
    exact congrArg (List.cons _)
      (ih _ (fun r' hr' => hall r' (List.mem_cons_of_mem _ hr')))

def addRaws : List RawTok :=
  [⟨"add", TokenType.IDENTIFIER, SynKind.identifierKind, 0⟩,
   ⟨"(", TokenType.PUNCTUATION, SynKind.otherKind, 3⟩,
   ⟨"a", TokenType.IDENTIFIER, SynKind.identifierKind, 4⟩,
   ⟨",", TokenType.PUNCTUATION, SynKind.otherKind, 5⟩,
   ⟨"b", TokenType.IDENTIFIER, SynKind.identifierKind, 6⟩,
   ⟨")", TokenType.PUNCTUATION, SynKind.otherKind, 7⟩]

def incRaws : List RawTok :=
  [⟨"increment", TokenType.IDENTIFIER, SynKind.identifierKind, 0⟩,
   ⟨"(", TokenType.PUNCTUATION, SynKind.otherKind, 9⟩,
   ⟨"step", TokenType.IDENTIFIER, SynKind.identifierKind, 10⟩,
   ⟨",", TokenType.PUNCTUATION, SynKind.otherKind, 14⟩,
   ⟨"max", TokenType.IDENTIFIER, SynKind.identifierKind, 15⟩,
   ⟨")", TokenType.PUNCTUATION, SynKind.otherKind, 18⟩]

set_option maxRecDepth 40000 in
/-- **C6.** (1) `tokenize` resets the identifier counter and map: its
output does not depend on the carried state; (2) identifier normalization
maps each value of length at least two to `ID_<n>` where `n` is the index
of its first occurrence among eligible values (so `n` starts at `0`,
repeats reuse the same placeholder) and leaves values of length at most
one unchanged; (3) on identifier streams the tokenizer emits exactly that
numbering; (4) the method-level `normalizeIdentifiers` never rewrites
identifiers of length at most one; (5) concretely, `add(a,b)` and
`increment(step,max)` tokenize to `ID_0 ( a , b )` versus
`ID_0 ( ID_1 , ID_2 )` even from a stale state, normalize at method level
to `ID_1(a,b)` versus `ID_1(ID_2,ID_3)`, and their Type-2 hashes differ
even with `ignoreLiterals` enabled. -/
theorem claim_C6_theorem :
    (∀ (opts : TokenizerOptions) (src : List Char) (file : Option String)
        (raws : List RawTok) (st0 st0' : TokenizerState),
        tokenizeT opts src file raws st0 = tokenizeT opts src file raws st0') ∧
    (∀ vals : List String, normIds vals = vals.map (fun v =>
        if v.length ≤ 1 then v
        else "ID_" ++ toString (idxOfS v (firstOccs (vals.filter eligibleIdB))))) ∧
    (∀ (opts : TokenizerOptions) (src : List Char) (file : Option String)
        (raws : List RawTok) (st : TokenizerState), opts.normalizeIdentifiers = true →
        (∀ r ∈ raws, r.type = TokenType.IDENTIFIER) →
        (tokenizeLoop opts src file st raws).map Token.value =
          normIdsGo st (raws.map RawTok.value)) ∧
    (∀ (m : IdMap) (w : String), w.length ≤ 1 → normalizeWordRun m w = (w, m)) ∧
    ((tokenizeT ⟨true, true, true⟩ "add(a,b)".data none addRaws
        ⟨7, [("zz", "ID_5")]⟩).map Token.value = ["ID_0", "(", "a", ",", "b", ")"] ∧
     (tokenizeT ⟨true, true, true⟩ "increment(step,max)".data none incRaws
        ⟨7, [("zz", "ID_5")]⟩).map Token.value =
          ["ID_0", "(", "ID_1", ",", "ID_2", ")"] ∧
     normalizeIdentifiers "add(a,b)" [] = ("ID_1(a,b)", [("add", "ID_1")]) ∧
     normalizeIdentifiers "increment(step,max)" [] =
       ("ID_1(ID_2,ID_3)", [("increment", "ID_1"), ("step", "ID_2"), ("max", "ID_3")]) ∧
     computeType2Hash true ["add(a,b)"] ≠ computeType2Hash true ["increment(step,max)"]) := by
  refine ⟨fun opts src file raws st0 st0' => rfl,
    normIds_spec,
    fun opts src file raws st hni hall => tokenizeLoop_idents opts src file hni raws st hall,
    fun m w h => normalizeWordRun_of_ineligible m (by simp [type2Eligible, h]),
    by decide, by decide, by decide, by decide, by decide⟩

set_option maxRecDepth 40000 in
theorem claim_C6_witness :
    normalizeWordRun [] "a" = ("a", []) ∧
    (tokenizeLoop ⟨true, true, true⟩ [] none ⟨0, []⟩
      [⟨"foo", TokenType.IDENTIFIER, SynKind.identifierKind, 0⟩]).map Token.value =
      normIdsGo ⟨0, []⟩ ["foo"] :=
  ⟨claim_C6_theorem.2.2.2.1 [] "a" (by decide),
   claim_C6_theorem.2.2.1 ⟨true, true, true⟩ [] none
     [⟨"foo", TokenType.IDENTIFIER, SynKind.identifierKind, 0⟩] ⟨0, []⟩ rfl (by decide)⟩

/-! ### Log-statement filtering (utils.isLogStatement, CodeCloneBaseCheck)

`isLogStatement` trims the statement text and tests it against
`/^(console|hilog|Logger)\.\w+\s*\([\s\S]*\)$/i`.  The pattern is
anchored at both ends, so only statements that are in their entirety a
single `console`/`hilog`/`Logger` dot-call match; the quantifiers are
deterministic here because a shorter `\w+` or `\s*` match would place a
word character where `\s` or `(` is required. -/

def stripCi : List Char → List Char → Option (List Char)
  | [], rest => some rest
  | _ :: _, [] => none
  | c :: p, d :: s => if lowerChar d = lowerChar c then stripCi p s else none

def isLogMatch (p : String) (text : List Char) : Bool :=
  match stripCi p.data text with
  | none => false
  | some ('.' :: r2) =>
    let w := r2.takeWhile isWordChar
    let r3 := (r2.dropWhile isWordChar).dropWhile isWsChar
    if w.isEmpty then false
    else
      match r3 with
      | '(' :: r5 =>
        match r5.getLast? with
        | some ')' => true
        | _ => false
      | _ => false
  | some _ => false

def isLogStatement (stmt : String) : Bool :=
  let text := trimChars stmt.data
  isLogMatch "console" text || isLogMatch "hilog" text || isLogMatch "Logger" text

/-- `filterStatements`: with `ignoreLogs` unset the list is returned as
is; otherwise the pure log statements are removed. -/
def filterStatements (ignoreLogs : Bool) (stmts : List String) : List String :=
  if !ignoreLogs then stmts else stmts.filter (fun s => !(isLogStatement s))

/-- `extractMethodInfo`, restricted to the statement pipeline: no body or
an empty statement list yields `null`; otherwise the filtered list is
kept, unless filtering left nothing. -/
def extractMethodStmts (ignoreLogs : Bool) (body : Option (List String)) :
    Option (List String) :=
  match body with
  | none => none
  | some allStmts =>
    if allStmts.isEmpty then none
    else
      let stmts := filterStatements ignoreLogs allStmts
      if stmts.isEmpty then none else some stmts

/-- `collectMethods`: a method is kept exactly when extraction succeeds
and the filtered statement count reaches `minStmts`. -/
def collectEligible (minStmts : Nat) (ignoreLogs : Bool)
    (bodies : List (Option (List String))) : List (List String) :=
  (bodies.filterMap (extractMethodStmts ignoreLogs)).filter
    (fun st => decide (minStmts ≤ st.length))

/-- **C7.** With `ignoreLogs` set, exactly the statements whose whole
trimmed text matches the `console|hilog|Logger` dot-call pattern are
removed before counting and hashing (membership characterization);
without it nothing is filtered; a method with no remaining statements is
dropped, and `collectEligible` keeps a method iff extraction succeeded
and the filtered count reaches `minStmts`.  Concretely the pattern
accepts whole-statement log calls (case-insensitively, with inner
whitespace), rejects log calls embedded in larger expressions, and a
six-statement method with one log line survives at `minStmts = 5` while
a five-statement one with one log line is skipped. -/
theorem claim_C7_theorem :
    (∀ (s : String) (stmts : List String),
        s ∈ filterStatements true stmts ↔ s ∈ stmts ∧ isLogStatement s = false) ∧
    (∀ stmts : List String, filterStatements false stmts = stmts) ∧
    (∀ il : Bool, extractMethodStmts il none = none) ∧
    (∀ (il : Bool) (allStmts stmts : List String),
        extractMethodStmts il (some allStmts) = some stmts →
        stmts = filterStatements il allStmts ∧ stmts ≠ []) ∧
    (∀ (minStmts : Nat) (il : Bool) (bodies : List (Option (List String)))
        (st : List String),
        st ∈ collectEligible minStmts il bodies ↔
          (∃ b ∈ bodies, extractMethodStmts il b = some st) ∧ minStmts ≤ st.length) ∧
    (isLogStatement "console.log(\x22x\x22)" = true ∧
     isLogStatement "hilog.info(a, b)" = true ∧
     isLogStatement "LOGGER.warn( x )" = true ∧
     isLogStatement "  console.debug(msg)  " = true ∧
     isLogStatement "doSomething() && console.log(\x22done\x22)" = false ∧
     isLogStatement "const x = console.log(1)" = false ∧
     isLogStatement "console.log(1) + 1" = false ∧
     collectEligible 5 true [some ["a=1", "b=2", "console.log(a)", "c=3", "d=4", "e=5"]]
       = [["a=1", "b=2", "c=3", "d=4", "e=5"]] ∧
     collectEligible 5 true [some ["a=1", "b=2", "console.log(a)", "c=3", "d=4"]] = [] ∧
     collectEligible 5 true [some ["console.log(a)"]] = []) := by
  refine ⟨?_, fun stmts => rfl, fun il => rfl, ?_, ?_, by decide, by decide, by decide,
    by decide, by decide, by decide, by decide, by decide, by decide, by decide⟩
  · intro s stmts
    show s ∈ stmts.filter (fun s => !(isLogStatement s)) ↔ _
    rw [List.mem_filter]
    constructor
    · intro ⟨h1, h2⟩
      exact ⟨h1, by simpa using h2⟩
    · intro ⟨h1, h2⟩
      exact ⟨h1, by simpa using h2⟩
  · intro il allStmts stmts h
    have h' : (if allStmts.isEmpty = true then none
        else if (filterStatements il allStmts).isEmpty = true then none
        else some (filterStatements il allStmts)) = some stmts := h
    by_cases h1 : allStmts.isEmpty = true
    · rw [if_pos h1] at h'
      exact absurd h' (by simp)
    · rw [if_neg h1] at h'
      by_cases h2 : (filterStatements il allStmts).isEmpty = true
      · rw [if_pos h2] at h'
        exact absurd h' (by simp)
      · rw [if_neg h2] at h'
        refine ⟨(Option.some.inj h').symm, ?_⟩
        intro hc
        rw [Option.some.inj h', hc] at h2
        exact h2 rfl
  · intro minStmts il bodies st
    unfold collectEligible
    rw [List.mem_filter, List.mem_filterMap]
    constructor
    · intro ⟨h1, h2⟩
      exact ⟨h1, by simpa using h2⟩
    · intro ⟨h1, h2⟩
      exact ⟨h1, by simpa using h2⟩

theorem claim_C7_witness :
    ["x=1"] = filterStatements true ["console.log(a)", "x=1"] ∧ ["x=1"] ≠ [] :=
  claim_C7_theorem.2.2.2.1 true ["console.log(a)", "x=1"] ["x=1"] (by decide)

/-! ### Scope classification (CodeCloneFragmentCheck)

`resolveCodeLocation` walks the cached file's classes (skipping
`%`-prefixed default classes) and methods (skipping `%`-prefixed names
and `constructor`), and on the first method whose line span contains the
clone's range sets `className` and `methodName` together; otherwise both
stay unset.  `determineScope` then classifies. -/

structure CodeLocation where
  file : String
  startLine : Int
  endLine : Int
  className : Option String
  methodName : Option String
deriving DecidableEq, Repr

structure MethodDecl where
  name : String
  line : Option Int
  body : Option (List (Option Int))
deriving DecidableEq, Repr

structure ClassDecl where
  name : String
  methods : List MethodDecl
deriving DecidableEq, Repr

structure FileDecl where
  classes : List ClassDecl
deriving DecidableEq, Repr

def getMethodEndLine (m : MethodDecl) : Int :=
  match m.body with
  | none => m.line.getD 0
  | some stmts =>
    stmts.foldl (fun maxLine pos =>
      match pos with
      | some line => if maxLine < line then line else maxLine
      | none => maxLine) (m.line.getD 0)

def strStartsPct (s : String) : Bool :=
  match s.data with
  | '%' :: _ => true
  | _ => false

def findInMethods (className : String) (startLine endLine : Int) :
    List MethodDecl → Option (String × String)
  | [] => none
  | m :: rest =>
    if strStartsPct m.name || decide (m.name = "constructor") then
      findInMethods className startLine endLine rest
    else if m.line.getD 0 ≤ startLine ∧ endLine ≤ getMethodEndLine m then
      some (className, m.name)
    else findInMethods className startLine endLine rest

def findInClasses (startLine endLine : Int) : List ClassDecl → Option (String × String)
  | [] => none
  | c :: rest =>
    if strStartsPct c.name then findInClasses startLine endLine rest
    else
      match findInMethods c.name startLine endLine c.methods with
      | some r => some r
      | none => findInClasses startLine endLine rest

def resolveCodeLocation (fileCache : Option FileDecl) (file : String)
    (startLine endLine : Int) : CodeLocation :=
  match fileCache with
  | none => ⟨file, startLine, endLine, none, none⟩
  | some fd =>
    match findInClasses startLine endLine fd.classes with
    | some r => ⟨file, startLine, endLine, some r.1, some r.2⟩
    | none => ⟨file, startLine, endLine, none, none⟩

inductive CloneScope where
  | SAME_METHOD
  | SAME_CLASS
  | DIFFERENT_CLASS
deriving DecidableEq, Repr

def determineScope (loc1 loc2 : CodeLocation) : CloneScope :=
  if loc1.file = loc2.file ∧ loc1.className = loc2.className ∧
      loc1.methodName = loc2.methodName ∧ loc1.methodName ≠ none then
    CloneScope.SAME_METHOD
  else if loc1.file = loc2.file ∧ loc1.className = loc2.className ∧
      loc1.className ≠ none then
    CloneScope.SAME_CLASS
  else CloneScope.DIFFERENT_CLASS

/-- The file-model used in the concrete C8 scenarios: a default class
holding a top-level function, a class `A` with a constructor and two
methods, and a class `B` with one method. -/
def fdC8 : FileDecl :=
  ⟨[⟨"%dflt", [⟨"topFn", some 1, some [some 1, some 5]⟩]⟩,
    ⟨"A", [⟨"constructor", some 10, some [some 10, some 12]⟩,
           ⟨"m1", some 20, some [some 20, some 30]⟩,
           ⟨"m2", some 40, some [some 40, some 50]⟩]⟩,
    ⟨"B", [⟨"m3", some 60, some [some 60, some 70]⟩]⟩]⟩

/-- **C8.** `determineScope` returns SAME_METHOD exactly when the two
endpoints agree on file, class and method with the method resolved;
SAME_CLASS exactly when they agree on file and a resolved class but the
methods do not agree as resolved; DIFFERENT_CLASS otherwise.
`resolveCodeLocation` sets class and method jointly (one is unset iff
the other is) and preserves file and line range.  Concretely: two ranges
inside `A.m1` are SAME_METHOD, ranges in `A.m1` and `A.m2` are
SAME_CLASS, ranges in `A.m1` and `B.m3` are DIFFERENT_CLASS, and a range
in a top-level function (under the skipped `%dflt` class) against `A.m1`
is DIFFERENT_CLASS. -/
theorem claim_C8_theorem :
    (∀ loc1 loc2 : CodeLocation,
      (determineScope loc1 loc2 = CloneScope.SAME_METHOD ↔
        loc1.file = loc2.file ∧ loc1.className = loc2.className ∧
        loc1.methodName = loc2.methodName ∧ loc1.methodName ≠ none) ∧
      (determineScope loc1 loc2 = CloneScope.SAME_CLASS ↔
        loc1.file = loc2.file ∧ loc1.className = loc2.className ∧
        loc1.className ≠ none ∧
        ¬ (loc1.methodName = loc2.methodName ∧ loc1.methodName ≠ none)) ∧
      (determineScope loc1 loc2 = CloneScope.DIFFERENT_CLASS ↔
        ¬ (loc1.file = loc2.file ∧ loc1.className = loc2.className ∧
          loc1.className ≠ none) ∧
        ¬ (loc1.file = loc2.file ∧ loc1.className = loc2.className ∧
          loc1.methodName = loc2.methodName ∧ loc1.methodName ≠ none))) ∧
    (∀ (cache : Option FileDecl) (file : String) (s e : Int),
      ((resolveCodeLocation cache file s e).className = none ↔
        (resolveCodeLocation cache file s e).methodName = none) ∧
      (resolveCodeLocation cache file s e).file = file ∧
      (resolveCodeLocation cache file s e).startLine = s ∧
      (resolveCodeLocation cache file s e).endLine = e) ∧
    (determineScope (resolveCodeLocation (some fdC8) "f.ts" 21 23)
        (resolveCodeLocation (some fdC8) "f.ts" 25 28) = CloneScope.SAME_METHOD ∧
     determineScope (resolveCodeLocation (some fdC8) "f.ts" 21 23)
        (resolveCodeLocation (some fdC8) "f.ts" 41 43) = CloneScope.SAME_CLASS ∧
     determineScope (resolveCodeLocation (some fdC8) "f.ts" 21 23)
        (resolveCodeLocation (some fdC8) "f.ts" 61 63) = CloneScope.DIFFERENT_CLASS ∧
     determineScope (resolveCodeLocation (some fdC8) "f.ts" 2 4)
        (resolveCodeLocation (some fdC8) "f.ts" 21 23) = CloneScope.DIFFERENT_CLASS) := by
  refine ⟨?_, ?_, by decide, by decide, by decide, by decide⟩
  · intro loc1 loc2
    unfold determineScope
    by_cases h1 : (loc1.file = loc2.file ∧ loc1.className = loc2.className ∧
        loc1.methodName = loc2.methodName ∧ loc1.methodName ≠ none)
    · rw [if_pos h1]
      exact ⟨⟨fun _ => h1, fun _ => rfl⟩,
        ⟨fun hc => absurd hc (by decide), fun hr => absurd ⟨h1.2.2.1, h1.2.2.2⟩ hr.2.2.2⟩,
        ⟨fun hc => absurd hc (by decide), fun hr => absurd h1 hr.2⟩⟩
    · by_cases h2 : (loc1.file = loc2.file ∧ loc1.className = loc2.className ∧
          loc1.className ≠ none)
      · rw [if_neg h1, if_pos h2]
        exact ⟨⟨fun hc => absurd hc (by decide), fun hr => absurd hr h1⟩,
          ⟨fun _ => ⟨h2.1, h2.2.1, h2.2.2, fun hm => h1 ⟨h2.1, h2.2.1, hm.1, hm.2⟩⟩,
           fun _ => rfl⟩,
          ⟨fun hc => absurd hc (by decide), fun hr => absurd h2 hr.1⟩⟩
      · rw [if_neg h1, if_neg h2]
        exact ⟨⟨fun hc => absurd hc (by decide), fun hr => absurd hr h1⟩,
          ⟨fun hc => absurd hc (by decide), fun hr => absurd ⟨hr.1, hr.2.1, hr.2.2.1⟩ h2⟩,
          ⟨fun _ => ⟨h2, h1⟩, fun _ => rfl⟩⟩
  · intro cache file s e
    cases cache with
    | none => exact ⟨Iff.rfl, rfl, rfl, rfl⟩
    | some fd =>
      have hres : resolveCodeLocation (some fd) file s e =
          (match findInClasses s e fd.classes with
            | some r => (⟨file, s, e, some r.1, some r.2⟩ : CodeLocation)
            | none => ⟨file, s, e, none, none⟩) := rfl
      rw [hres]
      cases hf : findInClasses s e fd.classes with
      | none => exact ⟨Iff.rfl, rfl, rfl, rfl⟩
      | some r =>
        exact ⟨⟨fun hc => absurd hc (by simp), fun hc => absurd hc (by simp)⟩,
          rfl, rfl, rfl⟩

/-! ### Rule options (utils.hasSameType / getRuleOption)

JavaScript values are modelled with `typeof` semantics: `null` and
arrays have `typeof` `"object"`.  `getRuleOption` copies the defaults
and overwrites a key only when the first element of `rule.option` is a
plain object that carries the key with a value of the same type as the
built-in default. -/

inductive JsValue where
  | nullV
  | undefinedV
  | boolV (b : Bool)
  | numV (n : Int)
  | strV (s : String)
  | arrV (elems : List JsValue)
  | objV (fields : List (String × JsValue))

def typeOf : JsValue → String
  | .nullV => "object"
  | .undefinedV => "undefined"
  | .boolV _ => "boolean"
  | .numV _ => "number"
  | .strV _ => "string"
  | .arrV _ => "object"
  | .objV _ => "object"

def isArrayV : JsValue → Bool
  | .arrV _ => true
  | _ => false

def isNullV : JsValue → Bool
  | .nullV => true
  | _ => false

def hasSameType (d c : JsValue) : Bool :=
  if isNullV d then isNullV c
  else if isArrayV d then isArrayV c
  else if typeOf d = "object" then
    decide (typeOf c = "object") && !(isNullV c) && !(isArrayV c)
  else decide (typeOf c = typeOf d)

structure RuleM where
  option : JsValue

def objGet : List (String × JsValue) → String → Option JsValue
  | [], _ => none
  | (k, v) :: rest, key => if k = key then some v else objGet rest key

/-- One `for (const key of Object.keys(defaults))` step: keep the
default unless the option object carries the key with a same-typed
value. -/
def applyOpt (fields : List (String × JsValue)) (kv : String × JsValue) :
    String × JsValue :=
  match objGet fields kv.1 with
  | none => kv
  | some cand => if hasSameType kv.2 cand then (kv.1, cand) else kv

def getRuleOption (rule : Option RuleM) (defaults : List (String × JsValue)) :
    List (String × JsValue) :=
  match rule with
  | none => defaults
  | some r =>
    match r.option with
    | JsValue.arrV (first :: _) =>
      match first with
      | JsValue.objV fields => defaults.map (applyOpt fields)
      | _ => defaults
    | _ => defaults

/-- `getMinStmts`: read `minStmts` from the merged options (default 5). -/
def getMinStmtsV (rule : Option RuleM) : JsValue :=
  (objGet (getRuleOption rule [("minStmts", JsValue.numV 5)]) "minStmts").getD
    JsValue.undefinedV

/-- **C9.** With a present rule whose first option entry is an object:
a key absent from the object keeps its built-in default, and a key whose
value's type differs from the default's type (per `hasSameType`) also
keeps the default; with no rule the defaults are returned unchanged; for
a primitive default `hasSameType` is exactly `typeof` agreement.
Concretely `getMinStmts` returns the default 5 when `minStmts` is given
as the string `"10"` or absent, and honours a numeric 3. -/
theorem claim_C9_theorem :
    (∀ defaults : List (String × JsValue), getRuleOption none defaults = defaults) ∧
    (∀ (rest : List JsValue) (fields defaults : List (String × JsValue))
        (k : String) (d : JsValue), (k, d) ∈ defaults → objGet fields k = none →
        (k, d) ∈ getRuleOption (some ⟨JsValue.arrV (JsValue.objV fields :: rest)⟩)
          defaults) ∧
    (∀ (rest : List JsValue) (fields defaults : List (String × JsValue))
        (k : String) (d cand : JsValue), (k, d) ∈ defaults →
        objGet fields k = some cand → hasSameType d cand = false →
        (k, d) ∈ getRuleOption (some ⟨JsValue.arrV (JsValue.objV fields :: rest)⟩)
          defaults) ∧
    (∀ d c : JsValue, isNullV d = false → isArrayV d = false → typeOf d ≠ "object" →
        (hasSameType d c = true ↔ typeOf c = typeOf d)) ∧
    (getMinStmtsV (some ⟨JsValue.arrV [JsValue.objV [("minStmts", JsValue.strV "10")]]⟩) =
        JsValue.numV 5 ∧
     getMinStmtsV (some ⟨JsValue.arrV [JsValue.objV [("maxStmts", JsValue.numV 100)]]⟩) =
        JsValue.numV 5 ∧
     getMinStmtsV (some ⟨JsValue.arrV [JsValue.objV [("minStmts", JsValue.numV 3)]]⟩) =
        JsValue.numV 3 ∧
     getMinStmtsV none = JsValue.numV 5 ∧
     getMinStmtsV (some ⟨JsValue.strV "oops"⟩) = JsValue.numV 5) := by
  refine ⟨fun defaults => rfl, ?_, ?_, ?_, rfl, rfl, rfl, rfl, rfl⟩
  · intro rest fields defaults k d hmem hobj
    show (k, d) ∈ defaults.map (applyOpt fields)
    have h := List.mem_map_of_mem (applyOpt fields) hmem
    rwa [show applyOpt fields (k, d) = (k, d) from by unfold applyOpt; rw [hobj]] at h
  · intro rest fields defaults k d cand hmem hobj hty
    show (k, d) ∈ defaults.map (applyOpt fields)
    have h := List.mem_map_of_mem (applyOpt fields) hmem
    rwa [show applyOpt fields (k, d) = (k, d) from by
      unfold applyOpt
      rw [hobj]
      show (if hasSameType d cand = true then (k, cand) else (k, d)) = (k, d)
      rw [hty]
      simp] at h
  · intro d c hnull harr hobj
    unfold hasSameType
    rw [if_neg (by rw [hnull]; simp), if_neg (by rw [harr]; simp), if_neg hobj]
    simp

theorem claim_C9_witness :
    ("minStmts", JsValue.numV 5) ∈
      getRuleOption (some ⟨JsValue.arrV [JsValue.objV [("minStmts", JsValue.strV "10")]]⟩)
        [("minStmts", JsValue.numV 5)] ∧
    ("minStmts", JsValue.numV 5) ∈
      getRuleOption (some ⟨JsValue.arrV [JsValue.objV [("maxStmts", JsValue.numV 100)]]⟩)
        [("minStmts", JsValue.numV 5)] ∧
    (hasSameType (JsValue.numV 5) (JsValue.strV "10") = true ↔
      typeOf (JsValue.strV "10") = typeOf (JsValue.numV 5)) :=
  ⟨claim_C9_theorem.2.2.1 [] [("minStmts", JsValue.strV "10")]
      [("minStmts", JsValue.numV 5)] "minStmts" (JsValue.numV 5) (JsValue.strV "10")
      (List.mem_cons_self _ _) rfl rfl,
   claim_C9_theorem.2.1 [] [("maxStmts", JsValue.numV 100)]
      [("minStmts", JsValue.numV 5)] "minStmts" (JsValue.numV 5)
      (List.mem_cons_self _ _) rfl,
   claim_C9_theorem.2.2.2.1 (JsValue.numV 5) (JsValue.strV "10")
      rfl rfl (by decide)⟩

end HomecheckExtrule
